import Mathlib

/-!
MineSweeperMatrix: cells, flood-fill reveal and game status.

A shallow embedding of `field.cpp` / `matrix.cpp` (namespace `msm`).

* A `Field*` is an index into `World.fields`, the heap of `Field` objects in the
  order in which they were allocated.
* `World` also carries the members of the one `Matrix::Impl` and a ghost `log`
  of every observer callback invoked, in order.  Client observers are passive:
  they do not call back into the library.
* `uint8_t` / `uint16_t` arithmetic is `Nat` arithmetic wrapped at 256 / 65536;
  `int` arithmetic is `Int` arithmetic wrapped to 32 bits by `int32` (signed
  overflow, which C++ leaves undefined, is taken to wrap).
* `Matrix::reset` takes the values of its `rand()` calls as a list and reports
  what can stop it as a `Fault`.
* The secondary `boost::signals2` channel and the JNI reference are not modelled.
-/

set_option autoImplicit false

namespace msm

/-! ## Data model (field.hpp, matrix.hpp) -/

/-- Enumeration `FIELDSTATUS` of field.hpp. -/
inductive FIELDSTATUS where
  | FS_HIDDEN
  | FS_UNHIDDEN
  | FS_MARKED
  | FS_QUERIED
  | FS_BOMB
  deriving DecidableEq

/-- Integer value of a `FIELDSTATUS` enumerator (declaration order, from 0). -/
def FIELDSTATUS.toNat : FIELDSTATUS → Nat
  | .FS_HIDDEN => 0
  | .FS_UNHIDDEN => 1
  | .FS_MARKED => 2
  | .FS_QUERIED => 3
  | .FS_BOMB => 4

/-- Enumeration `GAMESTATUS` of matrix.hpp. -/
inductive GAMESTATUS where
  | GS_READY
  | GS_RUNNING
  | GS_WON
  | GS_LOST
  deriving DecidableEq

/-- Struct `Position` of field.hpp. -/
structure Position where
  X : Nat
  Y : Nat
  deriving DecidableEq

/-- An entry of `Field::Impl::observers`: either the `Matrix::Impl` of the grid
(registered by `Matrix::reset`) or a client object, named by a number. -/
inductive FieldObserver where
  | impl
  | client (id : Nat)
  deriving DecidableEq

/-- A `Field` object with its `Field::Impl`; `isBomb` is the dynamic type
(`Bomb` or plain `Field`) that selects the virtual `reveal` / `informNeighbours`. -/
structure Field where
  isBomb : Bool
  pos : Position
  status : FIELDSTATUS
  adjacentBombs : Nat
  neighbours : List Nat
  observers : List FieldObserver
  deriving DecidableEq

/-- Class `Dimensions` of matrix.hpp (three `uint16_t` members). -/
structure Dimensions where
  x : Nat
  y : Nat
  bombs : Nat
  deriving DecidableEq

/-- A callback invocation.  The first four are the methods of `MatrixObserver`,
the last two those of `FieldObserver`; `observer` is the receiver and `field`
the `Field const&` argument. -/
inductive Notification where
  | onGameStatusChanged (observer : Nat) (status : GAMESTATUS)
  | onRemainingBombsChanged (observer : Nat) (bombs : Int)
  | onFieldStatusChanged (observer : Nat) (field : Nat) (status : FIELDSTATUS)
  | onFieldDelete (observer : Nat) (field : Nat)
  | fieldStatusChanged (observer : FieldObserver) (field : Nat) (status : FIELDSTATUS)
  | fieldDelete (observer : FieldObserver) (field : Nat)
  deriving DecidableEq

/-- Program state: the heap of `Field` objects, the members of `Matrix::Impl`
(`observers`, `dim`, `status`, `unhidden`, `marked`, `queried`; the cell at
`matrix[x][y]` is `fields[y * dim.x + x]`) and the log of invoked callbacks. -/
structure World where
  fields : List Field
  observers : List Nat
  dim : Dimensions
  status : GAMESTATUS
  unhidden : Nat
  marked : Nat
  queried : Nat
  log : List Notification
  deriving DecidableEq

/-- Wrap an integer to the range of a 32-bit `int`. -/
def int32 (z : Int) : Int := (z + 2147483648) % 4294967296 - 2147483648

/-- Increment of a `uint16_t`: 65535 wraps to 0. -/
def inc16 (n : Nat) : Nat := (n + 1) % 65536

/-- Decrement of a `uint16_t`: 0 wraps to 65535. -/
def dec16 (n : Nat) : Nat := if n = 0 then 65535 else n - 1

/-! ## Matrix::Impl as observer of its fields (matrix.cpp) -/

/-- Macro `SIGNAL_FIELDSTATUSCHANGED(matrix, field, status)` of matrix.cpp. -/
def SIGNAL_MATRIX_FIELDSTATUSCHANGED (w : World) (field : Nat) (status : FIELDSTATUS) : World :=
  { w with log := w.log ++ w.observers.map (fun o => Notification.onFieldStatusChanged o field status) }

/-- Macro `SIGNAL_REMAININGBOMBSCHANGED(matrix, bombs)` of matrix.cpp. -/
def SIGNAL_REMAININGBOMBSCHANGED (w : World) (bombs : Int) : World :=
  { w with log := w.log ++ w.observers.map (fun o => Notification.onRemainingBombsChanged o bombs) }

/-- Macro `SIGNAL_GAMESTATUSCHANGED(matrix, status)` of matrix.cpp. -/
def SIGNAL_GAMESTATUSCHANGED (w : World) (status : GAMESTATUS) : World :=
  { w with log := w.log ++ w.observers.map (fun o => Notification.onGameStatusChanged o status) }

/-- Macro `SIGNAL_FIELDDELETE(matrix, field)` of matrix.cpp. -/
def SIGNAL_MATRIX_FIELDDELETE (w : World) (field : Nat) : World :=
  { w with log := w.log ++ w.observers.map (fun o => Notification.onFieldDelete o field) }

/-- The `switch (newStatus)` of `Matrix::Impl::onFieldStatusChanged`. -/
def logFieldStatus (w : World) : FIELDSTATUS → World
  | .FS_HIDDEN => { w with queried := dec16 w.queried }
  | .FS_UNHIDDEN => { w with unhidden := inc16 w.unhidden }
  | .FS_MARKED => { w with marked := inc16 w.marked }
  | .FS_QUERIED => { w with marked := dec16 w.marked, queried := inc16 w.queried }
  | .FS_BOMB => { w with status := .GS_LOST }

/-- The `if (status != GS_LOST)` block of `Matrix::Impl::onFieldStatusChanged`. -/
def deriveStatus (w : World) : World :=
  if w.status ≠ .GS_LOST then
    if (w.unhidden : Int) = int32 (int32 ((w.dim.x : Int) * (w.dim.y : Int)) - (w.dim.bombs : Int))
        ∧ w.marked = w.dim.bombs then
      { w with status := .GS_WON }
    else
      { w with status := .GS_RUNNING }
  else w

/-- Method `Matrix::Impl::onFieldStatusChanged`. -/
def onFieldStatusChanged (w : World) (field : Nat) (newStatus : FIELDSTATUS) : World :=
  let old := w.status
  let w1 := deriveStatus (logFieldStatus w newStatus)
  let w2 := SIGNAL_MATRIX_FIELDSTATUSCHANGED w1 field newStatus
  let w3 :=
    if newStatus = .FS_MARKED ∨ newStatus = .FS_QUERIED then
      SIGNAL_REMAININGBOMBSCHANGED w2 ((w2.dim.bombs : Int) - (w2.marked : Int))
    else w2
  if w3.status ≠ old then SIGNAL_GAMESTATUSCHANGED w3 w3.status else w3

/-- Method `Matrix::Impl::onFieldDelete`. -/
def onFieldDelete (w : World) (field : Nat) : World :=
  SIGNAL_MATRIX_FIELDDELETE w field

/-! ## Field and Bomb (field.cpp) -/

/-- One iteration of the loop of `SIGNAL_FIELDSTATUSCHANGED` in field.cpp:
the virtual call `(*it)->onFieldStatusChanged(field, status)`. -/
def notifyFieldStatusChanged (field : Nat) (status : FIELDSTATUS) (w : World) : FieldObserver → World
  | .impl =>
    onFieldStatusChanged { w with log := w.log ++ [Notification.fieldStatusChanged .impl field status] }
      field status
  | .client k => { w with log := w.log ++ [Notification.fieldStatusChanged (.client k) field status] }

/-- Macro `SIGNAL_FIELDSTATUSCHANGED(field, status)` of field.cpp, run over the
observer list of the emitting field. -/
def SIGNAL_FIELDSTATUSCHANGED (w : World) (observers : List FieldObserver) (field : Nat)
    (status : FIELDSTATUS) : World :=
  observers.foldl (notifyFieldStatusChanged field status) w

/-- Assignment `pImpl->status = s` on the field at address `i`. -/
def setStatus (w : World) (i : Nat) (f : Field) (s : FIELDSTATUS) : World :=
  { w with fields := w.fields.set i { f with status := s } }

/-- Method `Field::cycleMark`; `none` when `i` is not the address of a field. -/
def cycleMark (w : World) (i : Nat) : Option World :=
  match w.fields[i]? with
  | none => none
  | some f =>
    let old := f.status
    let new : FIELDSTATUS :=
      match f.status with
      | .FS_HIDDEN => .FS_MARKED
      | .FS_MARKED => .FS_QUERIED
      | .FS_QUERIED => .FS_HIDDEN
      | s => s
    let w1 := setStatus w i f new
    if new ≠ old then some (SIGNAL_FIELDSTATUSCHANGED w1 f.observers i new) else some w1

/-- Method `Bomb::reveal`, without its return value. -/
def bombReveal (w : World) (i : Nat) (f : Field) : World :=
  if f.status ≠ .FS_MARKED ∧ f.status ≠ .FS_BOMB ∧ f.status ≠ .FS_UNHIDDEN then
    SIGNAL_FIELDSTATUSCHANGED (setStatus w i f .FS_BOMB) f.observers i .FS_BOMB
  else w

/-- The state change of the virtual call `reveal()` on the field at address `i`:
`Bomb::reveal` for a bomb, else `Field::reveal`, which recurses into the
neighbours.  `fuel` bounds the depth of the recursion; the result is `none` when
the fuel runs out or an address is not that of a field. -/
def revealAux : Nat → World → Nat → Option World
  | 0, _, _ => none
  | fuel + 1, w, i =>
    match w.fields[i]? with
    | none => none
    | some f =>
      if f.isBomb then some (bombReveal w i f)
      else if f.status ≠ .FS_MARKED ∧ f.status ≠ .FS_UNHIDDEN then
        let w1 := SIGNAL_FIELDSTATUSCHANGED (setStatus w i f .FS_UNHIDDEN) f.observers i .FS_UNHIDDEN
        if f.adjacentBombs = 0 then
          f.neighbours.foldlM (fun w n => revealAux fuel w n) w1
        else some w1
      else some w

/-- The value returned by `reveal()`: `FS_BOMB` converted to `uint8_t` for a
bomb, `pImpl->adjacentBombs` for a plain field. -/
def revealResult (f : Field) : Nat :=
  if f.isBomb then FIELDSTATUS.FS_BOMB.toNat else f.adjacentBombs

/-- The virtual call `reveal()` on the field at address `i`: the new state and
the returned `uint8_t`.  The recursion never nests deeper than the number of
fields plus one, which is the fuel given. -/
def reveal (w : World) (i : Nat) : Option (World × Nat) :=
  match revealAux (w.fields.length + 1) w i with
  | none => none
  | some w1 =>
    match w1.fields[i]? with
    | none => none
    | some f => some (w1, revealResult f)

/-! ## Dimensions and Matrix::reset (matrix.cpp) -/

/-- Method `Dimensions::setBombs`: the comparison and the product are `int`
arithmetic, the assignment converts back to `uint16_t`. -/
def Dimensions.setBombs (d : Dimensions) (bombs : Nat) : Dimensions :=
  if (bombs : Int) > int32 ((d.x : Int) * (d.y : Int)) then
    { d with bombs := (int32 ((d.x : Int) * (d.y : Int)) % 65536).toNat }
  else
    { d with bombs := bombs }

/-- Method `Dimensions::setX`. -/
def Dimensions.setX (d : Dimensions) (x : Nat) : Dimensions :=
  Dimensions.setBombs { d with x := x } d.bombs

/-- Method `Dimensions::setY`. -/
def Dimensions.setY (d : Dimensions) (y : Nat) : Dimensions :=
  Dimensions.setBombs { d with y := y } d.bombs

/-- Constructor `Dimensions::Dimensions()`. -/
def Dimensions.zero : Dimensions := { x := 0, y := 0, bombs := 0 }

/-- Constructor `Dimensions::Dimensions(x, y, bombs)`. -/
def Dimensions.new (x y bombs : Nat) : Dimensions :=
  ((Dimensions.zero.setX x).setY y).setBombs bombs

/-- What can go wrong in `Matrix::reset`: the supply of `rand()` values ends
before the placement loop does, a remainder by zero, an access outside the
helper matrix, or the address of no field. -/
inductive Fault where
  | noMoreDraws
  | remainderByZero
  | outOfBounds
  | badAddress
  deriving DecidableEq

/-- The loop header `for y < dimY, for x < dimX` shared by the loops of
`Matrix::reset` and `deleteMatrix`: the pairs `(x, y)` in iteration order. -/
def loopYX (dimX dimY : Nat) : List (Nat × Nat) :=
  (List.range dimY).flatMap (fun y => (List.range dimX).map (fun x => (x, y)))

/-- Address of the field `matrix[x][y]`: fields are allocated in the order of
`loopYX`, so it is the allocation number. -/
def cellAddr (dimX x y : Nat) : Nat := y * dimX + x

/-- One iteration of `SIGNAL_FIELDDELETE` in field.cpp. -/
def notifyFieldDelete (field : Nat) (w : World) : FieldObserver → World
  | .impl => onFieldDelete { w with log := w.log ++ [Notification.fieldDelete .impl field] } field
  | .client k => { w with log := w.log ++ [Notification.fieldDelete (.client k) field] }

/-- Statement `delete matrix[x][y]`, that is `Field::~Field`: signal the deletion. -/
def deleteField (w : World) (i : Nat) : Except Fault World :=
  match w.fields[i]? with
  | none => .error .badAddress
  | some f => .ok (f.observers.foldl (notifyFieldDelete i) w)

/-- Method `Matrix::Impl::deleteMatrix`.  (`matrix` is null only before the first
reset, when `dim` is 0x0 and the loops are empty, so the null test is not modelled.) -/
def deleteMatrix (w : World) : Except Fault World :=
  match (loopYX w.dim.x w.dim.y).foldlM (fun w p => deleteField w (cellAddr w.dim.x p.1 p.2)) w with
  | .error e => .error e
  | .ok w1 => .ok { w1 with fields := [] }

/-- Read `bombs[x][y]` in the helper matrix. -/
def helperGet (bombs : List (List Nat)) (x y : Nat) : Except Fault Nat :=
  match bombs[x]? with
  | none => .error .outOfBounds
  | some col =>
    match col[y]? with
    | none => .error .outOfBounds
    | some v => .ok v

/-- Write `bombs[x][y] = v` in the helper matrix. -/
def helperSet (bombs : List (List Nat)) (x y v : Nat) : Except Fault (List (List Nat)) :=
  match bombs[x]? with
  | none => .error .outOfBounds
  | some col =>
    if y < col.length then .ok (bombs.set x (col.set y v)) else .error .outOfBounds

/-- The loop `for (uint16_t b = 0; b < bombs; b++)` of `Matrix::reset` from
counter value `b` on; `draws` are the values the successive `rand()` calls return. -/
def placeBombs (dimX dimY nBombs : Nat) : Nat → List (List Nat) → List Nat → Except Fault (List (List Nat))
  | b, bombs, draws =>
    if b < nBombs then
      match draws with
      | [] => .error .noMoreDraws
      | r :: rest =>
        if int32 ((dimX : Int) * (dimY : Int)) = 0 then .error .remainderByZero
        else
          let position := (Int.tmod (r : Int) (int32 ((dimX : Int) * (dimY : Int)))).toNat % 4294967296
          if dimX = 0 then .error .remainderByZero
          else
            match helperGet bombs (position % dimX) (position / dimX) with
            | .error e => .error e
            | .ok v =>
              if v ≠ 0 then
                placeBombs dimX dimY nBombs (inc16 (dec16 b)) bombs rest
              else
                match helperSet bombs (position % dimX) (position / dimX) 1 with
                | .error e => .error e
                | .ok bombs1 => placeBombs dimX dimY nBombs (inc16 b) bombs1 rest
    else .ok bombs

/-- Statements `new Bomb(x, y)` / `new Field(x, y)` followed by `addObserver(pImpl)`. -/
def newField (isBomb : Bool) (x y : Nat) : Field :=
  { isBomb := isBomb, pos := ⟨x, y⟩, status := .FS_HIDDEN, adjacentBombs := 0,
    neighbours := [], observers := [FieldObserver.impl] }

/-- The loop "Create bombs or normal fields". -/
def createFields (dimX dimY : Nat) (bombs : List (List Nat)) : List Field :=
  (loopYX dimX dimY).map (fun p => newField (decide ((bombs.getD p.1 []).getD p.2 0 = 1)) p.1 p.2)

/-- Method `Field::addNeighbour` on the field at address `i`. -/
def addNeighbour (fields : List Field) (i n : Nat) : List Field :=
  match fields[i]? with
  | none => fields
  | some f => fields.set i { f with neighbours := f.neighbours ++ [n] }

/-- Body of the loop "Set links to neighbours" for the cell `(x, y)`: eight guarded
`addNeighbour` calls, the guards evaluated in `int`. -/
def linkCell (dimX dimY : Nat) (fields : List Field) (p : Nat × Nat) : List Field :=
  let x := p.1
  let y := p.2
  let me := cellAddr dimX x y
  let f1 := if (x : Int) - 1 ≥ 0 ∧ (y : Int) - 1 ≥ 0 then addNeighbour fields me (cellAddr dimX (x - 1) (y - 1)) else fields
  let f2 := if (y : Int) - 1 ≥ 0 then addNeighbour f1 me (cellAddr dimX x (y - 1)) else f1
  let f3 := if (x : Int) + 1 < dimX ∧ (y : Int) - 1 ≥ 0 then addNeighbour f2 me (cellAddr dimX (x + 1) (y - 1)) else f2
  let f4 := if (x : Int) + 1 < dimX then addNeighbour f3 me (cellAddr dimX (x + 1) y) else f3
  let f5 := if (x : Int) + 1 < dimX ∧ (y : Int) + 1 < dimY then addNeighbour f4 me (cellAddr dimX (x + 1) (y + 1)) else f4
  let f6 := if (y : Int) + 1 < dimY then addNeighbour f5 me (cellAddr dimX x (y + 1)) else f5
  let f7 := if (x : Int) - 1 ≥ 0 ∧ (y : Int) + 1 < dimY then addNeighbour f6 me (cellAddr dimX (x - 1) (y + 1)) else f6
  if (x : Int) - 1 ≥ 0 then addNeighbour f7 me (cellAddr dimX (x - 1) y) else f7

/-- The loop "Set links to neighbours". -/
def setLinks (dimX dimY : Nat) (fields : List Field) : List Field :=
  (loopYX dimX dimY).foldl (linkCell dimX dimY) fields

/-- Method `Field::incAdjacentBombs` on the field at address `n` (`uint8_t` increment). -/
def incAdjacentBombs (fields : List Field) (n : Nat) : List Field :=
  match fields[n]? with
  | none => fields
  | some f => fields.set n { f with adjacentBombs := (f.adjacentBombs + 1) % 256 }

/-- The virtual call `informNeighbours()` on the field at address `i`:
`Bomb::informNeighbours` for a bomb, the empty `Field::informNeighbours` otherwise. -/
def informNeighbours (fields : List Field) (i : Nat) : List Field :=
  match fields[i]? with
  | none => fields
  | some f => if f.isBomb then f.neighbours.foldl incAdjacentBombs fields else fields

/-- The loop "Increment counters for adjacent bombs". -/
def informAll (dimX dimY : Nat) (fields : List Field) : List Field :=
  (loopYX dimX dimY).foldl (fun fs p => informNeighbours fs (cellAddr dimX p.1 p.2)) fields

/-- Method `Matrix::reset(Dimensions const&)`; `draws` are the values returned by
the successive `rand()` calls. -/
def reset (w : World) (dimensions : Dimensions) (draws : List Nat) : Except Fault World :=
  match deleteMatrix w with
  | .error e => .error e
  | .ok w1 =>
    let w2 : World := { w1 with dim := dimensions, status := .GS_READY, unhidden := 0, marked := 0, queried := 0 }
    let dimX := w2.dim.x
    let dimY := w2.dim.y
    match placeBombs dimX dimY w2.dim.bombs 0 (List.replicate dimX (List.replicate dimY 0)) draws with
    | .error e => .error e
    | .ok bombs =>
      let fields := informAll dimX dimY (setLinks dimX dimY (createFields dimX dimY bombs))
      .ok (SIGNAL_GAMESTATUSCHANGED { w2 with fields := fields } w2.status)

/-- State of a `Matrix::Impl` right after its constructor, before the first reset. -/
def World.init : World :=
  { fields := [], observers := [], dim := Dimensions.zero, status := .GS_READY,
    unhidden := 0, marked := 0, queried := 0, log := [] }

/-- Constructor `Matrix::Matrix(Dimensions const&)`. -/
def Matrix.new (dimensions : Dimensions) (draws : List Nat) : Except Fault World :=
  reset World.init dimensions draws

/-- Method `Matrix::getStatus`. -/
def getStatus (w : World) : GAMESTATUS := w.status

/-- Method `Matrix::getRemainingBombs`. -/
def getRemainingBombs (w : World) : Int := (w.dim.bombs : Int) - (w.marked : Int)

/-! ## Notions used to state the properties -/

/-- One status change of the field `f` at address `i` to `s`, with its signal:
the two statements `pImpl->status = s; SIGNAL_FIELDSTATUSCHANGED(*this, s)`. -/
def fire (w : World) (i : Nat) (f : Field) (s : FIELDSTATUS) : World :=
  SIGNAL_FIELDSTATUSCHANGED (setStatus w i f s) f.observers i s

/-- Whether a log entry is a `FieldObserver::onFieldStatusChanged` call. -/
def isFieldCall : Notification → Bool
  | .fieldStatusChanged _ _ _ => true
  | _ => false

/-- The `FieldObserver::onFieldStatusChanged` calls of a log, in order. -/
def fieldCalls (log : List Notification) : List Notification := log.filter isFieldCall

/-- Whether a log entry is a `FieldObserver::onFieldStatusChanged` call for field `i`. -/
def isFieldCallOf (i : Nat) : Notification → Bool
  | .fieldStatusChanged _ j _ => decide (j = i)
  | _ => false

/-- The status-changed calls that `observers` receive for one change of field `i` to `s`. -/
def callsFor (observers : List FieldObserver) (i : Nat) (s : FIELDSTATUS) : List Notification :=
  observers.map (fun o => Notification.fieldStatusChanged o i s)

/-- A field with its status blanked: what `reveal` and `cycleMark` never touch. -/
def Field.shape (f : Field) : Field := { f with status := .FS_HIDDEN }

/-- Every neighbour pointer of every field is the address of a field. -/
def WellFormed (fields : List Field) : Prop :=
  ∀ f ∈ fields, ∀ n ∈ f.neighbours, n < fields.length

/-- A plain field on which `Field::reveal` would act. -/
def Field.isOpen (f : Field) : Bool :=
  !f.isBomb && decide (f.status ≠ .FS_MARKED) && decide (f.status ≠ .FS_UNHIDDEN)

/-- Number of plain fields on which `Field::reveal` would act. -/
def openCount (fields : List Field) : Nat := fields.countP Field.isOpen

/-- A list of calls made one after the other, each relating the state before to the
state after as `P` says. -/
inductive Chain (P : World → Nat → World → Prop) : World → List Nat → World → Prop where
  | nil (w : World) : Chain P w [] w
  | cons {w w1 w2 : World} {n : Nat} {ns : List Nat} :
      P w n w1 → Chain P w1 ns w2 → Chain P w (n :: ns) w2

/-- States reached from `g` by `reveal()` / `cycleMark()` calls on its cells; the
flag tells whether some call changed the status of a cell. -/
inductive Reach (g : World) : Bool → World → Prop where
  | init : Reach g false g
  | reveal {c : Bool} {w w1 : World} {i r : Nat} :
      Reach g c w → reveal w i = some (w1, r) → Reach g (c || decide (w1.fields ≠ w.fields)) w1
  | cycleMark {c : Bool} {w w1 : World} {i : Nat} :
      Reach g c w → cycleMark w i = some w1 → Reach g (c || decide (w1.fields ≠ w.fields)) w1

/-- The smallest set of addresses that contains `c` and every neighbour of each of
its members whose adjacent-bomb count is zero. -/
inductive Region (fields : List Field) (c : Nat) : Nat → Prop where
  | base : Region fields c c
  | step {j n : Nat} {f : Field} :
      Region fields c j → fields[j]? = some f → f.adjacentBombs = 0 → n ∈ f.neighbours →
      Region fields c n

/-- Guard under which the code changes the status of `f` to the given status:
`Field::reveal` (to unhidden), `Bomb::reveal` (to bomb), `Field::cycleMark` (the others). -/
def Field.allows (f : Field) : FIELDSTATUS → Bool
  | .FS_UNHIDDEN => !f.isBomb && decide (f.status ≠ .FS_MARKED) && decide (f.status ≠ .FS_UNHIDDEN)
  | .FS_BOMB => f.isBomb && decide (f.status ≠ .FS_MARKED) && decide (f.status ≠ .FS_BOMB)
      && decide (f.status ≠ .FS_UNHIDDEN)
  | .FS_MARKED => decide (f.status = .FS_HIDDEN)
  | .FS_QUERIED => decide (f.status = .FS_MARKED)
  | .FS_HIDDEN => decide (f.status = .FS_QUERIED)

/-- A sequence of status changes, each under its guard and with its signal, leading
from one state to another; the list names the changed field and its new status. -/
inductive Run : World → List (Nat × FIELDSTATUS) → World → Prop where
  | nil (w : World) : Run w [] w
  | cons {w w2 : World} {i : Nat} {f : Field} {s : FIELDSTATUS} {evs : List (Nat × FIELDSTATUS)} :
      w.fields[i]? = some f → f.allows s = true → Run (fire w i f s) evs w2 →
      Run w ((i, s) :: evs) w2

/-- The second state has the fields of the first up to their status, and the
same grid observers and dimensions. -/
def Frame (w w1 : World) : Prop :=
  w1.fields.map Field.shape = w.fields.map Field.shape ∧ w1.observers = w.observers ∧ w1.dim = w.dim

/-- Events of `reveal`: every change is to unhidden or to bomb. -/
def RevealKind (evs : List (Nat × FIELDSTATUS)) : Prop :=
  ∀ e ∈ evs, e.2 = .FS_UNHIDDEN ∨ e.2 = .FS_BOMB

/-- The observer list of the field at address `i` (empty when there is none). -/
def World.observersOf (w : World) (i : Nat) : List FieldObserver :=
  match w.fields[i]? with
  | some f => f.observers
  | none => []

/-! ## Concrete grids used as worked examples -/

/-- The four fields of the fixture of field_test.cpp (layout `1 1 / 1 X`), at the
addresses 0 = x[0], 1 = x[1], 2 = y[0], 3 = y[1] (the bomb), after the
`addNeighbour` and `informNeighbours` calls of the fixture and the
`addObserver(this)` of its callback test (the observer is client 0). -/
def fixtureFields : List Field :=
  [ { isBomb := false, pos := ⟨0, 0⟩, status := .FS_HIDDEN, adjacentBombs := 1,
      neighbours := [1, 2, 3], observers := [FieldObserver.client 0] },
    { isBomb := false, pos := ⟨1, 0⟩, status := .FS_HIDDEN, adjacentBombs := 1,
      neighbours := [0, 2, 3], observers := [] },
    { isBomb := false, pos := ⟨0, 1⟩, status := .FS_HIDDEN, adjacentBombs := 1,
      neighbours := [0, 1, 3], observers := [] },
    { isBomb := true, pos := ⟨1, 1⟩, status := .FS_HIDDEN, adjacentBombs := 0,
      neighbours := [0, 1, 2], observers := [] } ]

/-- The fixture of field_test.cpp as a state (there is no grid around the fields). -/
def fixture : World := { World.init with fields := fixtureFields }

/-- The 2x2 grid with its only bomb at (1,1), as `Matrix::reset` builds it when the
first `rand()` value is 3. -/
def grid2x2 : World :=
  match Matrix.new (Dimensions.new 2 2 1) [3] with
  | .ok w => w
  | .error _ => World.init

/-- The addresses that the loop "Set links to neighbours" pushes for the cell
`(x, y)`, in the order of the eight tests. -/
def neighbourList (dimX dimY x y : Nat) : List Nat :=
  (if (x : Int) - 1 ≥ 0 ∧ (y : Int) - 1 ≥ 0 then [cellAddr dimX (x - 1) (y - 1)] else []) ++
  ((if (y : Int) - 1 ≥ 0 then [cellAddr dimX x (y - 1)] else []) ++
  ((if (x : Int) + 1 < dimX ∧ (y : Int) - 1 ≥ 0 then [cellAddr dimX (x + 1) (y - 1)] else []) ++
  ((if (x : Int) + 1 < dimX then [cellAddr dimX (x + 1) y] else []) ++
  ((if (x : Int) + 1 < dimX ∧ (y : Int) + 1 < dimY then [cellAddr dimX (x + 1) (y + 1)] else []) ++
  ((if (y : Int) + 1 < dimY then [cellAddr dimX x (y + 1)] else []) ++
  ((if (x : Int) - 1 ≥ 0 ∧ (y : Int) + 1 < dimY then [cellAddr dimX (x - 1) (y + 1)] else []) ++
  (if (x : Int) - 1 ≥ 0 then [cellAddr dimX (x - 1) y] else [])))))))

/-- The entry `bombs[x][y]` of the helper matrix as `createFields` reads it. -/
def helperAt (bombs : List (List Nat)) (x y : Nat) : Nat := (bombs.getD x []).getD y 0

/-- Add `k` to the `uint8_t` adjacent-bomb counter of a field. -/
def bumpN (k : Nat) (f : Field) : Field :=
  if k = 0 then f else { f with adjacentBombs := (f.adjacentBombs + k) % 256 }

/-- How often the call `informNeighbours()` on the field at address `p` increments
the counter of the field at address `j`. -/
def hit (fs : List Field) (p j : Nat) : Nat :=
  match fs[p]? with
  | some f => if f.isBomb then f.neighbours.count j else 0
  | none => 0

/-- How often the calls `informNeighbours()` on the fields at the addresses `L`
increment the counter of the field at address `j`. -/
def hits (fs : List Field) (L : List Nat) (j : Nat) : Nat := (L.map (fun p => hit fs p j)).sum

/-- The helper matrix has `dimX` columns of `dimY` entries, each 0 or 1. -/
def HelperOK (dimX dimY : Nat) (bombs : List (List Nat)) : Prop :=
  bombs.length = dimX ∧ (∀ col ∈ bombs, col.length = dimY) ∧
  ∀ x y, helperAt bombs x y = 0 ∨ helperAt bombs x y = 1

/-- Whether the helper matrix holds a bomb for the cell with allocation number `p`. -/
def bombAt (dimX : Nat) (bombs : List (List Nat)) (p : Nat) : Bool :=
  decide (helperAt bombs (p % dimX) (p / dimX) = 1)

/-- Number of cells for which the helper matrix holds a bomb. -/
def placed (dimX dimY : Nat) (bombs : List (List Nat)) : Nat :=
  (List.range (dimX * dimY)).countP (bombAt dimX bombs)

/-- The field that `Matrix::reset` leaves at allocation number `p`, in closed form:
Hidden, observed by the grid, linked to its grid neighbours and counting the
bombs among them. -/
def gridField (dimX dimY : Nat) (bombs : List (List Nat)) (p : Nat) : Field :=
  { isBomb := bombAt dimX bombs p, pos := ⟨p % dimX, p / dimX⟩, status := .FS_HIDDEN,
    adjacentBombs := (neighbourList dimX dimY (p % dimX) (p / dimX)).countP (bombAt dimX bombs),
    neighbours := neighbourList dimX dimY (p % dimX) (p / dimX),
    observers := [FieldObserver.impl] }

/-- The heap that `Matrix::reset` leaves, in closed form. -/
def gridFields (dimX dimY : Nat) (bombs : List (List Nat)) : List Field :=
  (List.range (dimX * dimY)).map (gridField dimX dimY bombs)

/-- The win test of `Matrix::Impl::onFieldStatusChanged`, over the integers:
`unhidden == x * y - bombs && marked == bombs`. -/
def winTest (w : World) : Prop :=
  (w.unhidden : Int) = (w.dim.x : Int) * (w.dim.y : Int) - (w.dim.bombs : Int) ∧
  w.marked = w.dim.bombs

/-- What holds of a grid built by `reset` along every run of status changes: every
field is observed by the grid alone, the `marked` and `unhidden` counters count the
Marked and the Unhidden fields, only plain fields are Unhidden and only bombs have
the status `FS_BOMB`, and the game is lost exactly when some field has that status. -/
structure GridInv (w : World) : Prop where
  len : w.fields.length ≤ 65535
  obs : ∀ f ∈ w.fields, f.observers = [FieldObserver.impl]
  marked : w.marked = w.fields.countP (fun f => decide (f.status = .FS_MARKED))
  unhidden : w.unhidden = w.fields.countP (fun f => decide (f.status = .FS_UNHIDDEN))
  kinds : ∀ f ∈ w.fields, (f.status = .FS_UNHIDDEN → f.isBomb = false) ∧
    (f.status = .FS_BOMB → f.isBomb = true)
  lost : w.status = .GS_LOST ↔ ∃ f ∈ w.fields, f.status = .FS_BOMB

/-- The game status is the one the handler derives from the counters. -/
def Settled (w : World) : Prop :=
  w.status = .GS_LOST ∨ (w.status = .GS_WON ∧ winTest w) ∨ (w.status = .GS_RUNNING ∧ ¬winTest w)

/-- The 1x1 grid without bomb, as `Matrix::reset` builds it (no `rand()` call). -/
def grid1x1 : World :=
  match Matrix.new (Dimensions.new 1 1 0) [] with
  | .ok w => w
  | .error _ => World.init

/-- The 1x1 grid without bomb after `reveal()` on its cell. -/
def grid1x1Revealed : World :=
  match reveal grid1x1 (cellAddr 1 0 0) with
  | some p => p.1
  | none => World.init

/-- The 1x1 grid whose only cell is a bomb, as `Matrix::reset` builds it when the
first `rand()` value is 0. -/
def bomb1x1 : World :=
  match Matrix.new (Dimensions.new 1 1 1) [0] with
  | .ok w => w
  | .error _ => World.init

/-- A field on which neither `Field::reveal` nor `Bomb::reveal` would act. -/
def Field.closed (f : Field) : Prop :=
  f.allows .FS_UNHIDDEN = false ∧ f.allows .FS_BOMB = false

/-- In the state `w`, every field unhidden by one of the events `evs` that counts
no adjacent bomb has only closed neighbours. -/
def NewClosed (evs : List (Nat × FIELDSTATUS)) (w : World) : Prop :=
  ∀ e ∈ evs, e.2 = .FS_UNHIDDEN → ∀ fj, w.fields[e.1]? = some fj → fj.adjacentBombs = 0 →
    ∀ n ∈ fj.neighbours, ∀ fn, w.fields[n]? = some fn → fn.closed

/-- What one call of `reveal` on the field `i` achieves, as used for the flood fill:
a run of reveal changes on fields of the region of `i`, after which `i` is closed
and every newly unhidden zero-count field has only closed neighbours. -/
def Flood (w : World) (i : Nat) (w2 : World) : Prop :=
  ∃ evs, Run w evs w2 ∧ RevealKind evs ∧ (∀ e ∈ evs, Region w.fields i e.1) ∧
    (∀ f2, w2.fields[i]? = some f2 → f2.closed) ∧ NewClosed evs w2

/-- The 3x3 grid with its only bomb at (2,2), as `Matrix::reset` builds it when the
first `rand()` value is 8. -/
def grid3x3 : World :=
  match Matrix.new (Dimensions.new 3 3 1) [8] with
  | .ok w => w
  | .error _ => World.init

/-- The 3x2 grid with bombs at (0,0), (2,0), (0,1) and (2,1), as `Matrix::reset` builds
it when `rand()` returns 0, 0, 2, 3, 3, 5 (the second 0 and the second 3 are redrawn). -/
def grid3x2 : World :=
  match Matrix.new (Dimensions.new 3 2 4) [0, 0, 2, 3, 3, 5] with
  | .ok w => w
  | .error _ => World.init

/-- Whether the object at address `q` of the heap is a `Bomb`. -/
def isBombAt (fields : List Field) (q : Nat) : Bool :=
  match fields[q]? with
  | some f => f.isBomb
  | none => false

/-- The value `position = rand() % (dimX * dimY)` that `Matrix::reset` computes from
the draw `r`. -/
def drawPosition (dimX dimY r : Nat) : Nat :=
  (Int.tmod (r : Int) (int32 ((dimX : Int) * (dimY : Int)))).toNat % 4294967296

/-- The positions that the placement loop of `Matrix::reset` accepts, in order: the
values `position` for which it finds `bombs[position % dimX][position / dimX]` still
0 and writes 1 there, when started from counter value `b`. -/
def acceptedDraws (dimX dimY nBombs : Nat) : Nat → List (List Nat) → List Nat → List Nat
  | b, bombs, draws =>
    if b < nBombs then
      match draws with
      | [] => []
      | r :: rest =>
        match helperGet bombs (drawPosition dimX dimY r % dimX) (drawPosition dimX dimY r / dimX) with
        | .error _ => []
        | .ok v =>
          if v ≠ 0 then
            acceptedDraws dimX dimY nBombs (inc16 (dec16 b)) bombs rest
          else
            match helperSet bombs (drawPosition dimX dimY r % dimX) (drawPosition dimX dimY r / dimX) 1 with
            | .error _ => []
            | .ok bombs1 =>
              drawPosition dimX dimY r :: acceptedDraws dimX dimY nBombs (inc16 b) bombs1 rest
    else []

/-- A call of one of the three setters of `Dimensions`, with its argument. -/
inductive DimCall where
  | setX (v : Nat)
  | setY (v : Nat)
  | setBombs (v : Nat)
  deriving DecidableEq

/-- The argument of a setter call. -/
def DimCall.arg : DimCall → Nat
  | .setX v => v
  | .setY v => v
  | .setBombs v => v

/-- Perform a setter call on a `Dimensions` object. -/
def DimCall.run (d : Dimensions) : DimCall → Dimensions
  | .setX v => d.setX v
  | .setY v => d.setY v
  | .setBombs v => d.setBombs v

/-- Class `IndexOutOfBoundsException` of tools.hpp: the index used, the length of
the array and a character naming the dimension. -/
structure IndexOutOfBoundsException where
  idx : Nat
  len : Nat
  dim : Char
  deriving DecidableEq

/-- Class `Proxy` of tools.hpp: the pointer `x` to one column of the pointer table,
as the map from an index to the address stored there, and `maxY`. -/
structure Proxy where
  x : Nat → Nat
  maxY : Nat

/-- Method `Proxy::operator[]`: the address of the field `*x[y]`, or the exception. -/
def Proxy.index (p : Proxy) (y : Nat) : Except IndexOutOfBoundsException Nat :=
  if y ≥ p.maxY then .error ⟨y, p.maxY, 'Y'⟩ else .ok (p.x y)

/-- Method `Matrix::operator[]`.  The column `pImpl->matrix[x]` holds at index `y`
the pointer that `Matrix::reset` stored in `matrix[x][y]`, the address
`cellAddr dim.x x y`. -/
def Matrix.index (w : World) (x : Nat) : Except IndexOutOfBoundsException Proxy :=
  if x ≥ w.dim.x then .error ⟨x, w.dim.x, 'X'⟩
  else .ok ⟨fun y => cellAddr w.dim.x x y, w.dim.y⟩

/-- The expression `matrix[x][y]`: `Matrix::operator[]`, then `Proxy::operator[]` on
its result unless it threw. -/
def Matrix.access (w : World) (x y : Nat) : Except IndexOutOfBoundsException Nat :=
  match Matrix.index w x with
  | .error e => .error e
  | .ok p => p.index y

/-- Constructor `Matrix::Matrix()`: `reset(Dimensions())`. -/
def Matrix.default (draws : List Nat) : Except Fault World :=
  reset World.init Dimensions.zero draws

/-- The calls `cycleMark()` on the fields at the addresses 0, 1, ..., n-1, in this
order; `none` when one of them is not the address of a field. -/
def markFirst : Nat → World → Option World
  | 0, w => some w
  | k + 1, w =>
    match markFirst k w with
    | none => none
    | some w1 => cycleMark w1 k

/-- Method `Matrix::getDimensions`. -/
def getDimensions (w : World) : Dimensions := w.dim

/-- Method `Matrix::addObserver`: append the observer unless it is in the list. -/
def addObserver (w : World) (o : Nat) : World :=
  if o ∈ w.observers then w else { w with observers := w.observers ++ [o] }

/-- The `MatrixObserver` on which a callback is invoked, for the callbacks of
`MatrixObserver`. -/
def Notification.matrixObserver : Notification → Option Nat
  | .onGameStatusChanged o _ => some o
  | .onRemainingBombsChanged o _ => some o
  | .onFieldStatusChanged o _ _ => some o
  | .onFieldDelete o _ => some o
  | .fieldStatusChanged _ _ _ => none
  | .fieldDelete _ _ => none

/-- The callbacks of a log that are invoked on the grid observer `o`, in order. -/
def receivedBy (o : Nat) (log : List Notification) : List Notification :=
  log.filter (fun n => decide (n.matrixObserver = some o))

/-- Whether a log entry is a `MatrixObserver::onGameStatusChanged` call. -/
def isGameStatusCall : Notification → Bool
  | .onGameStatusChanged _ _ => true
  | _ => false

/-- The calls on the grid observers expected of the handler, in their order: for
each observer a field-status call; then, for the new status Marked or Queried, for
each observer a remaining-bombs call; then, when the game status changed, for each
observer a game-status call. -/
def handlerCalls (observers : List Nat) (field : Nat) (s : FIELDSTATUS) (remaining : Int)
    (old new : GAMESTATUS) : List Notification :=
  observers.map (fun o => Notification.onFieldStatusChanged o field s) ++
  ((if s = .FS_MARKED ∨ s = .FS_QUERIED then
      observers.map (fun o => Notification.onRemainingBombsChanged o remaining)
    else []) ++
  (if new ≠ old then observers.map (fun o => Notification.onGameStatusChanged o new) else []))

/-- The 1x1 grid whose only cell is a bomb, after `reveal()` on it: the game is lost. -/
def bomb1x1Lost : World :=
  match reveal bomb1x1 (cellAddr 1 0 0) with
  | some p => p.1
  | none => World.init

/-- The lost 1x1 grid after `reset(Dimensions(1, 1, 1))`, the `rand()` value being 0. -/
def bomb1x1Again : World :=
  match reset bomb1x1Lost (Dimensions.new 1 1 1) [0] with
  | .ok w => w
  | .error _ => World.init

/-- The grid of `callback_test` in matrix_test.cpp: `Matrix()`, `addObserver` of one
observer (number 0), then `reset(Dimensions(2, 2, 1))`, the bomb falling on (1,1). -/
def observed2x2 : World :=
  match reset (addObserver World.init 0) (Dimensions.new 2 2 1) [3] with
  | .ok w => w
  | .error _ => World.init

/-- The grid `observed2x2` after a second `reset(Dimensions(2, 2, 1))`. -/
def observed2x2Again : World :=
  match reset observed2x2 (Dimensions.new 2 2 1) [3] with
  | .ok w => w
  | .error _ => World.init

/-- The log of the second state extends that of the first by calls none of which is
a game-status call. -/
def DeleteOnly (a b : World) : Prop :=
  ∃ del, b.log = a.log ++ del ∧ ∀ n ∈ del, isGameStatusCall n = false

/-- The loop of `std::remove_if(first, last, pred)` on a sequence of pointers: the
elements still to be read, the write position `first` and the content so far.  An
element that does not satisfy `pred` is assigned to the write position, which then
advances; nothing is erased, so the sequence keeps its length. -/
def removeIfLoop {α : Type} (pred : α → Bool) : List α → Nat → List α → List α
  | [], _, content => content
  | a :: rest, first, content =>
    if pred a then removeIfLoop pred rest first content
    else removeIfLoop pred rest (first + 1) (content.set first a)

/-- The content of a sequence after `std::remove_if(begin, end, pred)`. -/
def removeIf {α : Type} (pred : α → Bool) (l : List α) : List α :=
  removeIfLoop pred l 0 l

/-- Method `Matrix::removeObserver`: the call of `std::remove_if` on the observer
list; the iterator it returns is dropped and no element is erased. -/
def removeObserver (w : World) (o : Nat) : World :=
  { w with observers := removeIf (fun p => decide (p = o)) w.observers }

/-- Method `Field::addObserver`: append the observer unless it is in the list. -/
def Field.addObserver (f : Field) (o : FieldObserver) : Field :=
  if o ∈ f.observers then f else { f with observers := f.observers ++ [o] }

/-- Method `Field::removeObserver`: the call of `std::remove_if` on the observer list
of the field; no element is erased. -/
def Field.removeObserver (f : Field) (o : FieldObserver) : Field :=
  { f with observers := removeIf (fun p => decide (p = o)) f.observers }

/-- A grid like that of `callback_test` with two observers (numbers 0 and 1)
registered before `reset(Dimensions(2, 2, 1))`. -/
def twoObservers2x2 : World :=
  match reset (addObserver (addObserver World.init 0) 1) (Dimensions.new 2 2 1) [3] with
  | .ok w => w
  | .error _ => World.init

/-- The status of a field fits its kind: a field with the status `FS_UNHIDDEN` is a
plain field and a field with the status `FS_BOMB` is a bomb. -/
def Field.kindOK (f : Field) : Prop :=
  (f.status = .FS_UNHIDDEN → f.isBomb = false) ∧ (f.status = .FS_BOMB → f.isBomb = true)

/-- What holds of a grid built by `reset` along every run of status changes, whatever
its size: every field is observed by the grid alone, the `marked` and `unhidden`
counters hold the numbers of Marked and of Unhidden fields reduced to 16 bits, the
statuses fit the kinds, and the game status `GS_WON` was derived from the counters. -/
structure WrapInv (w : World) : Prop where
  obs : ∀ f ∈ w.fields, f.observers = [FieldObserver.impl]
  marked : w.marked = w.fields.countP (fun f => decide (f.status = .FS_MARKED)) % 65536
  unhidden : w.unhidden = w.fields.countP (fun f => decide (f.status = .FS_UNHIDDEN)) % 65536
  kinds : ∀ f ∈ w.fields, f.kindOK
  won : w.status = .GS_WON → winTest w

/-- The 1x1 grid without bomb after two `cycleMark()` calls on its cell: the cell is
Queried. -/
def grid1x1Queried : World :=
  match cycleMark grid1x1 (cellAddr 1 0 0) with
  | none => World.init
  | some w1 =>
    match cycleMark w1 (cellAddr 1 0 0) with
    | none => World.init
    | some w2 => w2

/-- The 1x1 grid without bomb after two `cycleMark()` calls and then `reveal()` on its
cell. -/
def grid1x1QueriedRevealed : World :=
  match reveal grid1x1Queried (cellAddr 1 0 0) with
  | some p => p.1
  | none => World.init

/-! ## Properties -/

/-! ### Signals leave the heap alone -/

theorem logFieldStatus_frame (w : World) (s : FIELDSTATUS) :
    (logFieldStatus w s).fields = w.fields ∧ (logFieldStatus w s).observers = w.observers ∧
    (logFieldStatus w s).dim = w.dim ∧ (logFieldStatus w s).log = w.log := by
  cases s <;> exact ⟨rfl, rfl, rfl, rfl⟩

theorem deriveStatus_frame (w : World) :
    (deriveStatus w).fields = w.fields ∧ (deriveStatus w).observers = w.observers ∧
    (deriveStatus w).dim = w.dim ∧ (deriveStatus w).log = w.log ∧
    (deriveStatus w).unhidden = w.unhidden ∧ (deriveStatus w).marked = w.marked ∧
    (deriveStatus w).queried = w.queried := by
  unfold deriveStatus
  split_ifs <;> exact ⟨rfl, rfl, rfl, rfl, rfl, rfl, rfl⟩

theorem onFieldStatusChanged_frame (w : World) (i : Nat) (s : FIELDSTATUS) :
    (onFieldStatusChanged w i s).fields = w.fields ∧
    (onFieldStatusChanged w i s).observers = w.observers ∧
    (onFieldStatusChanged w i s).dim = w.dim := by
  have h1 := logFieldStatus_frame w s
  have h2 := deriveStatus_frame (logFieldStatus w s)
  unfold onFieldStatusChanged
  simp only [SIGNAL_MATRIX_FIELDSTATUSCHANGED, SIGNAL_REMAININGBOMBSCHANGED, SIGNAL_GAMESTATUSCHANGED]
  split_ifs <;> exact ⟨h2.1.trans h1.1, h2.2.1.trans h1.2.1, h2.2.2.1.trans h1.2.2.1⟩

theorem onFieldStatusChanged_fields (w : World) (i : Nat) (s : FIELDSTATUS) :
    (onFieldStatusChanged w i s).fields = w.fields := (onFieldStatusChanged_frame w i s).1

theorem onFieldStatusChanged_observers (w : World) (i : Nat) (s : FIELDSTATUS) :
    (onFieldStatusChanged w i s).observers = w.observers := (onFieldStatusChanged_frame w i s).2.1

theorem onFieldStatusChanged_dim (w : World) (i : Nat) (s : FIELDSTATUS) :
    (onFieldStatusChanged w i s).dim = w.dim := (onFieldStatusChanged_frame w i s).2.2

theorem notify_fields (i : Nat) (s : FIELDSTATUS) (w : World) (o : FieldObserver) :
    (notifyFieldStatusChanged i s w o).fields = w.fields := by
  cases o <;> simp [notifyFieldStatusChanged, onFieldStatusChanged_fields]

theorem notify_observers (i : Nat) (s : FIELDSTATUS) (w : World) (o : FieldObserver) :
    (notifyFieldStatusChanged i s w o).observers = w.observers := by
  cases o <;> simp [notifyFieldStatusChanged, onFieldStatusChanged_observers]

theorem notify_dim (i : Nat) (s : FIELDSTATUS) (w : World) (o : FieldObserver) :
    (notifyFieldStatusChanged i s w o).dim = w.dim := by
  cases o <;> simp [notifyFieldStatusChanged, onFieldStatusChanged_dim]

theorem signal_fields (obs : List FieldObserver) (w : World) (i : Nat) (s : FIELDSTATUS) :
    (SIGNAL_FIELDSTATUSCHANGED w obs i s).fields = w.fields := by
  induction obs generalizing w with
  | nil => rfl
  | cons o os ih =>
    simp only [SIGNAL_FIELDSTATUSCHANGED, List.foldl_cons] at ih ⊢
    rw [ih, notify_fields]

theorem signal_observers (obs : List FieldObserver) (w : World) (i : Nat) (s : FIELDSTATUS) :
    (SIGNAL_FIELDSTATUSCHANGED w obs i s).observers = w.observers := by
  induction obs generalizing w with
  | nil => rfl
  | cons o os ih =>
    simp only [SIGNAL_FIELDSTATUSCHANGED, List.foldl_cons] at ih ⊢
    rw [ih, notify_observers]

theorem signal_dim (obs : List FieldObserver) (w : World) (i : Nat) (s : FIELDSTATUS) :
    (SIGNAL_FIELDSTATUSCHANGED w obs i s).dim = w.dim := by
  induction obs generalizing w with
  | nil => rfl
  | cons o os ih =>
    simp only [SIGNAL_FIELDSTATUSCHANGED, List.foldl_cons] at ih ⊢
    rw [ih, notify_dim]

theorem fire_fields (w : World) (i : Nat) (f : Field) (s : FIELDSTATUS) :
    (fire w i f s).fields = w.fields.set i { f with status := s } := by
  simp [fire, signal_fields, setStatus]

theorem fire_observers (w : World) (i : Nat) (f : Field) (s : FIELDSTATUS) :
    (fire w i f s).observers = w.observers := by
  simp [fire, signal_observers, setStatus]

theorem fire_dim (w : World) (i : Nat) (f : Field) (s : FIELDSTATUS) :
    (fire w i f s).dim = w.dim := by
  simp [fire, signal_dim, setStatus]

/-! ### The log of field-level calls -/

theorem onFieldStatusChanged_log (w : World) (i : Nat) (s : FIELDSTATUS) :
    ∃ ext, (onFieldStatusChanged w i s).log = w.log ++ ext ∧ ∀ n ∈ ext, isFieldCall n = false := by
  have h1 := logFieldStatus_frame w s
  have h2 := deriveStatus_frame (logFieldStatus w s)
  have hl : (deriveStatus (logFieldStatus w s)).log = w.log := h2.2.2.2.1.trans h1.2.2.2
  unfold onFieldStatusChanged
  simp only [SIGNAL_MATRIX_FIELDSTATUSCHANGED, SIGNAL_REMAININGBOMBSCHANGED, SIGNAL_GAMESTATUSCHANGED]
  split_ifs <;> simp only [hl, List.append_assoc] <;> refine ⟨_, rfl, ?_⟩ <;>
    simp [or_imp, forall_and, isFieldCall]

theorem fieldCalls_append (a b : List Notification) :
    fieldCalls (a ++ b) = fieldCalls a ++ fieldCalls b := by
  simp [fieldCalls]

theorem fieldCalls_of_none (l : List Notification) (h : ∀ n ∈ l, isFieldCall n = false) :
    fieldCalls l = [] := by
  simp only [fieldCalls, List.filter_eq_nil_iff]
  intro n hn
  simp [h n hn]

/-! ### The shape of the heap is kept -/

theorem Frame.refl (w : World) : Frame w w := ⟨rfl, rfl, rfl⟩

theorem Frame.trans {a b c : World} (h1 : Frame a b) (h2 : Frame b c) : Frame a c :=
  ⟨h2.1.trans h1.1, h2.2.1.trans h1.2.1, h2.2.2.trans h1.2.2⟩

theorem Frame.symm {a b : World} (h : Frame a b) : Frame b a :=
  ⟨h.1.symm, h.2.1.symm, h.2.2.symm⟩

theorem set_status_shape (l : List Field) (i : Nat) (f : Field) (s : FIELDSTATUS)
    (h : l[i]? = some f) :
    (l.set i { f with status := s }).map Field.shape = l.map Field.shape := by
  obtain ⟨hi, rfl⟩ := List.getElem?_eq_some_iff.mp h
  apply List.ext_getElem?
  intro j
  simp only [List.getElem?_map, List.getElem?_set]
  by_cases hij : i = j
  · subst hij
    simp [hi, Field.shape]
  · simp [hij]

theorem fire_frame (w : World) (i : Nat) (f : Field) (s : FIELDSTATUS) (h : w.fields[i]? = some f) :
    Frame w (fire w i f s) :=
  ⟨by rw [fire_fields]; exact set_status_shape _ _ _ _ h, fire_observers _ _ _ _, fire_dim _ _ _ _⟩

theorem Frame.length {w w1 : World} (h : Frame w w1) : w1.fields.length = w.fields.length := by
  have := congrArg List.length h.1
  simpa using this

theorem Frame.getElem? {w w1 : World} (h : Frame w w1) (j : Nat) :
    (w1.fields[j]?).map Field.shape = (w.fields[j]?).map Field.shape := by
  have := congrArg (fun l => l[j]?) h.1
  simpa using this

theorem Frame.get {w w1 : World} (h : Frame w w1) {j : Nat} {f : Field} (hf : w.fields[j]? = some f) :
    ∃ f1, w1.fields[j]? = some f1 ∧ f1.shape = f.shape := by
  have := h.getElem? j
  rw [hf] at this
  cases h1 : w1.fields[j]? with
  | none => simp [h1] at this
  | some f1 => exact ⟨f1, rfl, by simpa [h1] using this⟩

theorem shape_eq {f f1 : Field} (h : f1.shape = f.shape) :
    f1.isBomb = f.isBomb ∧ f1.pos = f.pos ∧ f1.adjacentBombs = f.adjacentBombs ∧
    f1.neighbours = f.neighbours ∧ f1.observers = f.observers := by
  cases f; cases f1
  simp only [Field.shape, Field.mk.injEq] at h
  simp [h]

theorem Frame.wellFormed {w w1 : World} (h : Frame w w1) (hw : WellFormed w.fields) :
    WellFormed w1.fields := by
  intro f1 hf1 n hn
  obtain ⟨j, hj⟩ := List.getElem?_of_mem hf1
  obtain ⟨f, hf, hs⟩ := h.symm.get hj
  rw [h.length]
  have hsh := shape_eq hs
  exact hw f (List.getElem?_mem hf) n (by rw [hsh.2.2.2.1]; exact hn)

/-! ### The structure of reveal -/

theorem bombReveal_eq (w : World) (i : Nat) (f : Field) :
    bombReveal w i f = if f.status ≠ .FS_MARKED ∧ f.status ≠ .FS_BOMB ∧ f.status ≠ .FS_UNHIDDEN
      then fire w i f .FS_BOMB else w := rfl

theorem revealAux_succ (fuel : Nat) (w : World) (i : Nat) :
    revealAux (fuel + 1) w i =
      match w.fields[i]? with
      | none => none
      | some f =>
        if f.isBomb then some (bombReveal w i f)
        else if f.status ≠ .FS_MARKED ∧ f.status ≠ .FS_UNHIDDEN then
          if f.adjacentBombs = 0 then
            f.neighbours.foldlM (fun w n => revealAux fuel w n) (fire w i f .FS_UNHIDDEN)
          else some (fire w i f .FS_UNHIDDEN)
        else some w := rfl

theorem foldlM_chain (P : World → Nat → World → Prop) (fuel : Nat)
    (ih : ∀ w n w1, revealAux fuel w n = some w1 → P w n w1) :
    ∀ (ns : List Nat) (w w2 : World),
      ns.foldlM (fun w n => revealAux fuel w n) w = some w2 → Chain P w ns w2 := by
  intro ns
  induction ns with
  | nil =>
    intro w w2 h
    simp only [List.foldlM_nil, pure, Option.some.injEq] at h
    subst h
    exact Chain.nil w
  | cons n ns ihn =>
    intro w w2 h
    simp only [List.foldlM_cons, bind, Option.bind_eq_some] at h
    obtain ⟨w1, h1, h2⟩ := h
    exact Chain.cons (ih w n w1 h1) (ihn w1 w2 h2)

/-- Induction along the calls of `reveal`: a property of (state before, field,
state after) that holds for the four ways a call can go holds for every call. -/
theorem revealAux_induct (P : World → Nat → World → Prop)
    (hbomb : ∀ w i f, w.fields[i]? = some f → f.isBomb = true → P w i (bombReveal w i f))
    (hskip : ∀ w i f, w.fields[i]? = some f → f.isBomb = false →
      ¬(f.status ≠ .FS_MARKED ∧ f.status ≠ .FS_UNHIDDEN) → P w i w)
    (hleaf : ∀ w i f, w.fields[i]? = some f → f.isBomb = false →
      (f.status ≠ .FS_MARKED ∧ f.status ≠ .FS_UNHIDDEN) → f.adjacentBombs ≠ 0 →
      P w i (fire w i f .FS_UNHIDDEN))
    (hnode : ∀ w i f w2, w.fields[i]? = some f → f.isBomb = false →
      (f.status ≠ .FS_MARKED ∧ f.status ≠ .FS_UNHIDDEN) → f.adjacentBombs = 0 →
      Chain P (fire w i f .FS_UNHIDDEN) f.neighbours w2 → P w i w2) :
    ∀ (fuel : Nat) (w : World) (i : Nat) (w2 : World), revealAux fuel w i = some w2 → P w i w2 := by
  intro fuel
  induction fuel with
  | zero => intro w i w2 h; simp [revealAux] at h
  | succ fuel ih =>
    intro w i w2 h
    rw [revealAux_succ] at h
    cases hf : w.fields[i]? with
    | none => simp [hf] at h
    | some f =>
      simp only [hf] at h
      by_cases hb : f.isBomb = true
      · simp only [hb, if_true, Option.some.injEq] at h
        subst h
        exact hbomb w i f hf hb
      · have hb1 : f.isBomb = false := by simpa using hb
        simp only [hb1, Bool.false_eq_true, if_false] at h
        by_cases hg : f.status ≠ .FS_MARKED ∧ f.status ≠ .FS_UNHIDDEN
        · rw [if_pos hg] at h
          by_cases ha : f.adjacentBombs = 0
          · rw [if_pos ha] at h
            exact hnode w i f w2 hf hb1 hg ha (foldlM_chain P fuel ih _ _ _ h)
          · rw [if_neg ha] at h
            simp only [Option.some.injEq] at h
            subst h
            exact hleaf w i f hf hb1 hg ha
        · rw [if_neg hg] at h
          simp only [Option.some.injEq] at h
          subst h
          exact hskip w i f hf hb1 hg

/-! ### Runs of status changes -/

theorem Run.single {w : World} {i : Nat} {f : Field} {s : FIELDSTATUS}
    (hf : w.fields[i]? = some f) (ha : f.allows s = true) : Run w [(i, s)] (fire w i f s) :=
  Run.cons hf ha (Run.nil _)

theorem Run.append {a b c : World} {e1 e2 : List (Nat × FIELDSTATUS)}
    (h1 : Run a e1 b) (h2 : Run b e2 c) : Run a (e1 ++ e2) c := by
  induction h1 with
  | nil w => simpa using h2
  | cons hf ha _ ih => exact Run.cons hf ha (ih h2)

theorem Run.frame {a b : World} {evs : List (Nat × FIELDSTATUS)} (h : Run a evs b) : Frame a b := by
  induction h with
  | nil w => exact Frame.refl w
  | cons hf _ _ ih => exact (fire_frame _ _ _ _ hf).trans ih

theorem revealKind_append {e1 e2 : List (Nat × FIELDSTATUS)} (h1 : RevealKind e1)
    (h2 : RevealKind e2) : RevealKind (e1 ++ e2) := by
  intro e he
  rcases List.mem_append.mp he with h | h
  · exact h1 e h
  · exact h2 e h

theorem Chain.mono {P Q : World → Nat → World → Prop} (hPQ : ∀ w n w1, P w n w1 → Q w n w1)
    {w w2 : World} {ns : List Nat} (h : Chain P w ns w2) : Chain Q w ns w2 := by
  induction h with
  | nil w => exact Chain.nil w
  | cons hp _ ih => exact Chain.cons (hPQ _ _ _ hp) ih

theorem chain_run {w w2 : World} {ns : List Nat}
    (h : Chain (fun a _ b => ∃ evs, Run a evs b ∧ RevealKind evs) w ns w2) :
    ∃ evs, Run w evs w2 ∧ RevealKind evs := by
  induction h with
  | nil w => exact ⟨[], Run.nil w, by intro e he; simp at he⟩
  | cons hp _ ih =>
    obtain ⟨e1, r1, k1⟩ := hp
    obtain ⟨e2, r2, k2⟩ := ih
    exact ⟨e1 ++ e2, r1.append r2, revealKind_append k1 k2⟩

theorem revealKind_single_unhidden (i : Nat) : RevealKind [(i, FIELDSTATUS.FS_UNHIDDEN)] := by
  intro e he
  simp only [List.mem_singleton] at he
  subst he
  exact Or.inl rfl

theorem revealKind_single_bomb (i : Nat) : RevealKind [(i, FIELDSTATUS.FS_BOMB)] := by
  intro e he
  simp only [List.mem_singleton] at he
  subst he
  exact Or.inr rfl

theorem revealKind_nil : RevealKind [] := by
  intro e he
  simp at he

/-- What a call of `reveal` does is a run of changes to unhidden or bomb, which
starts with the unhiding of the field itself when that field is an open plain field. -/
theorem revealAux_run (fuel : Nat) (w : World) (i : Nat) (w2 : World)
    (h : revealAux fuel w i = some w2) :
    ∃ evs, Run w evs w2 ∧ RevealKind evs ∧
      ∀ f, w.fields[i]? = some f → f.allows .FS_UNHIDDEN = true →
        ∃ rest, evs = (i, .FS_UNHIDDEN) :: rest := by
  refine revealAux_induct
    (fun w i w2 => ∃ evs, Run w evs w2 ∧ RevealKind evs ∧
      ∀ f, w.fields[i]? = some f → f.allows .FS_UNHIDDEN = true →
        ∃ rest, evs = (i, .FS_UNHIDDEN) :: rest) ?_ ?_ ?_ ?_ fuel w i w2 h
  · intro w i f hf hb
    rw [bombReveal_eq]
    split_ifs with hg
    · refine ⟨[(i, .FS_BOMB)], Run.single hf ?_, revealKind_single_bomb i, ?_⟩
      · simp [Field.allows, hb, hg.1, hg.2.1, hg.2.2]
      · intro f1 hf1 ha
        rw [hf] at hf1
        cases hf1
        simp [Field.allows, hb] at ha
    · refine ⟨[], Run.nil w, revealKind_nil, ?_⟩
      intro f1 hf1 ha
      rw [hf] at hf1
      cases hf1
      simp [Field.allows, hb] at ha
  · intro w i f hf hb hg
    refine ⟨[], Run.nil w, revealKind_nil, ?_⟩
    intro f1 hf1 ha
    rw [hf] at hf1
    cases hf1
    simp only [Field.allows, hb, Bool.not_false, Bool.true_and, Bool.and_eq_true,
      decide_eq_true_eq] at ha
    exact absurd ha hg
  · intro w i f hf hb hg _
    refine ⟨[(i, .FS_UNHIDDEN)], Run.single hf ?_, revealKind_single_unhidden i, ?_⟩
    · simp [Field.allows, hb, hg.1, hg.2]
    · intro _ _ _
      exact ⟨[], rfl⟩
  · intro w i f w2 hf hb hg _ hch
    have hch1 := Chain.mono (Q := fun a _ b => ∃ evs, Run a evs b ∧ RevealKind evs)
      (fun a n b hp => by
        obtain ⟨evs, r, k, _⟩ := hp
        exact ⟨evs, r, k⟩) hch
    obtain ⟨evs, r, k⟩ := chain_run hch1
    refine ⟨(i, .FS_UNHIDDEN) :: evs, Run.cons hf ?_ r, ?_, ?_⟩
    · simp [Field.allows, hb, hg.1, hg.2]
    · exact revealKind_append (revealKind_single_unhidden i) k
    · intro _ _ _
      exact ⟨evs, rfl⟩

/-! ### Termination of reveal -/

theorem openCount_fire_unhidden (w : World) (i : Nat) (f : Field) (hf : w.fields[i]? = some f)
    (ha : f.allows .FS_UNHIDDEN = true) :
    openCount (fire w i f .FS_UNHIDDEN).fields + 1 = openCount w.fields := by
  obtain ⟨hi, rfl⟩ := List.getElem?_eq_some_iff.mp hf
  rw [fire_fields, openCount, openCount, List.countP_set _ _ _ _ hi]
  have hopen : Field.isOpen w.fields[i] = true := by
    simpa [Field.allows, Field.isOpen] using ha
  have hpos := List.boole_getElem_le_countP Field.isOpen w.fields i hi
  simp only [hopen, if_true] at hpos ⊢
  simp only [Field.isOpen, ne_eq, not_true_eq_false, decide_False, Bool.and_false,
    Bool.false_eq_true, if_false]
  omega

theorem openCount_fire_bomb (w : World) (i : Nat) (f : Field) (hf : w.fields[i]? = some f)
    (ha : f.allows .FS_BOMB = true) :
    openCount (fire w i f .FS_BOMB).fields = openCount w.fields := by
  obtain ⟨hi, rfl⟩ := List.getElem?_eq_some_iff.mp hf
  rw [fire_fields, openCount, openCount, List.countP_set _ _ _ _ hi]
  have hb : (w.fields[i]).isBomb = true := by
    simp only [Field.allows, Bool.and_eq_true] at ha
    exact ha.1.1.1
  simp [Field.isOpen, hb]

theorem Run.openCount_le {a b : World} {evs : List (Nat × FIELDSTATUS)} (h : Run a evs b)
    (hk : RevealKind evs) : openCount b.fields ≤ openCount a.fields := by
  induction h with
  | nil w => exact le_refl _
  | @cons w w2 i f s evs hf ha _ ih =>
    have hk1 : RevealKind evs := fun e he => hk e (List.mem_cons_of_mem _ he)
    have h1 := ih hk1
    rcases hk (i, s) (List.mem_cons_self _ _) with hs | hs
    · simp only at hs
      subst hs
      have := openCount_fire_unhidden w i f hf ha
      omega
    · simp only at hs
      subst hs
      have := openCount_fire_bomb w i f hf ha
      omega

theorem foldlM_terminates (fuel : Nat)
    (ih : ∀ (w : World) (i : Nat), WellFormed w.fields → i < w.fields.length →
      openCount w.fields < fuel → ∃ w2, revealAux fuel w i = some w2) :
    ∀ (ns : List Nat) (w : World), WellFormed w.fields → (∀ n ∈ ns, n < w.fields.length) →
      openCount w.fields < fuel →
      ∃ w2, ns.foldlM (fun w n => revealAux fuel w n) w = some w2 := by
  intro ns
  induction ns with
  | nil => intro w _ _ _; exact ⟨w, rfl⟩
  | cons n ns ihn =>
    intro w hw hns hc
    obtain ⟨w1, h1⟩ := ih w n hw (hns n (List.mem_cons_self _ _)) hc
    obtain ⟨evs, r, k, _⟩ := revealAux_run fuel w n w1 h1
    have hfr := r.frame
    have hle := r.openCount_le k
    obtain ⟨w2, h2⟩ := ihn w1 (hfr.wellFormed hw)
      (fun m hm => by rw [hfr.length]; exact hns m (List.mem_cons_of_mem _ hm)) (by omega)
    refine ⟨w2, ?_⟩
    simp only [List.foldlM_cons, bind, Option.bind_eq_some]
    exact ⟨w1, h1, h2⟩

/-- With more fuel than there are open plain fields, `reveal` on a field of a
well-formed heap returns. -/
theorem revealAux_terminates (fuel : Nat) :
    ∀ (w : World) (i : Nat), WellFormed w.fields → i < w.fields.length →
      openCount w.fields < fuel → ∃ w2, revealAux fuel w i = some w2 := by
  induction fuel with
  | zero => intro w i _ _ hc; omega
  | succ fuel ih =>
    intro w i hw hi hc
    rw [revealAux_succ]
    have hf : w.fields[i]? = some w.fields[i] := List.getElem?_eq_getElem hi
    simp only [hf]
    split_ifs with hb hg ha
    · exact ⟨_, rfl⟩
    · have hall : (w.fields[i]).allows .FS_UNHIDDEN = true := by
        simp [Field.allows, hb, hg.1, hg.2]
      have h1 := openCount_fire_unhidden w i _ hf hall
      have hfr := fire_frame w i _ .FS_UNHIDDEN hf
      exact foldlM_terminates fuel ih _ _ (hfr.wellFormed hw)
        (fun n hn => by
          rw [hfr.length]
          exact hw _ (List.getElem_mem hi) n hn) (by omega)
    · exact ⟨_, rfl⟩
    · exact ⟨_, rfl⟩

theorem openCount_le_length (fields : List Field) : openCount fields ≤ fields.length :=
  List.countP_le_length _

/-- The call `reveal()` on a field of a well-formed heap returns. -/
theorem reveal_returns (w : World) (i : Nat) (hw : WellFormed w.fields) (hi : i < w.fields.length) :
    ∃ w2 f2, revealAux (w.fields.length + 1) w i = some w2 ∧ w2.fields[i]? = some f2 ∧
      reveal w i = some (w2, revealResult f2) := by
  obtain ⟨w2, h⟩ := revealAux_terminates (w.fields.length + 1) w i hw hi
    (by have := openCount_le_length w.fields; omega)
  obtain ⟨evs, r, _, _⟩ := revealAux_run _ w i w2 h
  have hlen := r.frame.length
  have hi2 : i < w2.fields.length := by omega
  refine ⟨w2, w2.fields[i], h, List.getElem?_eq_getElem hi2, ?_⟩
  simp only [reveal, h, List.getElem?_eq_getElem hi2]

/-! ### What a run appends to the log -/

theorem notify_log (i : Nat) (s : FIELDSTATUS) (w : World) (o : FieldObserver) :
    ∃ ext, (notifyFieldStatusChanged i s w o).log = w.log ++ ext ∧
      fieldCalls ext = [Notification.fieldStatusChanged o i s] := by
  cases o with
  | impl =>
    obtain ⟨ext, h, hn⟩ := onFieldStatusChanged_log
      { w with log := w.log ++ [Notification.fieldStatusChanged .impl i s] } i s
    refine ⟨Notification.fieldStatusChanged .impl i s :: ext, ?_, ?_⟩
    · simp only [notifyFieldStatusChanged, h]
      simp
    · have : fieldCalls (Notification.fieldStatusChanged .impl i s :: ext)
          = Notification.fieldStatusChanged .impl i s :: fieldCalls ext := by
        simp [fieldCalls, isFieldCall]
      rw [this, fieldCalls_of_none ext hn]
  | client k =>
    exact ⟨[Notification.fieldStatusChanged (.client k) i s], rfl, rfl⟩

theorem signal_log (obs : List FieldObserver) (w : World) (i : Nat) (s : FIELDSTATUS) :
    ∃ ext, (SIGNAL_FIELDSTATUSCHANGED w obs i s).log = w.log ++ ext ∧
      fieldCalls ext = callsFor obs i s := by
  induction obs generalizing w with
  | nil => exact ⟨[], by simp [SIGNAL_FIELDSTATUSCHANGED], rfl⟩
  | cons o os ih =>
    obtain ⟨e1, h1, c1⟩ := notify_log i s w o
    obtain ⟨e2, h2, c2⟩ := ih (notifyFieldStatusChanged i s w o)
    refine ⟨e1 ++ e2, ?_, ?_⟩
    · simp only [SIGNAL_FIELDSTATUSCHANGED, List.foldl_cons] at h2 ⊢
      rw [h2, h1, List.append_assoc]
    · rw [fieldCalls_append, c1, c2]
      rfl

theorem fire_log (w : World) (i : Nat) (f : Field) (s : FIELDSTATUS) :
    ∃ ext, (fire w i f s).log = w.log ++ ext ∧ fieldCalls ext = callsFor f.observers i s := by
  obtain ⟨ext, h, c⟩ := signal_log f.observers (setStatus w i f s) i s
  exact ⟨ext, h, c⟩

theorem filter_of_fieldCalls (i : Nat) (l : List Notification) :
    l.filter (isFieldCallOf i) = (fieldCalls l).filter (isFieldCallOf i) := by
  simp only [fieldCalls, List.filter_filter]
  congr 1
  funext n
  cases n <;> simp [isFieldCallOf, isFieldCall]

theorem callsFor_filter_self (obs : List FieldObserver) (i : Nat) (s : FIELDSTATUS) :
    (callsFor obs i s).filter (isFieldCallOf i) = callsFor obs i s := by
  simp only [callsFor, List.filter_eq_self, List.mem_map]
  rintro n ⟨o, -, rfl⟩
  simp [isFieldCallOf]

theorem callsFor_filter_ne (obs : List FieldObserver) (i j : Nat) (s : FIELDSTATUS) (h : j ≠ i) :
    (callsFor obs j s).filter (isFieldCallOf i) = [] := by
  simp only [callsFor, List.filter_eq_nil_iff, List.mem_map]
  rintro n ⟨o, -, rfl⟩
  simp [isFieldCallOf, h]

theorem observersOf_frame {w w1 : World} (h : Frame w w1) (i : Nat) :
    w1.observersOf i = w.observersOf i := by
  unfold World.observersOf
  cases hf : w.fields[i]? with
  | none =>
    have := h.getElem? i
    rw [hf] at this
    cases h1 : w1.fields[i]? with
    | none => rfl
    | some f1 => simp [h1] at this
  | some f =>
    obtain ⟨f1, h1, hs⟩ := h.get hf
    simp only [h1]
    exact (shape_eq hs).2.2.2.2

/-- The field-level callbacks made along a run: for each change, in order, one
call to every observer of the changed field. -/
theorem Run.log {a b : World} {evs : List (Nat × FIELDSTATUS)} (h : Run a evs b) :
    ∃ ext, b.log = a.log ++ ext ∧
      fieldCalls ext = evs.flatMap (fun e => callsFor (a.observersOf e.1) e.1 e.2) := by
  induction h with
  | nil w => exact ⟨[], by simp, rfl⟩
  | @cons w w2 i f s evs hf ha _ ih =>
    obtain ⟨e1, h1, c1⟩ := fire_log w i f s
    obtain ⟨e2, h2, c2⟩ := ih
    refine ⟨e1 ++ e2, by rw [h2, h1, List.append_assoc], ?_⟩
    rw [fieldCalls_append, c1, c2]
    simp only [List.flatMap_cons]
    congr 1
    · simp [World.observersOf, hf]
    · congr 1
      funext e
      rw [observersOf_frame (fire_frame w i f s hf)]

theorem fire_get_ne (w : World) (i j : Nat) (f : Field) (s : FIELDSTATUS) (h : i ≠ j) :
    (fire w i f s).fields[j]? = w.fields[j]? := by
  rw [fire_fields, List.getElem?_set_ne h]

theorem fire_get_self (w : World) (i : Nat) (f : Field) (s : FIELDSTATUS)
    (hf : w.fields[i]? = some f) :
    (fire w i f s).fields[i]? = some { f with status := s } := by
  obtain ⟨hi, -⟩ := List.getElem?_eq_some_iff.mp hf
  rw [fire_fields, List.getElem?_set_self hi]

/-- A field on which neither `reveal` acts is left alone by a run of reveal changes. -/
theorem Run.closed_untouched {a b : World} {evs : List (Nat × FIELDSTATUS)} (h : Run a evs b)
    (hk : RevealKind evs) {i : Nat} {f : Field} (hf : a.fields[i]? = some f)
    (hc1 : f.allows .FS_UNHIDDEN = false) (hc2 : f.allows .FS_BOMB = false) :
    b.fields[i]? = some f ∧ ∀ e ∈ evs, e.1 ≠ i := by
  induction h with
  | nil w => exact ⟨hf, by intro e he; simp at he⟩
  | @cons w w2 j g s evs hg ha _ ih =>
    have hk1 : RevealKind evs := fun e he => hk e (List.mem_cons_of_mem _ he)
    have hji : j ≠ i := by
      rintro rfl
      rw [hf] at hg
      cases hg
      rcases hk (j, s) (List.mem_cons_self _ _) with hs | hs
      · simp only at hs
        subst hs
        rw [hc1] at ha
        cases ha
      · simp only at hs
        subst hs
        rw [hc2] at ha
        cases ha
    obtain ⟨h1, h2⟩ := ih hk1 (by rw [fire_get_ne _ _ _ _ _ hji]; exact hf)
    refine ⟨h1, ?_⟩
    intro e he
    rcases List.mem_cons.mp he with rfl | he
    · exact hji
    · exact h2 e he

theorem flatMap_filter_none (i : Nat) (a : World) (evs : List (Nat × FIELDSTATUS))
    (h : ∀ e ∈ evs, e.1 ≠ i) :
    (evs.flatMap (fun e => callsFor (a.observersOf e.1) e.1 e.2)).filter (isFieldCallOf i) = [] := by
  induction evs with
  | nil => rfl
  | cons e evs ih =>
    simp only [List.flatMap_cons, List.filter_append]
    rw [callsFor_filter_ne _ _ _ _ (h e (List.mem_cons_self _ _)),
      ih (fun e1 he1 => h e1 (List.mem_cons_of_mem _ he1))]
    rfl

/-! ### Field::cycleMark, Field::reveal and Bomb::reveal on one cell -/

theorem set_same (l : List Field) (i : Nat) (f : Field) (h : l[i]? = some f) : l.set i f = l := by
  have hi := (List.getElem?_eq_some_iff.mp h).1
  apply List.ext_getElem?
  intro j
  rw [List.getElem?_set]
  split_ifs with h1
  · rw [← h1, h]
  · rfl

theorem cycleMark_change (w : World) (i : Nat) (f : Field) (s : FIELDSTATUS)
    (hf : w.fields[i]? = some f)
    (hs : (f.status = .FS_HIDDEN ∧ s = .FS_MARKED) ∨ (f.status = .FS_MARKED ∧ s = .FS_QUERIED)
      ∨ (f.status = .FS_QUERIED ∧ s = .FS_HIDDEN)) :
    cycleMark w i = some (fire w i f s) := by
  unfold cycleMark
  simp only [hf]
  rcases hs with ⟨h1, rfl⟩ | ⟨h1, rfl⟩ | ⟨h1, rfl⟩ <;> simp [h1, fire]

theorem cycleMark_same (w : World) (i : Nat) (f : Field) (hf : w.fields[i]? = some f)
    (hs : f.status = .FS_UNHIDDEN ∨ f.status = .FS_BOMB) : cycleMark w i = some w := by
  unfold cycleMark
  simp only [hf]
  have hset : setStatus w i f f.status = w := by
    simp only [setStatus]
    rw [set_same w.fields i f hf]
  rcases hs with h1 | h1 <;> simp only [h1] at hset ⊢ <;> simp [hset]

/-- C4: `cycleMark()` takes a cell (plain or bomb) from Hidden to Marked, from Marked to
Queried and from Queried to Hidden, changing no other cell and calling every
observer of the cell once with the new status; on an Unhidden or Mined cell it changes
nothing and calls nobody.  Three calls in a row on a Hidden cell restore the heap. -/
theorem C4_cycleMark (w : World) (i : Nat) (f : Field) (hf : w.fields[i]? = some f) :
    (f.status = .FS_HIDDEN → ∃ w1 ext, cycleMark w i = some w1 ∧
        w1.fields = w.fields.set i { f with status := .FS_MARKED } ∧
        w1.log = w.log ++ ext ∧ fieldCalls ext = callsFor f.observers i .FS_MARKED) ∧
    (f.status = .FS_MARKED → ∃ w1 ext, cycleMark w i = some w1 ∧
        w1.fields = w.fields.set i { f with status := .FS_QUERIED } ∧
        w1.log = w.log ++ ext ∧ fieldCalls ext = callsFor f.observers i .FS_QUERIED) ∧
    (f.status = .FS_QUERIED → ∃ w1 ext, cycleMark w i = some w1 ∧
        w1.fields = w.fields.set i { f with status := .FS_HIDDEN } ∧
        w1.log = w.log ++ ext ∧ fieldCalls ext = callsFor f.observers i .FS_HIDDEN) ∧
    (f.status = .FS_UNHIDDEN ∨ f.status = .FS_BOMB → cycleMark w i = some w) ∧
    (f.status = .FS_HIDDEN → ∃ w1 w2 w3, cycleMark w i = some w1 ∧ cycleMark w1 i = some w2 ∧
        cycleMark w2 i = some w3 ∧ w3.fields = w.fields) := by
  have step : ∀ (w : World) (f : Field) (s : FIELDSTATUS), w.fields[i]? = some f →
      ((f.status = .FS_HIDDEN ∧ s = .FS_MARKED) ∨ (f.status = .FS_MARKED ∧ s = .FS_QUERIED)
        ∨ (f.status = .FS_QUERIED ∧ s = .FS_HIDDEN)) →
      ∃ w1 ext, cycleMark w i = some w1 ∧ w1.fields = w.fields.set i { f with status := s } ∧
        w1.log = w.log ++ ext ∧ fieldCalls ext = callsFor f.observers i s := by
    intro w f s hf hs
    obtain ⟨ext, h1, h2⟩ := fire_log w i f s
    exact ⟨fire w i f s, ext, cycleMark_change w i f s hf hs, fire_fields w i f s, h1, h2⟩
  refine ⟨fun h => step w f _ hf (Or.inl ⟨h, rfl⟩), fun h => step w f _ hf (Or.inr (Or.inl ⟨h, rfl⟩)),
    fun h => step w f _ hf (Or.inr (Or.inr ⟨h, rfl⟩)), cycleMark_same w i f hf, ?_⟩
  intro h
  have g1 := fire_get_self w i f .FS_MARKED hf
  have g2 := fire_get_self _ i _ .FS_QUERIED g1
  refine ⟨_, _, _, cycleMark_change w i f _ hf (Or.inl ⟨h, rfl⟩),
    cycleMark_change _ i _ _ g1 (Or.inr (Or.inl ⟨rfl, rfl⟩)),
    cycleMark_change _ i _ _ g2 (Or.inr (Or.inr ⟨rfl, rfl⟩)), ?_⟩
  simp only [fire_fields, List.set_set]
  have : ({ f with status := FIELDSTATUS.FS_HIDDEN } : Field) = f := by
    cases f
    simp only at h
    subst h
    rfl
  rw [this]
  exact set_same w.fields i f hf

/-- C4, on the fixture of field_test.cpp: `x[0]` is Hidden and has one observer. -/
theorem C4_cycleMark_witness :
    fixture.fields[0]? = some (fixtureFields.get ⟨0, by decide⟩) ∧
    ∃ w1 ext, cycleMark fixture 0 = some w1 ∧
      w1.fields = fixture.fields.set 0 { fixtureFields.get ⟨0, by decide⟩ with status := .FS_MARKED } ∧
      w1.log = fixture.log ++ ext ∧
      fieldCalls ext = [Notification.fieldStatusChanged (.client 0) 0 .FS_MARKED] :=
  ⟨rfl, (C4_cycleMark fixture 0 (fixtureFields.get ⟨0, by decide⟩) rfl).1 rfl⟩

theorem run_cons_inv {w w2 : World} {i : Nat} {s : FIELDSTATUS} {evs : List (Nat × FIELDSTATUS)}
    {f : Field} (h : Run w ((i, s) :: evs) w2) (hf : w.fields[i]? = some f) :
    Run (fire w i f s) evs w2 := by
  cases h with
  | cons hg _ hr =>
    rw [hf] at hg
    cases hg
    exact hr

/-- C5: on a plain cell that is Hidden or Queried, `reveal()` returns the adjacent-bomb
count, leaves the cell Unhidden and calls each observer of the cell once, with
Unhidden; on a plain cell that is Marked or Unhidden it returns the count and changes
nothing at all (no status, no callback). -/
theorem C5_reveal_plain (w : World) (i : Nat) (f : Field) (hw : WellFormed w.fields)
    (hf : w.fields[i]? = some f) (hb : f.isBomb = false) :
    (f.status = .FS_HIDDEN ∨ f.status = .FS_QUERIED →
      ∃ w2 ext, reveal w i = some (w2, f.adjacentBombs) ∧
        w2.fields[i]? = some { f with status := .FS_UNHIDDEN } ∧
        w2.log = w.log ++ ext ∧
        ext.filter (isFieldCallOf i) = callsFor f.observers i .FS_UNHIDDEN) ∧
    (f.status = .FS_MARKED ∨ f.status = .FS_UNHIDDEN → reveal w i = some (w, f.adjacentBombs)) := by
  obtain ⟨hi, -⟩ := List.getElem?_eq_some_iff.mp hf
  constructor
  · intro hs
    have hall : f.allows .FS_UNHIDDEN = true := by
      rcases hs with h | h <;> simp [Field.allows, hb, h]
    obtain ⟨w2, f2, h1, h2, h3⟩ := reveal_returns w i hw hi
    obtain ⟨evs, r, k, hfirst⟩ := revealAux_run _ w i w2 h1
    obtain ⟨rest, rfl⟩ := hfirst f hf hall
    have hk : RevealKind rest := fun e he => k e (List.mem_cons_of_mem _ he)
    have r1 := run_cons_inv r hf
    obtain ⟨hget, hnone⟩ := r1.closed_untouched hk (fire_get_self w i f .FS_UNHIDDEN hf)
      (by simp [Field.allows]) (by simp [Field.allows, hb])
    obtain ⟨ext, hlog, hcalls⟩ := r.log
    rw [hget] at h2
    cases h2
    refine ⟨w2, ext, ?_, hget, hlog, ?_⟩
    · rw [h3]
      simp [revealResult, hb]
    · rw [filter_of_fieldCalls, hcalls, List.flatMap_cons, List.filter_append,
        flatMap_filter_none i w rest hnone, List.append_nil]
      simp only [World.observersOf, hf]
      exact callsFor_filter_self _ _ _
  · intro hs
    have h1 : revealAux (w.fields.length + 1) w i = some w := by
      rw [revealAux_succ]
      simp only [hf, hb]
      rcases hs with h | h <;> simp [h]
    simp only [reveal, h1, hf]
    simp [revealResult, hb]

/-- C5, on the fixture of field_test.cpp: `x[0]` is a Hidden plain field. -/
theorem C5_reveal_plain_witness :
    WellFormed fixture.fields ∧ fixture.fields[0]? = some (fixtureFields.get ⟨0, by decide⟩) ∧
    ∃ w2 ext, reveal fixture 0 = some (w2, 1) ∧
      w2.fields[0]? = some { fixtureFields.get ⟨0, by decide⟩ with status := .FS_UNHIDDEN } ∧
      w2.log = fixture.log ++ ext ∧
      ext.filter (isFieldCallOf 0) = [Notification.fieldStatusChanged (.client 0) 0 .FS_UNHIDDEN] :=
  ⟨by unfold WellFormed; decide, rfl,
    (C5_reveal_plain fixture 0 (fixtureFields.get ⟨0, by decide⟩) (by unfold WellFormed; decide)
      rfl rfl).1 (Or.inl rfl)⟩

/-- C6: on a bomb that is Hidden or Queried, `reveal()` returns `FS_BOMB`, sets the
bomb to the status `FS_BOMB`, changes no other field and calls each observer of the
bomb once, with `FS_BOMB`; on a bomb that is Marked or already `FS_BOMB` it returns
`FS_BOMB` and changes nothing at all. -/
theorem C6_reveal_bomb (w : World) (i : Nat) (f : Field) (hf : w.fields[i]? = some f)
    (hb : f.isBomb = true) :
    (f.status = .FS_HIDDEN ∨ f.status = .FS_QUERIED →
      ∃ w2 ext, reveal w i = some (w2, FIELDSTATUS.FS_BOMB.toNat) ∧
        w2.fields = w.fields.set i { f with status := .FS_BOMB } ∧
        w2.log = w.log ++ ext ∧ fieldCalls ext = callsFor f.observers i .FS_BOMB) ∧
    (f.status = .FS_MARKED ∨ f.status = .FS_BOMB →
      reveal w i = some (w, FIELDSTATUS.FS_BOMB.toNat)) := by
  constructor
  · intro hs
    have h1 : revealAux (w.fields.length + 1) w i = some (fire w i f .FS_BOMB) := by
      rw [revealAux_succ]
      simp only [hf, hb, if_true, bombReveal_eq]
      rcases hs with h | h <;> simp [h]
    obtain ⟨ext, hlog, hcalls⟩ := fire_log w i f .FS_BOMB
    refine ⟨fire w i f .FS_BOMB, ext, ?_, fire_fields _ _ _ _, hlog, hcalls⟩
    simp only [reveal, h1, fire_get_self w i f .FS_BOMB hf]
    simp [revealResult, hb]
  · intro hs
    have h1 : revealAux (w.fields.length + 1) w i = some w := by
      rw [revealAux_succ]
      simp only [hf, hb, if_true, bombReveal_eq]
      rcases hs with h | h <;> simp [h]
    simp only [reveal, h1, hf]
    simp [revealResult, hb]

/-- C6, on the fixture of field_test.cpp: `y[1]` is a Hidden bomb. -/
theorem C6_reveal_bomb_witness :
    fixture.fields[3]? = some (fixtureFields.get ⟨3, by decide⟩) ∧
    ∃ w2 ext, reveal fixture 3 = some (w2, 4) ∧
      w2.fields = fixture.fields.set 3 { fixtureFields.get ⟨3, by decide⟩ with status := .FS_BOMB } ∧
      w2.log = fixture.log ++ ext ∧ fieldCalls ext = [] :=
  ⟨rfl, (C6_reveal_bomb fixture 3 (fixtureFields.get ⟨3, by decide⟩) rfl rfl).1 (Or.inl rfl)⟩

/-- C9: on a Hidden or Queried plain cell whose adjacent-bomb count is not zero,
`reveal()` returns that count, sets the cell to Unhidden and changes no other field. -/
theorem C9_reveal_counted (w : World) (i : Nat) (f : Field) (hf : w.fields[i]? = some f)
    (hb : f.isBomb = false) (hs : f.status = .FS_HIDDEN ∨ f.status = .FS_QUERIED)
    (hc : 0 < f.adjacentBombs) :
    ∃ w2, reveal w i = some (w2, f.adjacentBombs) ∧
      w2.fields = w.fields.set i { f with status := .FS_UNHIDDEN } := by
  have h1 : revealAux (w.fields.length + 1) w i = some (fire w i f .FS_UNHIDDEN) := by
    rw [revealAux_succ]
    simp only [hf, hb]
    have hne : f.adjacentBombs ≠ 0 := by omega
    rcases hs with h | h <;> simp [h, hne]
  refine ⟨fire w i f .FS_UNHIDDEN, ?_, fire_fields _ _ _ _⟩
  simp only [reveal, h1, fire_get_self w i f .FS_UNHIDDEN hf]
  simp [revealResult, hb]

/-- C9, on the 2x2 grid with the bomb at (1,1): the three plain cells count 1, and
revealing (0,0) leaves (1,0) and (0,1) Hidden. -/
theorem C9_reveal_counted_witness :
    grid2x2.fields.map (fun f => (f.isBomb, f.adjacentBombs, f.status))
      = [(false, 1, .FS_HIDDEN), (false, 1, .FS_HIDDEN), (false, 1, .FS_HIDDEN), (true, 0, .FS_HIDDEN)] ∧
    ∃ w2, reveal grid2x2 (cellAddr 2 0 0) = some (w2, 1) ∧
      w2.fields.map (fun f => f.status) = [.FS_UNHIDDEN, .FS_HIDDEN, .FS_HIDDEN, .FS_HIDDEN] :=
  ⟨by decide,
    (C9_reveal_counted grid2x2 0
      { isBomb := false, pos := ⟨0, 0⟩, status := .FS_HIDDEN, adjacentBombs := 1,
        neighbours := [1, 3, 2], observers := [FieldObserver.impl] }
      (by decide) rfl (Or.inl rfl) (by decide)).imp
      (fun w2 h => ⟨h.1, by rw [h.2]; decide⟩)⟩

/-! ### The loops of Matrix::reset -/

theorem loopYX_eq (dimX dimY : Nat) :
    loopYX dimX dimY = (List.range (dimX * dimY)).map (fun p => (p % dimX, p / dimX)) := by
  induction dimY with
  | zero => simp [loopYX]
  | succ h ih =>
    unfold loopYX at ih ⊢
    rw [List.range_succ, List.flatMap_append, ih, Nat.mul_succ, List.range_add, List.map_append]
    congr 1
    simp only [List.flatMap_cons, List.flatMap_nil, List.append_nil, List.map_map]
    apply List.map_congr_left
    intro x hx
    have hx1 : x < dimX := List.mem_range.mp hx
    have hpos : 0 < dimX := by omega
    simp only [Function.comp]
    rw [Nat.mul_add_mod, Nat.mod_eq_of_lt hx1, Nat.mul_add_div hpos, Nat.div_eq_of_lt hx1]
    simp

theorem cellAddr_mod_div (dimX p : Nat) : cellAddr dimX (p % dimX) (p / dimX) = p := by
  unfold cellAddr
  rw [Nat.mul_comm]
  exact Nat.div_add_mod p dimX

theorem createFields_eq (dimX dimY : Nat) (bombs : List (List Nat)) :
    createFields dimX dimY bombs = (List.range (dimX * dimY)).map (fun p =>
      newField (decide (helperAt bombs (p % dimX) (p / dimX) = 1)) (p % dimX) (p / dimX)) := by
  simp only [createFields, loopYX_eq, List.map_map]
  rfl

/-- A loop whose iteration for `p` rewrites the object at address `p` from its own
old value, run over distinct addresses. -/
theorem foldl_pointwise (g : Nat → Field → Field) (step : List Field → Nat → List Field)
    (hstep : ∀ fs p f, fs[p]? = some f → step fs p = fs.set p (g p f))
    (hnone : ∀ fs p, fs[p]? = none → step fs p = fs) :
    ∀ (L : List Nat), L.Nodup → ∀ (fs : List Field) (j : Nat),
      (L.foldl step fs)[j]? = if j ∈ L then (fs[j]?).map (g j) else fs[j]? := by
  intro L
  induction L with
  | nil => intro _ fs j; simp
  | cons p L ih =>
    intro hnd fs j
    have hp : p ∉ L := (List.nodup_cons.mp hnd).1
    rw [List.foldl_cons, ih (List.nodup_cons.mp hnd).2]
    cases hf : fs[p]? with
    | none =>
      rw [hnone fs p hf]
      by_cases hj : j = p
      · subst hj
        simp [hf, hp]
      · simp [hj]
    | some f =>
      rw [hstep fs p f hf]
      by_cases hj : j = p
      · subst hj
        have hlt := (List.getElem?_eq_some_iff.mp hf).1
        simp [hp, hf, List.getElem?_set_self hlt]
      · have hpj : p ≠ j := fun h => hj h.symm
        simp [hj, List.getElem?_set_ne hpj]

theorem addNeighbour_spec (fields : List Field) (i n : Nat) (f : Field) (hf : fields[i]? = some f) :
    addNeighbour fields i n = fields.set i { f with neighbours := f.neighbours ++ [n] } := by
  simp [addNeighbour, hf]

theorem pushIf_spec (c : Prop) [Decidable c] (fields : List Field) (i n : Nat) (f : Field)
    (ns : List Nat) (h : fields[i]? = some f) :
    (if c then addNeighbour (fields.set i { f with neighbours := ns }) i n
      else fields.set i { f with neighbours := ns })
      = fields.set i { f with neighbours := ns ++ (if c then [n] else []) } := by
  have hi := (List.getElem?_eq_some_iff.mp h).1
  split_ifs with hc
  · rw [addNeighbour_spec _ _ _ _ (List.getElem?_set_self hi), List.set_set]
  · simp

theorem linkCell_spec (dimX dimY : Nat) (fields : List Field) (p : Nat × Nat) (f : Field)
    (hf : fields[cellAddr dimX p.1 p.2]? = some f) :
    linkCell dimX dimY fields p = fields.set (cellAddr dimX p.1 p.2)
      { f with neighbours := f.neighbours ++ neighbourList dimX dimY p.1 p.2 } := by
  have h0 : fields = fields.set (cellAddr dimX p.1 p.2) { f with neighbours := f.neighbours } :=
    (set_same fields _ f hf).symm
  unfold linkCell
  simp only []
  conv_lhs => rw [h0]
  simp only [pushIf_spec _ fields _ _ f _ hf]
  simp only [neighbourList, List.append_assoc]

theorem linkCell_none (dimX dimY : Nat) (fields : List Field) (p : Nat × Nat)
    (hf : fields[cellAddr dimX p.1 p.2]? = none) : linkCell dimX dimY fields p = fields := by
  have h : ∀ n, addNeighbour fields (cellAddr dimX p.1 p.2) n = fields := by
    intro n
    simp [addNeighbour, hf]
  unfold linkCell
  simp only [h, ite_self]

theorem setLinks_get (dimX dimY : Nat) (fields : List Field) (j : Nat) :
    (setLinks dimX dimY fields)[j]? =
      if j < dimX * dimY then
        (fields[j]?).map (fun f =>
          { f with neighbours := f.neighbours ++ neighbourList dimX dimY (j % dimX) (j / dimX) })
      else fields[j]? := by
  unfold setLinks
  rw [loopYX_eq, List.foldl_map]
  have h := foldl_pointwise
    (fun j f => { f with neighbours := f.neighbours ++ neighbourList dimX dimY (j % dimX) (j / dimX) })
    (fun fs p => linkCell dimX dimY fs (p % dimX, p / dimX))
    (by
      intro fs p f hf
      have := linkCell_spec dimX dimY fs (p % dimX, p / dimX) f (by
        simp only [cellAddr_mod_div]; exact hf)
      simpa only [cellAddr_mod_div] using this)
    (by
      intro fs p hf
      exact linkCell_none dimX dimY fs (p % dimX, p / dimX) (by
        simp only [cellAddr_mod_div]; exact hf))
    (List.range (dimX * dimY)) (List.nodup_range _) fields j
  rw [h]
  simp only [List.mem_range]

theorem bumpN_bumpN (k m : Nat) (f : Field) : bumpN k (bumpN m f) = bumpN (m + k) f := by
  unfold bumpN
  by_cases hm : m = 0
  · subst hm
    simp
  · by_cases hk : k = 0
    · subst hk
      simp [hm]
    · have hmk : m + k ≠ 0 := by omega
      simp only [hm, hk, hmk, if_false]
      congr 1
      omega

theorem map_bumpN_bumpN (k m : Nat) (o : Option Field) :
    (o.map (bumpN m)).map (bumpN k) = o.map (bumpN (m + k)) := by
  cases o with
  | none => rfl
  | some f => simp [bumpN_bumpN]

theorem incAdjacentBombs_get (fs : List Field) (n j : Nat) :
    (incAdjacentBombs fs n)[j]? = (fs[j]?).map (bumpN (if n = j then 1 else 0)) := by
  unfold incAdjacentBombs
  cases hf : fs[n]? with
  | none =>
    simp only []
    by_cases hnj : n = j
    · subst hnj
      simp [hf]
    · simp only [hnj, if_false]
      cases fs[j]? <;> simp [bumpN]
  | some f =>
    simp only []
    have hn := (List.getElem?_eq_some_iff.mp hf).1
    by_cases hnj : n = j
    · subst hnj
      simp [hf, List.getElem?_set_self hn, bumpN]
    · simp only [hnj, if_false, List.getElem?_set_ne hnj]
      cases fs[j]? <;> simp [bumpN]

theorem map_bumpN_zero (o : Option Field) : o.map (bumpN 0) = o := by
  cases o <;> simp [bumpN]

theorem incs_get (ns : List Nat) (fs : List Field) (j : Nat) :
    (ns.foldl incAdjacentBombs fs)[j]? = (fs[j]?).map (bumpN (ns.count j)) := by
  induction ns generalizing fs with
  | nil => simp [map_bumpN_zero]
  | cons n ns ih =>
    rw [List.foldl_cons, ih, incAdjacentBombs_get, map_bumpN_bumpN]
    have : (if n = j then 1 else 0) + ns.count j = (n :: ns).count j := by
      rw [List.count_cons]
      by_cases h : n = j
      · simp [h, Nat.add_comm]
      · simp [h]
    rw [this]

theorem informNeighbours_get (fs : List Field) (p j : Nat) :
    (informNeighbours fs p)[j]? = (fs[j]?).map (bumpN (hit fs p j)) := by
  unfold informNeighbours hit
  cases hf : fs[p]? with
  | none => simp [map_bumpN_zero]
  | some f =>
    simp only []
    split_ifs with hb
    · exact incs_get _ _ _
    · simp [map_bumpN_zero]

theorem bumpN_keeps (k : Nat) (f : Field) :
    (bumpN k f).isBomb = f.isBomb ∧ (bumpN k f).neighbours = f.neighbours ∧
    (bumpN k f).pos = f.pos ∧ (bumpN k f).status = f.status ∧
    (bumpN k f).observers = f.observers := by
  unfold bumpN
  split_ifs <;> exact ⟨rfl, rfl, rfl, rfl, rfl⟩

theorem hit_congr (fs fs1 : List Field) (k : Nat → Nat)
    (h : ∀ q, fs1[q]? = (fs[q]?).map (bumpN (k q))) (p j : Nat) : hit fs1 p j = hit fs p j := by
  unfold hit
  rw [h p]
  cases fs[p]? with
  | none => rfl
  | some f =>
    simp only [Option.map_some']
    rw [(bumpN_keeps _ f).1, (bumpN_keeps _ f).2.1]

theorem hits_congr (fs fs1 : List Field) (k : Nat → Nat)
    (h : ∀ q, fs1[q]? = (fs[q]?).map (bumpN (k q))) (L : List Nat) (j : Nat) :
    hits fs1 L j = hits fs L j := by
  unfold hits
  congr 1
  apply List.map_congr_left
  intro q _
  exact hit_congr fs fs1 k h q j

theorem informs_get (L : List Nat) (fs : List Field) (j : Nat) :
    (L.foldl informNeighbours fs)[j]? = (fs[j]?).map (bumpN (hits fs L j)) := by
  induction L generalizing fs with
  | nil => simp [hits, map_bumpN_zero]
  | cons p L ih =>
    rw [List.foldl_cons, ih, informNeighbours_get, map_bumpN_bumpN,
      hits_congr fs _ (fun q => hit fs p q) (fun q => informNeighbours_get fs p q)]
    simp only [hits, List.map_cons, List.sum_cons]

theorem informAll_get (dimX dimY : Nat) (fs : List Field) (j : Nat) :
    (informAll dimX dimY fs)[j]? = (fs[j]?).map (bumpN (hits fs (List.range (dimX * dimY)) j)) := by
  unfold informAll
  rw [loopYX_eq, List.foldl_map]
  simp only [cellAddr_mod_div]
  exact informs_get _ fs j

/-! ### Geometry of the neighbour links -/

theorem cellAddr_inj {dimX x y x1 y1 : Nat} (hx : x < dimX) (hx1 : x1 < dimX)
    (h : cellAddr dimX x y = cellAddr dimX x1 y1) : x = x1 ∧ y = y1 := by
  unfold cellAddr at h
  have hm := congrArg (· % dimX) h
  have hd := congrArg (· / dimX) h
  have hpos : 0 < dimX := by omega
  simp only [Nat.mul_comm _ dimX, Nat.mul_add_mod, Nat.mod_eq_of_lt hx,
    Nat.mod_eq_of_lt hx1] at hm
  simp only [Nat.mul_comm _ dimX, Nat.mul_add_div hpos, Nat.div_eq_of_lt hx,
    Nat.div_eq_of_lt hx1, Nat.add_zero] at hd
  exact ⟨hm, hd⟩

theorem cellAddr_lt {dimX dimY x y : Nat} (hx : x < dimX) (hy : y < dimY) :
    cellAddr dimX x y < dimX * dimY := by
  unfold cellAddr
  have : (y + 1) * dimX ≤ dimY * dimX := Nat.mul_le_mul_right dimX hy
  rw [Nat.add_mul, Nat.one_mul] at this
  rw [Nat.mul_comm dimX dimY]
  omega

set_option maxHeartbeats 800000 in
theorem mem_neighbourList (dimX dimY x y q : Nat) (hx : x < dimX) (hy : y < dimY) :
    q ∈ neighbourList dimX dimY x y ↔
      ∃ x1 y1, x1 < dimX ∧ y1 < dimY ∧ x1 ≤ x + 1 ∧ x ≤ x1 + 1 ∧ y1 ≤ y + 1 ∧ y ≤ y1 + 1 ∧
        (x1 ≠ x ∨ y1 ≠ y) ∧ q = cellAddr dimX x1 y1 := by
  unfold neighbourList
  simp only [List.mem_append, List.mem_ite_nil_right, List.mem_singleton]
  constructor
  · rintro (⟨h, rfl⟩ | ⟨h, rfl⟩ | ⟨h, rfl⟩ | ⟨h, rfl⟩ | ⟨h, rfl⟩ | ⟨h, rfl⟩ | ⟨h, rfl⟩ | ⟨h, rfl⟩)
    · exact ⟨x - 1, y - 1, by omega, by omega, by omega, by omega, by omega, by omega, by omega, rfl⟩
    · exact ⟨x, y - 1, by omega, by omega, by omega, by omega, by omega, by omega, by omega, rfl⟩
    · exact ⟨x + 1, y - 1, by omega, by omega, by omega, by omega, by omega, by omega, by omega, rfl⟩
    · exact ⟨x + 1, y, by omega, by omega, by omega, by omega, by omega, by omega, by omega, rfl⟩
    · exact ⟨x + 1, y + 1, by omega, by omega, by omega, by omega, by omega, by omega, by omega, rfl⟩
    · exact ⟨x, y + 1, by omega, by omega, by omega, by omega, by omega, by omega, by omega, rfl⟩
    · exact ⟨x - 1, y + 1, by omega, by omega, by omega, by omega, by omega, by omega, by omega, rfl⟩
    · exact ⟨x - 1, y, by omega, by omega, by omega, by omega, by omega, by omega, by omega, rfl⟩
  · rintro ⟨x1, y1, h1, h2, h3, h4, h5, h6, h7, rfl⟩
    have cx : (x1 + 1 = x) ∨ x1 = x ∨ x1 = x + 1 := by omega
    have cy : (y1 + 1 = y) ∨ y1 = y ∨ y1 = y + 1 := by omega
    rcases cx with cx | cx | cx <;> rcases cy with cy | cy | cy <;> subst cx <;> subst cy
    · exact Or.inl ⟨by omega, by simp⟩
    · exact Or.inr (Or.inr (Or.inr (Or.inr (Or.inr (Or.inr (Or.inr ⟨by omega, by simp⟩))))))
    · exact Or.inr (Or.inr (Or.inr (Or.inr (Or.inr (Or.inr (Or.inl ⟨by omega, by simp⟩))))))
    · exact Or.inr (Or.inl ⟨by omega, by simp⟩)
    · rcases h7 with h | h <;> exact absurd rfl h
    · exact Or.inr (Or.inr (Or.inr (Or.inr (Or.inr (Or.inl ⟨by omega, rfl⟩)))))
    · exact Or.inr (Or.inr (Or.inl ⟨by omega, by simp⟩))
    · exact Or.inr (Or.inr (Or.inr (Or.inl ⟨by omega, rfl⟩)))
    · exact Or.inr (Or.inr (Or.inr (Or.inr (Or.inl ⟨by omega, rfl⟩))))

set_option maxHeartbeats 800000 in
theorem neighbourList_nodup (dimX dimY x y : Nat) (hx : x < dimX) :
    (neighbourList dimX dimY x y).Nodup := by
  have inj : ∀ a b c d : Nat, a < dimX → c < dimX → (a ≠ c ∨ b ≠ d) →
      cellAddr dimX a b ≠ cellAddr dimX c d := by
    intro a b c d ha hc hne h
    have := cellAddr_inj ha hc h
    omega
  unfold neighbourList
  by_cases c1 : (x : Int) - 1 ≥ 0 <;> by_cases c2 : (y : Int) - 1 ≥ 0 <;>
    by_cases c3 : (x : Int) + 1 < dimX <;> by_cases c4 : (y : Int) + 1 < dimY <;>
    simp only [c1, c2, c3, c4, and_self, and_true, and_false, true_and, false_and, if_true,
      if_false, List.nil_append, List.append_nil, List.singleton_append, List.nodup_cons,
      List.mem_cons, List.mem_singleton, List.not_mem_nil, not_or, not_false_eq_true,
      List.nodup_nil] <;>
    (repeat' constructor) <;>
    (apply inj <;> omega)

theorem neighbourList_length (dimX dimY x y : Nat) : (neighbourList dimX dimY x y).length ≤ 8 := by
  unfold neighbourList
  simp only [List.length_append]
  have h : ∀ (c : Prop) [Decidable c] (a : Nat), (if c then [a] else []).length ≤ 1 := by
    intro c _ a
    split_ifs <;> simp
  have h1 := h ((x : Int) - 1 ≥ 0 ∧ (y : Int) - 1 ≥ 0) (cellAddr dimX (x - 1) (y - 1))
  have h2 := h ((y : Int) - 1 ≥ 0) (cellAddr dimX x (y - 1))
  have h3 := h ((x : Int) + 1 < dimX ∧ (y : Int) - 1 ≥ 0) (cellAddr dimX (x + 1) (y - 1))
  have h4 := h ((x : Int) + 1 < dimX) (cellAddr dimX (x + 1) y)
  have h5 := h ((x : Int) + 1 < dimX ∧ (y : Int) + 1 < dimY) (cellAddr dimX (x + 1) (y + 1))
  have h6 := h ((y : Int) + 1 < dimY) (cellAddr dimX x (y + 1))
  have h7 := h ((x : Int) - 1 ≥ 0 ∧ (y : Int) + 1 < dimY) (cellAddr dimX (x - 1) (y + 1))
  have h8 := h ((x : Int) - 1 ≥ 0) (cellAddr dimX (x - 1) y)
  omega

/-! ### The placement loop -/

theorem helperGet_ok {bombs : List (List Nat)} {x y v : Nat} (h : helperGet bombs x y = .ok v) :
    ∃ col, bombs[x]? = some col ∧ y < col.length ∧ v = helperAt bombs x y := by
  unfold helperGet at h
  cases hc : bombs[x]? with
  | none => simp [hc] at h
  | some col =>
    simp only [hc] at h
    cases hv : col[y]? with
    | none => simp [hv] at h
    | some u =>
      simp only [hv, Except.ok.injEq] at h
      subst h
      have hx := (List.getElem?_eq_some_iff.mp hc).1
      have hy := (List.getElem?_eq_some_iff.mp hv).1
      refine ⟨col, rfl, hy, ?_⟩
      simp [helperAt, List.getD, hc, hv]

theorem helperAt_set (bombs : List (List Nat)) (col : List Nat) (x y v x1 y1 : Nat)
    (hc : bombs[x]? = some col) (hy : y < col.length) :
    helperAt (bombs.set x (col.set y v)) x1 y1
      = if x1 = x ∧ y1 = y then v else helperAt bombs x1 y1 := by
  have hx := (List.getElem?_eq_some_iff.mp hc).1
  unfold helperAt
  simp only [List.getD_eq_getElem?_getD]
  by_cases h1 : x1 = x
  · subst h1
    rw [List.getElem?_set_self hx]
    simp only [Option.getD_some, true_and, hc]
    by_cases h2 : y1 = y
    · subst h2
      simp [List.getElem?_set_self hy]
    · have h2' : y ≠ y1 := fun h => h2 h.symm
      simp [h2, List.getElem?_set_ne h2']
  · have h1' : x ≠ x1 := fun h => h1 h.symm
    simp [h1, List.getElem?_set_ne h1']

theorem helperSet_ok {dimX dimY : Nat} {bombs out : List (List Nat)} {x y : Nat}
    (h : helperSet bombs x y 1 = .ok out) (hok : HelperOK dimX dimY bombs) :
    HelperOK dimX dimY out ∧
    ∀ x1 y1, helperAt out x1 y1 = if x1 = x ∧ y1 = y then 1 else helperAt bombs x1 y1 := by
  unfold helperSet at h
  cases hc : bombs[x]? with
  | none => simp [hc] at h
  | some col =>
    simp only [hc] at h
    split_ifs at h with hy
    simp only [Except.ok.injEq] at h
    subst h
    have hat := fun x1 y1 => helperAt_set bombs col x y 1 x1 y1 hc hy
    refine ⟨⟨by simp [hok.1], ?_, ?_⟩, hat⟩
    · intro c hcm
      rcases List.mem_or_eq_of_mem_set hcm with h1 | h1
      · exact hok.2.1 c h1
      · subst h1
        simp [hok.2.1 col (List.getElem?_mem hc)]
    · intro x1 y1
      rw [hat]
      split_ifs
      · exact Or.inr rfl
      · exact hok.2.2 x1 y1

theorem countP_flip (P Q : Nat → Bool) (p0 : Nat) :
    ∀ (L : List Nat), L.Nodup → p0 ∈ L → (∀ p ∈ L, p ≠ p0 → Q p = P p) → P p0 = false →
      Q p0 = true → L.countP Q = L.countP P + 1 := by
  intro L
  induction L with
  | nil => intro _ h; simp at h
  | cons a L ih =>
    intro hnd hmem hsame hP hQ
    have ha : a ∉ L := (List.nodup_cons.mp hnd).1
    by_cases hap : a = p0
    · subst hap
      have hrest : L.countP Q = L.countP P := by
        apply List.countP_congr
        intro p hp
        have hne : p ≠ a := fun h => ha (h ▸ hp)
        rw [hsame p (List.mem_cons_of_mem _ hp) hne]
      simp [List.countP_cons, hP, hQ, hrest]
    · have hmem1 : p0 ∈ L := by
        rcases List.mem_cons.mp hmem with h | h
        · exact absurd h.symm hap
        · exact h
      have := ih (List.nodup_cons.mp hnd).2 hmem1
        (fun p hp hne => hsame p (List.mem_cons_of_mem _ hp) hne) hP hQ
      simp only [List.countP_cons, this, hsame a (List.mem_cons_self _ _) hap]
      omega

theorem placed_set {dimX dimY : Nat} {bombs out : List (List Nat)} {x y : Nat}
    (hx : x < dimX) (hy : y < dimY) (h0 : helperAt bombs x y = 0)
    (hat : ∀ x1 y1, helperAt out x1 y1 = if x1 = x ∧ y1 = y then 1 else helperAt bombs x1 y1) :
    placed dimX dimY out = placed dimX dimY bombs + 1 := by
  unfold placed
  apply countP_flip (bombAt dimX bombs) (bombAt dimX out) (cellAddr dimX x y) _ (List.nodup_range _)
    (List.mem_range.mpr (cellAddr_lt hx hy))
  · intro p _ hne
    unfold bombAt
    rw [hat]
    have : ¬(p % dimX = x ∧ p / dimX = y) := by
      rintro ⟨h1, h2⟩
      apply hne
      rw [← cellAddr_mod_div dimX p, h1, h2]
    simp [this]
  · unfold bombAt
    have h1 := cellAddr_inj (Nat.mod_lt _ (by omega : 0 < dimX)) hx
      (cellAddr_mod_div dimX (cellAddr dimX x y))
    rw [h1.1, h1.2, h0]
    rfl
  · unfold bombAt
    have h1 := cellAddr_inj (Nat.mod_lt _ (by omega : 0 < dimX)) hx
      (cellAddr_mod_div dimX (cellAddr dimX x y))
    rw [h1.1, h1.2, hat]
    simp

theorem inc16_lt (n : Nat) : inc16 n < 65536 := Nat.mod_lt _ (by decide)

theorem inc16_dec16 (n : Nat) (h : n < 65536) : inc16 (dec16 n) = n := by
  unfold inc16 dec16
  split_ifs with h0
  · subst h0; rfl
  · omega

theorem inc16_of_lt (n : Nat) (h : n + 1 < 65536) : inc16 n = n + 1 := by
  unfold inc16
  omega

theorem placeBombs_step (dimX dimY nBombs b : Nat) (bombs : List (List Nat)) (r : Nat)
    (rest : List Nat) (out : List (List Nat))
    (h : placeBombs dimX dimY nBombs b bombs (r :: rest) = .ok out) (hb : b < nBombs) :
    ∃ x y v, helperGet bombs x y = .ok v ∧
      ((v ≠ 0 ∧ placeBombs dimX dimY nBombs (inc16 (dec16 b)) bombs rest = .ok out) ∨
       (v = 0 ∧ ∃ b1, helperSet bombs x y 1 = .ok b1 ∧
          placeBombs dimX dimY nBombs (inc16 b) b1 rest = .ok out)) := by
  rw [placeBombs] at h
  simp only [hb, if_true] at h
  split_ifs at h with h1 h2
  cases hg : helperGet bombs
      (((Int.tmod (r : Int) (int32 ((dimX : Int) * (dimY : Int)))).toNat % 4294967296) % dimX)
      (((Int.tmod (r : Int) (int32 ((dimX : Int) * (dimY : Int)))).toNat % 4294967296) / dimX) with
  | error e => simp [hg] at h
  | ok v =>
    refine ⟨_, _, v, hg, ?_⟩
    simp only [hg] at h
    split_ifs at h with hv
    · exact Or.inl ⟨hv, h⟩
    · refine Or.inr ⟨by simpa using hv, ?_⟩
      cases hs : helperSet bombs
          (((Int.tmod (r : Int) (int32 ((dimX : Int) * (dimY : Int)))).toNat % 4294967296) % dimX)
          (((Int.tmod (r : Int) (int32 ((dimX : Int) * (dimY : Int)))).toNat % 4294967296) / dimX)
          1 with
      | error e => simp [hs] at h
      | ok b1 =>
        simp only [hs] at h
        exact ⟨b1, rfl, h⟩

/-- A bomb count that does not fit `uint16_t` is never reached by the loop counter. -/
theorem placeBombs_never (dimX dimY nBombs : Nat) (hn : 65536 ≤ nBombs) :
    ∀ (draws : List Nat) (b : Nat) (bombs out : List (List Nat)), b < 65536 →
      placeBombs dimX dimY nBombs b bombs draws ≠ .ok out := by
  intro draws
  induction draws with
  | nil =>
    intro b bombs out hb h
    rw [placeBombs] at h
    have : b < nBombs := by omega
    simp [this] at h
  | cons r rest ih =>
    intro b bombs out hb h
    obtain ⟨x, y, v, _, hcase⟩ :=
      placeBombs_step dimX dimY nBombs b bombs r rest out h (by omega)
    rcases hcase with ⟨_, hrec⟩ | ⟨_, b1, _, hrec⟩
    · exact ih _ _ _ (inc16_lt _) hrec
    · exact ih _ _ _ (inc16_lt _) hrec

/-- When the placement loop finishes, the helper matrix holds exactly `nBombs` bombs. -/
theorem placeBombs_spec (dimX dimY nBombs : Nat) :
    ∀ (draws : List Nat) (b : Nat) (bombs out : List (List Nat)),
      placeBombs dimX dimY nBombs b bombs draws = .ok out → HelperOK dimX dimY bombs →
      placed dimX dimY bombs = b → b ≤ nBombs → b < 65536 →
      HelperOK dimX dimY out ∧ placed dimX dimY out = nBombs := by
  intro draws
  induction draws with
  | nil =>
    intro b bombs out h hok hp hle _
    rw [placeBombs] at h
    split_ifs at h with hb
    simp only [Except.ok.injEq] at h
    subst h
    exact ⟨hok, by omega⟩
  | cons r rest ih =>
    intro b bombs out h hok hp hle hlt
    by_cases hb : b < nBombs
    · obtain ⟨x, y, v, hg, hcase⟩ := placeBombs_step dimX dimY nBombs b bombs r rest out h hb
      obtain ⟨col, hc, hy, hv⟩ := helperGet_ok hg
      have hx : x < dimX := by
        rw [← hok.1]; exact (List.getElem?_eq_some_iff.mp hc).1
      have hy1 : y < dimY := by
        rw [← hok.2.1 col (List.getElem?_mem hc)]; exact hy
      rcases hcase with ⟨_, hrec⟩ | ⟨hv0, b1, hs, hrec⟩
      · rw [inc16_dec16 b hlt] at hrec
        exact ih b bombs out hrec hok hp hle hlt
      · obtain ⟨hok1, hat⟩ := helperSet_ok hs hok
        have hpl := placed_set hx hy1 (by rw [← hv]; exact hv0) hat
        by_cases hbig : b + 1 < 65536
        · rw [inc16_of_lt b hbig] at hrec
          exact ih (b + 1) b1 out hrec hok1 (by omega) (by omega) hbig
        · exact absurd h (placeBombs_never dimX dimY nBombs (by omega) _ _ _ _ hlt)
    · rw [placeBombs] at h
      simp only [hb, if_false, Except.ok.injEq] at h
      subst h
      exact ⟨hok, by omega⟩

/-! ### The grid that Matrix::reset builds -/

theorem neighbourList_symm (dimX dimY p q : Nat) (hp : p < dimX * dimY) (hq : q < dimX * dimY) :
    q ∈ neighbourList dimX dimY (p % dimX) (p / dimX) ↔
      p ∈ neighbourList dimX dimY (q % dimX) (q / dimX) := by
  have hpos : 0 < dimX := by
    rcases Nat.eq_zero_or_pos dimX with h | h
    · subst h; simp at hp
    · exact h
  have bx : ∀ r, r % dimX < dimX := fun r => Nat.mod_lt _ hpos
  have by1 : ∀ r, r < dimX * dimY → r / dimX < dimY := fun r hr =>
    Nat.div_lt_of_lt_mul hr
  rw [mem_neighbourList dimX dimY _ _ q (bx p) (by1 p hp),
    mem_neighbourList dimX dimY _ _ p (bx q) (by1 q hq)]
  constructor
  · rintro ⟨x1, y1, h1, h2, h3, h4, h5, h6, h7, h8⟩
    have := cellAddr_inj (bx q) h1 ((cellAddr_mod_div dimX q).trans h8)
    refine ⟨p % dimX, p / dimX, bx p, by1 p hp, ?_, ?_, ?_, ?_, ?_, (cellAddr_mod_div dimX p).symm⟩
      <;> omega
  · rintro ⟨x1, y1, h1, h2, h3, h4, h5, h6, h7, h8⟩
    have := cellAddr_inj (bx p) h1 ((cellAddr_mod_div dimX p).trans h8)
    refine ⟨q % dimX, q / dimX, bx q, by1 q hq, ?_, ?_, ?_, ?_, ?_, (cellAddr_mod_div dimX q).symm⟩
      <;> omega

theorem neighbourList_lt (dimX dimY p q : Nat) (hp : p < dimX * dimY)
    (hq : q ∈ neighbourList dimX dimY (p % dimX) (p / dimX)) : q < dimX * dimY := by
  have hpos : 0 < dimX := by
    rcases Nat.eq_zero_or_pos dimX with h | h
    · subst h; simp at hp
    · exact h
  rw [mem_neighbourList dimX dimY _ _ q (Nat.mod_lt _ hpos) (Nat.div_lt_of_lt_mul hp)] at hq
  obtain ⟨x1, y1, h1, h2, -, -, -, -, -, rfl⟩ := hq
  exact cellAddr_lt h1 h2

theorem sum_indicator (P : Nat → Bool) (L : List Nat) :
    (L.map (fun p => if P p = true then 1 else 0)).sum = L.countP P := by
  induction L with
  | nil => rfl
  | cons a L ih =>
    simp only [List.map_cons, List.sum_cons, List.countP_cons, ih]
    omega

theorem countP_within (P : Nat → Bool) (M : List Nat) (n : Nat) (hM : M.Nodup)
    (hlt : ∀ q ∈ M, q < n) :
    (List.range n).countP (fun p => P p && decide (p ∈ M)) = M.countP P := by
  rw [List.countP_eq_length_filter, List.countP_eq_length_filter]
  apply List.Perm.length_eq
  apply (List.perm_ext_iff_of_nodup ((List.nodup_range n).filter _) (hM.filter _)).mpr
  intro a
  simp only [List.mem_filter, List.mem_range, Bool.and_eq_true, decide_eq_true_eq]
  constructor
  · rintro ⟨_, h1, h2⟩
    exact ⟨h2, h1⟩
  · rintro ⟨h1, h2⟩
    exact ⟨hlt a h1, h2, h1⟩

/-- The heap after the loops "Create" and "Set links". -/
theorem linked_get (dimX dimY : Nat) (bombs : List (List Nat)) (j : Nat) :
    (setLinks dimX dimY (createFields dimX dimY bombs))[j]? =
      if j < dimX * dimY then
        some { newField (bombAt dimX bombs j) (j % dimX) (j / dimX) with
          neighbours := neighbourList dimX dimY (j % dimX) (j / dimX) }
      else none := by
  rw [setLinks_get, createFields_eq]
  split_ifs with hj
  · simp [List.getElem?_range hj, newField, bombAt]
  · simp only [List.getElem?_map]
    rw [List.getElem?_eq_none (by simpa using Nat.le_of_not_lt hj)]
    rfl

theorem hits_grid (dimX dimY : Nat) (bombs : List (List Nat)) (j : Nat) (hj : j < dimX * dimY) :
    hits (setLinks dimX dimY (createFields dimX dimY bombs)) (List.range (dimX * dimY)) j
      = (neighbourList dimX dimY (j % dimX) (j / dimX)).countP (bombAt dimX bombs) := by
  have hpos : 0 < dimX := by
    rcases Nat.eq_zero_or_pos dimX with h | h
    · subst h; simp at hj
    · exact h
  rw [← countP_within (bombAt dimX bombs) _ (dimX * dimY)
    (neighbourList_nodup dimX dimY _ _ (Nat.mod_lt _ hpos))
    (fun q hq => neighbourList_lt dimX dimY j q hj hq), ← sum_indicator]
  unfold hits
  congr 1
  apply List.map_congr_left
  intro p hp
  have hp1 : p < dimX * dimY := List.mem_range.mp hp
  unfold hit
  rw [linked_get, if_pos hp1]
  simp only [newField]
  have hnd := neighbourList_nodup dimX dimY (p % dimX) (p / dimX) (Nat.mod_lt _ hpos)
  have hsym := neighbourList_symm dimX dimY p j hp1 hj
  by_cases hb : bombAt dimX bombs p = true
  · by_cases hm : p ∈ neighbourList dimX dimY (j % dimX) (j / dimX)
    · simp [hb, hm, List.count_eq_one_of_mem hnd (hsym.mpr hm)]
    · have : j ∉ neighbourList dimX dimY (p % dimX) (p / dimX) := fun h => hm (hsym.mp h)
      simp [hb, hm, List.count_eq_zero_of_not_mem this]
  · simp [hb]

/-- The heap after the three loops of `Matrix::reset` is `gridFields`. -/
theorem built_fields (dimX dimY : Nat) (bombs : List (List Nat)) :
    informAll dimX dimY (setLinks dimX dimY (createFields dimX dimY bombs))
      = gridFields dimX dimY bombs := by
  apply List.ext_getElem?
  intro j
  rw [informAll_get, linked_get]
  unfold gridFields
  rw [List.getElem?_map]
  by_cases hj : j < dimX * dimY
  · rw [if_pos hj, List.getElem?_range hj, hits_grid dimX dimY bombs j hj]
    simp only [Option.map_some', Option.some.injEq]
    have hlen := neighbourList_length dimX dimY (j % dimX) (j / dimX)
    have hle := List.countP_le_length (bombAt dimX bombs)
      (l := neighbourList dimX dimY (j % dimX) (j / dimX))
    unfold bumpN gridField
    split_ifs with h0
    · simp [newField, h0]
    · simp only [newField, Nat.zero_add]
      congr 1
      omega
  · rw [if_neg hj, List.getElem?_eq_none (by simpa using Nat.le_of_not_lt hj)]
    rfl

theorem notifyFieldDelete_frame (i : Nat) (w : World) (o : FieldObserver) :
    (notifyFieldDelete i w o).fields = w.fields ∧ (notifyFieldDelete i w o).observers = w.observers ∧
    (notifyFieldDelete i w o).dim = w.dim := by
  cases o <;> exact ⟨rfl, rfl, rfl⟩

theorem deleteField_frame {w w1 : World} {i : Nat} (h : deleteField w i = .ok w1) :
    w1.fields = w.fields ∧ w1.observers = w.observers ∧ w1.dim = w.dim := by
  unfold deleteField at h
  cases hf : w.fields[i]? with
  | none => simp [hf] at h
  | some f =>
    simp only [hf, Except.ok.injEq] at h
    subst h
    generalize f.observers = obs
    induction obs generalizing w with
    | nil => exact ⟨rfl, rfl, rfl⟩
    | cons o os ih =>
      rw [List.foldl_cons]
      have h1 := notifyFieldDelete_frame i w o
      have h2 := ih (w := notifyFieldDelete i w o) (by rw [h1.1]; exact hf)
      exact ⟨h2.1.trans h1.1, h2.2.1.trans h1.2.1, h2.2.2.trans h1.2.2⟩

theorem foldlM_except_inv {α : Type} (f : World → α → Except Fault World)
    (I : World → World → Prop) (hrefl : ∀ w, I w w)
    (htrans : ∀ a b c, I a b → I b c → I a c)
    (hstep : ∀ w a w1, f w a = .ok w1 → I w w1) :
    ∀ (L : List α) (w w1 : World), L.foldlM f w = .ok w1 → I w w1 := by
  intro L
  induction L with
  | nil =>
    intro w w1 h
    simp only [List.foldlM_nil, pure, Except.pure, Except.ok.injEq] at h
    subst h
    exact hrefl w
  | cons a L ih =>
    intro w w1 h
    rw [List.foldlM_cons] at h
    cases hfa : f w a with
    | error e => simp [hfa, bind, Except.bind] at h
    | ok w2 =>
      simp only [hfa, bind, Except.bind] at h
      exact htrans _ _ _ (hstep w a w2 hfa) (ih w2 w1 h)

theorem deleteMatrix_ok {w w1 : World} (h : deleteMatrix w = .ok w1) :
    w1.fields = [] ∧ w1.observers = w.observers := by
  unfold deleteMatrix at h
  cases hf : (loopYX w.dim.x w.dim.y).foldlM
      (fun w p => deleteField w (cellAddr w.dim.x p.1 p.2)) w with
  | error e => simp [hf] at h
  | ok w2 =>
    simp only [hf, Except.ok.injEq] at h
    subst h
    have := foldlM_except_inv
      (fun (w : World) (p : Nat × Nat) => deleteField w (cellAddr w.dim.x p.1 p.2))
      (fun a b => b.observers = a.observers) (fun _ => rfl) (fun a b c h1 h2 => h2.trans h1)
      (fun w a w1 h => (deleteField_frame h).2.1) _ w w2 hf
    exact ⟨rfl, this⟩

theorem helperAt_zeros (dimX dimY x y : Nat) :
    helperAt (List.replicate dimX (List.replicate dimY 0)) x y = 0 := by
  unfold helperAt
  simp only [List.getD_eq_getElem?_getD, List.getElem?_replicate]
  split_ifs with h1
  · simp only [Option.getD_some, List.getElem?_replicate]
    split_ifs <;> rfl
  · rfl

theorem zeros_ok (dimX dimY : Nat) :
    HelperOK dimX dimY (List.replicate dimX (List.replicate dimY 0)) ∧
    placed dimX dimY (List.replicate dimX (List.replicate dimY 0)) = 0 := by
  refine ⟨⟨by simp, ?_, fun x y => Or.inl (helperAt_zeros dimX dimY x y)⟩, ?_⟩
  · intro col hcol
    rw [(List.mem_replicate.mp hcol).2]
    simp
  · unfold placed
    rw [List.countP_eq_zero]
    intro p _
    simp [bombAt, helperAt_zeros]

/-- What `Matrix::reset` leaves when it returns: the dimensions given, the status
`GS_READY`, zero counters, the observers it had, and the heap `gridFields` for a
helper matrix that holds exactly `dimensions.bombs` bombs. -/
theorem reset_ok {w0 g : World} {d : Dimensions} {draws : List Nat}
    (h : reset w0 d draws = .ok g) :
    ∃ bombs, HelperOK d.x d.y bombs ∧ placed d.x d.y bombs = d.bombs ∧
      g.fields = gridFields d.x d.y bombs ∧ g.dim = d ∧ g.status = .GS_READY ∧
      g.unhidden = 0 ∧ g.marked = 0 ∧ g.queried = 0 ∧ g.observers = w0.observers := by
  unfold reset at h
  cases hd : deleteMatrix w0 with
  | error e => simp [hd] at h
  | ok w1 =>
    simp only [hd] at h
    cases hp : placeBombs d.x d.y d.bombs 0 (List.replicate d.x (List.replicate d.y 0)) draws with
    | error e => simp [hp] at h
    | ok bombs =>
      simp only [hp, Except.ok.injEq] at h
      subst h
      obtain ⟨hok, hpl⟩ := placeBombs_spec d.x d.y d.bombs draws 0 _ bombs hp
        (zeros_ok d.x d.y).1 (zeros_ok d.x d.y).2 (Nat.zero_le _) (by decide)
      refine ⟨bombs, hok, hpl, ?_, rfl, rfl, rfl, rfl, rfl, ?_⟩
      · simp only [SIGNAL_GAMESTATUSCHANGED]
        exact built_fields d.x d.y bombs
      · simp only [SIGNAL_GAMESTATUSCHANGED]
        exact (deleteMatrix_ok hd).2

theorem gridFields_get (dimX dimY : Nat) (bombs : List (List Nat)) (p : Nat) :
    (gridFields dimX dimY bombs)[p]? =
      if p < dimX * dimY then some (gridField dimX dimY bombs p) else none := by
  unfold gridFields
  rw [List.getElem?_map]
  split_ifs with hp
  · rw [List.getElem?_range hp]; rfl
  · rw [List.getElem?_eq_none (by simpa using Nat.le_of_not_lt hp)]; rfl

theorem gridFields_get_some {dimX dimY : Nat} {bombs : List (List Nat)} {p : Nat} {f : Field}
    (h : (gridFields dimX dimY bombs)[p]? = some f) :
    p < dimX * dimY ∧ f = gridField dimX dimY bombs p := by
  rw [gridFields_get] at h
  split_ifs at h with hp
  simp only [Option.some.injEq] at h
  exact ⟨hp, h.symm⟩

theorem cellAddr_coords {dimX x y : Nat} (hx : x < dimX) :
    cellAddr dimX x y % dimX = x ∧ cellAddr dimX x y / dimX = y :=
  cellAddr_inj (Nat.mod_lt _ (by omega)) hx (cellAddr_mod_div dimX (cellAddr dimX x y))

/-- C10: after `reset` the cell at (x, y) has the position (x, y) and a neighbour list
without duplicates that holds exactly the cells at (x+dx, y+dy) with dx, dy in
{-1, 0, 1}, not both 0, inside the grid; it never holds the cell itself; and a cell
lists another one exactly when that one lists it. -/
theorem C10_neighbour_links (w0 g : World) (d : Dimensions) (draws : List Nat)
    (h : reset w0 d draws = .ok g) :
    (∀ x y, x < d.x → y < d.y →
      ∃ f, g.fields[cellAddr d.x x y]? = some f ∧ f.pos = ⟨x, y⟩ ∧ f.neighbours.Nodup ∧
        cellAddr d.x x y ∉ f.neighbours ∧
        ∀ q, q ∈ f.neighbours ↔
          ∃ dx dy : Int, (dx = -1 ∨ dx = 0 ∨ dx = 1) ∧ (dy = -1 ∨ dy = 0 ∨ dy = 1) ∧
            (dx ≠ 0 ∨ dy ≠ 0) ∧ 0 ≤ (x : Int) + dx ∧ (x : Int) + dx < d.x ∧
            0 ≤ (y : Int) + dy ∧ (y : Int) + dy < d.y ∧
            q = cellAddr d.x ((x : Int) + dx).toNat ((y : Int) + dy).toNat) ∧
    (∀ (a b : Nat) (fa fb : Field), g.fields[a]? = some fa → g.fields[b]? = some fb →
      (b ∈ fa.neighbours ↔ a ∈ fb.neighbours)) := by
  obtain ⟨bombs, -, -, hfields, -⟩ := reset_ok h
  rw [hfields]
  constructor
  · intro x y hx hy
    have hp := cellAddr_lt hx hy
    obtain ⟨cx, cy⟩ := cellAddr_coords (y := y) hx
    refine ⟨gridField d.x d.y bombs (cellAddr d.x x y), ?_, ?_, ?_, ?_, ?_⟩
    · rw [gridFields_get, if_pos hp]
    · simp only [gridField, cx, cy]
    · simp only [gridField, cx, cy]
      exact neighbourList_nodup d.x d.y x y hx
    · simp only [gridField, cx, cy]
      rw [mem_neighbourList d.x d.y x y _ hx hy]
      rintro ⟨x1, y1, h1, -, -, -, -, -, h7, h8⟩
      have := cellAddr_inj hx h1 h8
      omega
    · intro q
      simp only [gridField, cx, cy]
      rw [mem_neighbourList d.x d.y x y q hx hy]
      constructor
      · rintro ⟨x1, y1, h1, h2, h3, h4, h5, h6, h7, rfl⟩
        refine ⟨(x1 : Int) - x, (y1 : Int) - y, by omega, by omega, by omega, by omega, by omega,
          by omega, by omega, ?_⟩
        have e1 : ((x : Int) + ((x1 : Int) - x)).toNat = x1 := by omega
        have e2 : ((y : Int) + ((y1 : Int) - y)).toNat = y1 := by omega
        rw [e1, e2]
      · rintro ⟨dx, dy, h1, h2, h3, h4, h5, h6, h7, rfl⟩
        exact ⟨((x : Int) + dx).toNat, ((y : Int) + dy).toNat, by omega, by omega, by omega,
          by omega, by omega, by omega, by omega, rfl⟩
  · intro a b fa fb ha hb
    obtain ⟨ha1, rfl⟩ := gridFields_get_some ha
    obtain ⟨hb1, rfl⟩ := gridFields_get_some hb
    simp only [gridField]
    exact neighbourList_symm d.x d.y a b ha1 hb1

/-- C10, on the 2x2 grid: the corner (0,0) lists its three grid neighbours. -/
theorem C10_neighbour_links_witness :
    reset World.init (Dimensions.new 2 2 1) [3] = .ok grid2x2 ∧
    ∃ f, grid2x2.fields[cellAddr 2 0 0]? = some f ∧ f.pos = ⟨0, 0⟩ ∧ f.neighbours.Nodup ∧
      cellAddr 2 0 0 ∉ f.neighbours ∧
      ∀ q, q ∈ f.neighbours ↔
        ∃ dx dy : Int, (dx = -1 ∨ dx = 0 ∨ dx = 1) ∧ (dy = -1 ∨ dy = 0 ∨ dy = 1) ∧
          (dx ≠ 0 ∨ dy ≠ 0) ∧ 0 ≤ ((0 : Nat) : Int) + dx ∧ ((0 : Nat) : Int) + dx < (2 : Nat) ∧
          0 ≤ ((0 : Nat) : Int) + dy ∧ ((0 : Nat) : Int) + dy < (2 : Nat) ∧
          q = cellAddr 2 (((0 : Nat) : Int) + dx).toNat (((0 : Nat) : Int) + dy).toNat :=
  ⟨rfl, (C10_neighbour_links World.init grid2x2 (Dimensions.new 2 2 1) [3] rfl).1 0 0
    (by decide) (by decide)⟩

/-! ### The game status after an event -/

theorem int32_win (x y b u : Nat) (hP : x * y ≤ 4294836225) (hb : b < 65536)
    (hu : u < 65536) :
    (u : Int) = int32 (int32 ((x : Int) * (y : Int)) - (b : Int)) ↔
      (u : Int) = (x : Int) * (y : Int) - (b : Int) := by
  have h0 : (0 : Int) ≤ (x : Int) * (y : Int) := by positivity
  have h1 : (x : Int) * (y : Int) ≤ 4294836225 := by exact_mod_cast hP
  generalize (x : Int) * (y : Int) = P at h0 h1
  unfold int32
  omega

theorem onFieldStatusChanged_state (w : World) (i : Nat) (s : FIELDSTATUS) :
    (onFieldStatusChanged w i s).status = (deriveStatus (logFieldStatus w s)).status ∧
    (onFieldStatusChanged w i s).unhidden = (logFieldStatus w s).unhidden ∧
    (onFieldStatusChanged w i s).marked = (logFieldStatus w s).marked ∧
    (onFieldStatusChanged w i s).queried = (logFieldStatus w s).queried := by
  have h2 := deriveStatus_frame (logFieldStatus w s)
  unfold onFieldStatusChanged
  simp only [SIGNAL_MATRIX_FIELDSTATUSCHANGED, SIGNAL_REMAININGBOMBSCHANGED, SIGNAL_GAMESTATUSCHANGED]
  split_ifs <;> exact ⟨rfl, h2.2.2.2.2.1, h2.2.2.2.2.2.1, h2.2.2.2.2.2.2⟩

theorem logFieldStatus_status (w : World) (s : FIELDSTATUS) :
    (logFieldStatus w s).status = if s = .FS_BOMB then .GS_LOST else w.status := by
  cases s <;> rfl

theorem logFieldStatus_bounds (w : World) (s : FIELDSTATUS) (hu : w.unhidden < 65536) :
    (logFieldStatus w s).unhidden < 65536 := by
  cases s <;> first | exact hu | exact inc16_lt _

theorem deriveStatus_status (w : World) (hP : w.dim.x * w.dim.y ≤ 4294836225)
    (hb : w.dim.bombs < 65536) (hu : w.unhidden < 65536) :
    (w.status = .GS_LOST → (deriveStatus w).status = .GS_LOST) ∧
    (w.status ≠ .GS_LOST →
      ((deriveStatus w).status = .GS_WON ↔ winTest w) ∧
      ((deriveStatus w).status = .GS_RUNNING ↔ ¬winTest w)) := by
  unfold deriveStatus winTest
  simp only [int32_win _ _ _ _ hP hb hu]
  constructor
  · intro h
    simp [h]
  · intro h
    simp only [ne_eq, h, not_false_eq_true, if_true]
    split_ifs with hw <;> simp [hw]

/-- C3: the game status after `Matrix::Impl::onFieldStatusChanged` is `GS_LOST` when it
was `GS_LOST` before or the new field status is `FS_BOMB`; otherwise it is `GS_WON`
when, with the counters as the handler leaves them, unhidden = x * y - bombs and
marked = bombs, and `GS_RUNNING` when not.  It is never `GS_READY`. -/
theorem C3_status_after_event (w : World) (field : Nat) (s : FIELDSTATUS)
    (hx : w.dim.x < 65536) (hy : w.dim.y < 65536) (hb : w.dim.bombs < 65536)
    (hu : w.unhidden < 65536) :
    (w.status = .GS_LOST ∨ s = .FS_BOMB →
      getStatus (onFieldStatusChanged w field s) = .GS_LOST) ∧
    (¬(w.status = .GS_LOST ∨ s = .FS_BOMB) →
      (getStatus (onFieldStatusChanged w field s) = .GS_WON ↔
        winTest (onFieldStatusChanged w field s)) ∧
      (getStatus (onFieldStatusChanged w field s) = .GS_RUNNING ↔
        ¬winTest (onFieldStatusChanged w field s))) ∧
    getStatus (onFieldStatusChanged w field s) ≠ .GS_READY := by
  have hst := onFieldStatusChanged_state w field s
  have hfr := logFieldStatus_frame w s
  have hP : w.dim.x * w.dim.y ≤ 4294836225 :=
    Nat.mul_le_mul (Nat.le_of_lt_succ hx) (Nat.le_of_lt_succ hy)
  have hd := deriveStatus_status (logFieldStatus w s) (by rw [hfr.2.2.1]; exact hP)
    (by rw [hfr.2.2.1]; exact hb) (logFieldStatus_bounds w s hu)
  have hwin : winTest (onFieldStatusChanged w field s) ↔ winTest (logFieldStatus w s) := by
    unfold winTest
    rw [hst.2.1, hst.2.2.1, onFieldStatusChanged_dim, hfr.2.2.1]
  have hls := logFieldStatus_status w s
  unfold getStatus
  rw [hst.1, hwin]
  refine ⟨?_, ?_, ?_⟩
  · intro h
    apply hd.1
    rw [hls]
    rcases h with h | h
    · split_ifs <;> simp [h]
    · simp [h]
  · intro h
    apply hd.2
    rw [hls]
    simp only [not_or] at h
    simp [h.1, h.2]
  · by_cases hl : (logFieldStatus w s).status = .GS_LOST
    · rw [hd.1 hl]
      decide
    · intro hr
      have h1 := (hd.2 hl).1
      have h2 := (hd.2 hl).2
      by_cases hw : winTest (logFieldStatus w s)
      · rw [h1.mpr hw] at hr
        cases hr
      · rw [h2.mpr hw] at hr
        cases hr

/-- C3, on the 2x2 grid with one bomb: the first event, a mark, gives `GS_RUNNING`. -/
theorem C3_status_after_event_witness :
    (grid2x2.dim.x < 65536 ∧ grid2x2.dim.y < 65536 ∧ grid2x2.dim.bombs < 65536 ∧
      grid2x2.unhidden < 65536) ∧
    getStatus (onFieldStatusChanged grid2x2 0 .FS_MARKED) = .GS_RUNNING :=
  ⟨by decide,
    ((C3_status_after_event grid2x2 0 .FS_MARKED (by decide) (by decide) (by decide)
      (by decide)).2.1 (by decide)).2.mpr (by unfold winTest; decide)⟩

/-! ### Invariants of a grid along its runs -/

theorem fire_impl (w : World) (i : Nat) (f : Field) (s : FIELDSTATUS)
    (ho : f.observers = [FieldObserver.impl]) :
    fire w i f s = onFieldStatusChanged
      { setStatus w i f s with
        log := (setStatus w i f s).log ++ [Notification.fieldStatusChanged .impl i s] } i s := by
  simp only [fire, ho, SIGNAL_FIELDSTATUSCHANGED, List.foldl_cons, List.foldl_nil,
    notifyFieldStatusChanged]

theorem logFieldStatus_with (w : World) (s : FIELDSTATUS) (l : List Field)
    (lg : List Notification) :
    logFieldStatus { w with fields := l, log := lg } s
      = { logFieldStatus w s with fields := l, log := lg } := by
  cases s <;> simp only [logFieldStatus]

theorem deriveStatus_with (w : World) (s : FIELDSTATUS) (l : List Field)
    (lg : List Notification) :
    deriveStatus (logFieldStatus { w with fields := l, log := lg } s)
      = { deriveStatus (logFieldStatus w s) with fields := l, log := lg } := by
  cases s <;> simp only [logFieldStatus, deriveStatus] <;> split_ifs <;> rfl

theorem fire_impl_state (w : World) (i : Nat) (f : Field) (s : FIELDSTATUS)
    (ho : f.observers = [FieldObserver.impl]) :
    (fire w i f s).status = (deriveStatus (logFieldStatus w s)).status ∧
    (fire w i f s).unhidden = (logFieldStatus w s).unhidden ∧
    (fire w i f s).marked = (logFieldStatus w s).marked ∧
    (fire w i f s).queried = (logFieldStatus w s).queried := by
  rw [fire_impl w i f s ho]
  have h := onFieldStatusChanged_state
    { setStatus w i f s with
      log := (setStatus w i f s).log ++ [Notification.fieldStatusChanged .impl i s] } i s
  rw [h.1, h.2.1, h.2.2.1, h.2.2.2]
  simp only [setStatus]
  rw [deriveStatus_with w s (w.fields.set i { f with status := s })
      (w.log ++ [Notification.fieldStatusChanged .impl i s]),
    logFieldStatus_with w s (w.fields.set i { f with status := s })
      (w.log ++ [Notification.fieldStatusChanged .impl i s])]
  exact ⟨rfl, rfl, rfl, rfl⟩

theorem countP_set_status (l : List Field) (i : Nat) (f : Field) (s t : FIELDSTATUS)
    (hf : l[i]? = some f) :
    (l.set i { f with status := s }).countP (fun f => decide (f.status = t))
      + (if f.status = t then 1 else 0)
      = l.countP (fun f => decide (f.status = t)) + (if s = t then 1 else 0) := by
  obtain ⟨hi, rfl⟩ := List.getElem?_eq_some_iff.mp hf
  rw [List.countP_set _ _ _ _ hi]
  have hpos := List.boole_getElem_le_countP (fun f => decide (f.status = t)) l i hi
  simp only [decide_eq_true_eq] at hpos ⊢
  split_ifs at hpos ⊢ <;> omega

theorem mem_set_status {l : List Field} {i : Nat} {f g : Field} {s : FIELDSTATUS}
    (hg : g ∈ l.set i { f with status := s }) : g ∈ l ∨ g = { f with status := s } :=
  List.mem_or_eq_of_mem_set hg

theorem exists_bomb_set (l : List Field) (i : Nat) (f : Field) (s : FIELDSTATUS)
    (hf : l[i]? = some f) (hnb : f.status ≠ .FS_BOMB) :
    (∃ g ∈ l.set i { f with status := s }, g.status = .FS_BOMB) ↔
      (s = .FS_BOMB ∨ ∃ g ∈ l, g.status = .FS_BOMB) := by
  have hi := (List.getElem?_eq_some_iff.mp hf).1
  constructor
  · rintro ⟨g, hg, hs⟩
    rcases mem_set_status hg with h | h
    · exact Or.inr ⟨g, h, hs⟩
    · subst h
      exact Or.inl hs
  · rintro (h | ⟨g, hg, hs⟩)
    · exact ⟨{ f with status := s }, List.getElem?_mem (List.getElem?_set_self hi), h⟩
    · obtain ⟨j, hj⟩ := List.getElem?_of_mem hg
      have hji : i ≠ j := by
        rintro rfl
        rw [hf] at hj
        cases hj
        exact hnb hs
      exact ⟨g, List.getElem?_mem (by rw [List.getElem?_set_ne hji]; exact hj), hs⟩

theorem allows_status_ne {f : Field} {s : FIELDSTATUS} (h : f.allows s = true) : f.status ≠ s := by
  intro he
  cases s <;> simp [Field.allows, he] at h

theorem allows_not_unhidden {f : Field} {s : FIELDSTATUS} (h : f.allows s = true) :
    f.status ≠ .FS_UNHIDDEN := by
  intro he
  cases s <;> simp [Field.allows, he] at h

theorem allows_marked_iff {f : Field} {s : FIELDSTATUS} (h : f.allows s = true) :
    f.status = .FS_MARKED ↔ s = .FS_QUERIED := by
  cases s <;> simp [Field.allows] at h ⊢
  · intro he; simp [he] at h
  · exact h.1.2
  · intro he; simp [he] at h
  · exact h
  · exact h.1.1.2

theorem inc16_count (m c : Nat) (hm : m = c) (hc : c + 1 ≤ 65535) : inc16 m = c + 1 := by
  subst hm
  unfold inc16
  omega

theorem dec16_count (m c : Nat) (hm : m = c + 1) : dec16 m = c := by
  subst hm
  unfold dec16
  simp

/-- One status change of a grid keeps the invariant and leaves the game status
derived from the counters. -/
theorem fire_inv (w : World) (i : Nat) (f : Field) (s : FIELDSTATUS) (hinv : GridInv w)
    (hP : w.dim.x * w.dim.y ≤ 4294836225) (hb : w.dim.bombs < 65536)
    (hf : w.fields[i]? = some f) (ha : f.allows s = true) :
    GridInv (fire w i f s) ∧ Settled (fire w i f s) := by
  have hmem : f ∈ w.fields := List.getElem?_mem hf
  have ho := hinv.obs f hmem
  have hst := fire_impl_state w i f s ho
  have hfl := fire_fields w i f s
  have hi := (List.getElem?_eq_some_iff.mp hf).1
  have hlen : (fire w i f s).fields.length = w.fields.length := by rw [hfl, List.length_set]
  have hcM := countP_set_status w.fields i f s .FS_MARKED hf
  have hcU := countP_set_status w.fields i f s .FS_UNHIDDEN hf
  have hleM := List.countP_le_length (fun f => decide (f.status = .FS_MARKED))
    (l := w.fields.set i { f with status := s })
  have hleU := List.countP_le_length (fun f => decide (f.status = .FS_UNHIDDEN))
    (l := w.fields.set i { f with status := s })
  rw [List.length_set] at hleM hleU
  have hlen1 := hinv.len
  have hnu := allows_not_unhidden ha
  have hmk := allows_marked_iff ha
  have hne := allows_status_ne ha
  have hnb : f.status ≠ .FS_BOMB := by
    intro he
    have hbomb := (hinv.kinds f hmem).2 he
    cases s <;> simp [Field.allows, he, hbomb] at ha
  have hmarked : (fire w i f s).marked
      = (fire w i f s).fields.countP (fun f => decide (f.status = .FS_MARKED)) := by
    rw [hst.2.2.1, hfl]
    have hm := hinv.marked
    cases s
    · have : f.status ≠ .FS_MARKED := fun h => by simpa using hmk.mp h
      simp only [this, if_false] at hcM
      simp only [logFieldStatus]
      simp at hcM
      omega
    · have : f.status ≠ .FS_MARKED := fun h => by simpa using hmk.mp h
      simp only [this, if_false] at hcM
      simp only [logFieldStatus]
      simp at hcM
      omega
    · have : f.status ≠ .FS_MARKED := fun h => by simpa using hmk.mp h
      simp only [this, if_false, if_true] at hcM
      simp only [logFieldStatus]
      exact inc16_count _ _ hm (by omega) |>.trans (by omega)
    · have : f.status = .FS_MARKED := hmk.mpr rfl
      simp only [this, if_true] at hcM
      simp only [logFieldStatus]
      simp at hcM
      exact dec16_count _ _ (by omega)
    · have : f.status ≠ .FS_MARKED := fun h => by simpa using hmk.mp h
      simp only [this, if_false] at hcM
      simp only [logFieldStatus]
      simp at hcM
      omega
  have hunhidden : (fire w i f s).unhidden
      = (fire w i f s).fields.countP (fun f => decide (f.status = .FS_UNHIDDEN)) := by
    rw [hst.2.1, hfl]
    have hu := hinv.unhidden
    simp only [hnu, if_false] at hcU
    cases s
    · simp only [logFieldStatus]
      simp at hcU
      omega
    · simp only [logFieldStatus]
      simp only [if_true] at hcU
      exact inc16_count _ _ hu (by omega) |>.trans (by omega)
    · simp only [logFieldStatus]
      simp at hcU
      omega
    · simp only [logFieldStatus]
      simp at hcU
      omega
    · simp only [logFieldStatus]
      simp at hcU
      omega
  have hu16 : (logFieldStatus w s).unhidden < 65536 := by
    rw [← hst.2.1, hunhidden, hfl]
    omega
  have hfr := logFieldStatus_frame w s
  have hd := deriveStatus_status (logFieldStatus w s) (by rw [hfr.2.2.1]; exact hP)
    (by rw [hfr.2.2.1]; exact hb) hu16
  have hls := logFieldStatus_status w s
  have hwin : winTest (fire w i f s) ↔ winTest (logFieldStatus w s) := by
    unfold winTest
    rw [hst.2.1, hst.2.2.1, fire_dim, hfr.2.2.1]
  have hlost : (fire w i f s).status = .GS_LOST ↔ (s = .FS_BOMB ∨ w.status = .GS_LOST) := by
    rw [hst.1]
    by_cases hl : (logFieldStatus w s).status = .GS_LOST
    · rw [hd.1 hl]
      rw [hls] at hl
      simp only [true_iff]
      split_ifs at hl with h1
      · exact Or.inl h1
      · exact Or.inr hl
    · have h1 := (hd.2 hl).1
      have h2 := (hd.2 hl).2
      rw [hls] at hl
      constructor
      · intro h
        by_cases hw : winTest (logFieldStatus w s)
        · rw [h1.mpr hw] at h; cases h
        · rw [h2.mpr hw] at h; cases h
      · rintro (h | h)
        · simp [h] at hl
        · split_ifs at hl with h3
          · simp at hl
          · exact absurd h hl
  refine ⟨⟨by omega, ?_, hmarked, hunhidden, ?_, ?_⟩, ?_⟩
  · intro g hg
    rw [hfl] at hg
    rcases mem_set_status hg with h | h
    · exact hinv.obs g h
    · subst h
      exact ho
  · intro g hg
    rw [hfl] at hg
    rcases mem_set_status hg with h | h
    · exact hinv.kinds g h
    · subst h
      simp only
      constructor
      · intro hs
        subst hs
        simp only [Field.allows, Bool.and_eq_true, Bool.not_eq_true'] at ha
        exact ha.1.1
      · intro hs
        subst hs
        simp only [Field.allows, Bool.and_eq_true] at ha
        exact ha.1.1.1
  · rw [hlost, hfl, exists_bomb_set w.fields i f s hf hnb, hinv.lost]
  · unfold Settled
    by_cases hl : (logFieldStatus w s).status = .GS_LOST
    · left
      rw [hst.1]
      exact hd.1 hl
    · right
      rw [hst.1, hwin]
      by_cases hw : winTest (logFieldStatus w s)
      · exact Or.inl ⟨(hd.2 hl).1.mpr hw, hw⟩
      · exact Or.inr ⟨(hd.2 hl).2.mpr hw, hw⟩

theorem run_nil_inv {w w2 : World} (h : Run w [] w2) : w2 = w := by
  cases h
  rfl

theorem Run.inv {w w2 : World} {evs : List (Nat × FIELDSTATUS)} (h : Run w evs w2)
    (hinv : GridInv w) (hP : w.dim.x * w.dim.y ≤ 4294836225) (hb : w.dim.bombs < 65536) :
    GridInv w2 ∧ (evs ≠ [] → Settled w2) := by
  induction h with
  | nil w => exact ⟨hinv, fun h => absurd rfl h⟩
  | @cons w w2 i f s evs hf ha hr ih =>
    obtain ⟨h1, h2⟩ := fire_inv w i f s hinv hP hb hf ha
    have hd := fire_dim w i f s
    obtain ⟨h3, h4⟩ := ih h1 (by rw [hd]; exact hP) (by rw [hd]; exact hb)
    refine ⟨h3, fun _ => ?_⟩
    by_cases he : evs = []
    · subst he
      rw [run_nil_inv hr]
      exact h2
    · exact h4 he

theorem cycleMark_run {w w1 : World} {i : Nat} (h : cycleMark w i = some w1) :
    ∃ evs, Run w evs w1 := by
  cases hf : w.fields[i]? with
  | none => simp [cycleMark, hf] at h
  | some f =>
    rcases hs : f.status with _ | _ | _ | _ | _
    · rw [cycleMark_change w i f .FS_MARKED hf (Or.inl ⟨hs, rfl⟩)] at h
      cases h
      exact ⟨_, Run.single hf (by simp [Field.allows, hs])⟩
    · rw [cycleMark_same w i f hf (Or.inl hs)] at h
      cases h
      exact ⟨_, Run.nil w⟩
    · rw [cycleMark_change w i f .FS_QUERIED hf (Or.inr (Or.inl ⟨hs, rfl⟩))] at h
      cases h
      exact ⟨_, Run.single hf (by simp [Field.allows, hs])⟩
    · rw [cycleMark_change w i f .FS_HIDDEN hf (Or.inr (Or.inr ⟨hs, rfl⟩))] at h
      cases h
      exact ⟨_, Run.single hf (by simp [Field.allows, hs])⟩
    · rw [cycleMark_same w i f hf (Or.inr hs)] at h
      cases h
      exact ⟨_, Run.nil w⟩

theorem reveal_run {w w1 : World} {i r : Nat} (h : reveal w i = some (w1, r)) :
    ∃ evs, Run w evs w1 ∧ RevealKind evs := by
  unfold reveal at h
  cases ha : revealAux (w.fields.length + 1) w i with
  | none => simp [ha] at h
  | some w2 =>
    simp only [ha] at h
    cases hf : w2.fields[i]? with
    | none => simp [hf] at h
    | some f =>
      simp only [hf, Option.some.injEq, Prod.mk.injEq] at h
      obtain ⟨rfl, -⟩ := h
      obtain ⟨evs, r1, k, -⟩ := revealAux_run _ w i w2 ha
      exact ⟨evs, r1, k⟩

/-- Every reachable state is reached by a run of status changes, and by a
non-empty one when some call changed a cell. -/
theorem reach_run {g w : World} {c : Bool} (h : Reach g c w) :
    ∃ evs, Run g evs w ∧ (c = true → evs ≠ []) := by
  induction h with
  | init => exact ⟨[], Run.nil g, fun h => by cases h⟩
  | @reveal c w w1 i r _ hr ih =>
    obtain ⟨e0, r0, h0⟩ := ih
    obtain ⟨e1, r1, -⟩ := reveal_run hr
    refine ⟨e0 ++ e1, r0.append r1, ?_⟩
    intro hc
    simp only [Bool.or_eq_true, decide_eq_true_eq] at hc
    rcases hc with hc | hc
    · simp [h0 hc]
    · intro he
      simp only [List.append_eq_nil] at he
      rw [he.2] at r1
      exact hc (by rw [run_nil_inv r1])
  | @cycleMark c w w1 i _ hr ih =>
    obtain ⟨e0, r0, h0⟩ := ih
    obtain ⟨e1, r1⟩ := cycleMark_run hr
    refine ⟨e0 ++ e1, r0.append r1, ?_⟩
    intro hc
    simp only [Bool.or_eq_true, decide_eq_true_eq] at hc
    rcases hc with hc | hc
    · simp [h0 hc]
    · intro he
      simp only [List.append_eq_nil] at he
      rw [he.2] at r1
      exact hc (by rw [run_nil_inv r1])

theorem gridField_mem {dimX dimY : Nat} {bombs : List (List Nat)} {f : Field}
    (h : f ∈ gridFields dimX dimY bombs) : ∃ p, p < dimX * dimY ∧ f = gridField dimX dimY bombs p := by
  unfold gridFields at h
  obtain ⟨p, hp, rfl⟩ := List.mem_map.mp h
  exact ⟨p, List.mem_range.mp hp, rfl⟩

/-- The grid that `reset` builds satisfies the invariant. -/
theorem reset_inv {w0 g : World} {d : Dimensions} {draws : List Nat}
    (h : reset w0 d draws = .ok g) (hsize : d.x * d.y ≤ 65535) : GridInv g := by
  obtain ⟨bombs, -, -, hfields, -, hstatus, hu, hm, -, -⟩ := reset_ok h
  have hall : ∀ f ∈ g.fields, f.status = .FS_HIDDEN ∧ f.observers = [FieldObserver.impl] := by
    intro f hf
    rw [hfields] at hf
    obtain ⟨p, -, rfl⟩ := gridField_mem hf
    exact ⟨rfl, rfl⟩
  refine ⟨?_, fun f hf => (hall f hf).2, ?_, ?_, ?_, ?_⟩
  · rw [hfields]
    simp [gridFields, hsize]
  · rw [hm, eq_comm, List.countP_eq_zero]
    intro f hf
    simp [(hall f hf).1]
  · rw [hu, eq_comm, List.countP_eq_zero]
    intro f hf
    simp [(hall f hf).1]
  · intro f hf
    simp [(hall f hf).1]
  · rw [hstatus]
    constructor
    · intro h1; cases h1
    · rintro ⟨f, hf, hs⟩
      rw [(hall f hf).1] at hs
      cases hs

/-- Every state reached from a grid built by `reset` with at most 65535 cells
satisfies the invariant, and its game status is derived from the counters once a
cell has changed. -/
theorem reach_inv {w0 g w : World} {d : Dimensions} {draws : List Nat} {c : Bool}
    (h : reset w0 d draws = .ok g) (hsize : d.x * d.y ≤ 65535) (hr : Reach g c w) :
    GridInv w ∧ (c = true → Settled w) ∧ Frame g w := by
  obtain ⟨evs, r, hc⟩ := reach_run hr
  obtain ⟨bombs, -, hpl, -, hdim, -⟩ := reset_ok h
  have hb : d.bombs ≤ d.x * d.y := by
    rw [← hpl]
    unfold placed
    exact (List.countP_le_length _).trans (by simp)
  obtain ⟨h1, h2⟩ := r.inv (reset_inv h hsize) (by rw [hdim]; omega) (by rw [hdim]; omega)
  exact ⟨h1, fun h => h2 (hc h), r.frame⟩

/-! ### Winning -/

theorem countP_sub_eq {α : Type} (P Q : α → Bool) :
    ∀ (l : List α), (∀ x ∈ l, P x = true → Q x = true) → l.countP P = l.countP Q →
      ∀ x ∈ l, Q x = true → P x = true := by
  intro l
  induction l with
  | nil => intro _ _ x hx; simp at hx
  | cons a l ih =>
    intro hsub hcount x hx hq
    have hsub1 : ∀ x ∈ l, P x = true → Q x = true :=
      fun x hx => hsub x (List.mem_cons_of_mem _ hx)
    have hmono := List.countP_mono_left hsub1
    have ha := hsub a (List.mem_cons_self _ _)
    simp only [List.countP_cons] at hcount
    by_cases hpa : P a = true
    · have hqa := ha hpa
      simp only [hpa, hqa, if_true] at hcount
      rcases List.mem_cons.mp hx with rfl | hx1
      · exact hpa
      · exact ih hsub1 (by omega) x hx1 hq
    · by_cases hqa : Q a = true
      · simp [hpa, hqa] at hcount
        omega
      · simp [hpa, hqa] at hcount
        rcases List.mem_cons.mp hx with rfl | hx1
        · exact absurd hq hqa
        · exact ih hsub1 (by omega) x hx1 hq

theorem win_iff_all (l : List Field)
    (hk : ∀ f ∈ l, f.status = .FS_UNHIDDEN → f.isBomb = false) :
    (l.countP (fun f => decide (f.status = .FS_UNHIDDEN)) + l.countP (fun f => f.isBomb) = l.length ∧
      l.countP (fun f => decide (f.status = .FS_MARKED)) = l.countP (fun f => f.isBomb)) ↔
    ∀ f ∈ l, (f.isBomb = true → f.status = .FS_MARKED) ∧
      (f.isBomb = false → f.status = .FS_UNHIDDEN) := by
  have hlen := List.length_eq_countP_add_countP (p := fun f : Field => f.isBomb) l
  constructor
  · rintro ⟨h1, h2⟩
    have hU : ∀ f ∈ l, f.isBomb = false → f.status = .FS_UNHIDDEN := by
      intro f hf hb
      have := countP_sub_eq (fun f : Field => decide (f.status = .FS_UNHIDDEN))
        (fun f : Field => decide ¬(f.isBomb = true)) l
        (fun x hx hs => by
          have := hk x hx (by simpa using hs)
          simp [this])
        (by omega) f hf (by simp [hb])
      simpa using this
    have hM : ∀ f ∈ l, f.isBomb = true → f.status = .FS_MARKED := by
      intro f hf hb
      have := countP_sub_eq (fun f : Field => decide (f.status = .FS_MARKED))
        (fun f : Field => f.isBomb) l
        (fun x hx hs => by
          by_contra hnb
          have hu := hU x hx (by simpa using hnb)
          simp [hu] at hs)
        h2 f hf hb
      simpa using this
    exact fun f hf => ⟨hM f hf, hU f hf⟩
  · intro hall
    have e1 : l.countP (fun f => decide (f.status = .FS_UNHIDDEN))
        = l.countP (fun f => decide ¬(f.isBomb = true)) := by
      apply List.countP_congr
      intro f hf
      simp only [decide_eq_true_eq]
      constructor
      · intro hs
        simp [hk f hf hs]
      · intro hb
        exact (hall f hf).2 (by simpa using hb)
    have e2 : l.countP (fun f => decide (f.status = .FS_MARKED)) = l.countP (fun f => f.isBomb) := by
      apply List.countP_congr
      intro f hf
      simp only [decide_eq_true_eq]
      constructor
      · intro hs
        by_contra hnb
        have := (hall f hf).2 (by simpa using hnb)
        rw [this] at hs
        cases hs
      · exact (hall f hf).1
    exact ⟨by omega, e2⟩

theorem countP_isBomb_frame {w w1 : World} (h : Frame w w1) :
    w1.fields.countP (fun f => f.isBomb) = w.fields.countP (fun f => f.isBomb) := by
  have e : ∀ l : List Field, l.countP (fun f => f.isBomb)
      = (l.map Field.shape).countP (fun f => f.isBomb) := by
    intro l
    rw [List.countP_map]
    rfl
  rw [e w1.fields, e w.fields, h.1]

theorem countP_isBomb_grid (dimX dimY : Nat) (bombs : List (List Nat)) :
    (gridFields dimX dimY bombs).countP (fun f => f.isBomb) = placed dimX dimY bombs := by
  unfold gridFields placed
  rw [List.countP_map]
  rfl

/-- C1: in a state reached from a grid of at most 65535 cells built by `reset`, once
some call has changed a cell and while no field has the status `FS_BOMB` (no bomb
was revealed), the game status is `GS_WON` exactly when every bomb is Marked and
every plain field is Unhidden, and it is `GS_RUNNING` otherwise. -/
theorem C1_won_iff (w0 g w : World) (d : Dimensions) (draws : List Nat)
    (hsize : d.x * d.y ≤ 65535) (hreset : reset w0 d draws = .ok g) (hreach : Reach g true w)
    (hnomine : ∀ f ∈ w.fields, f.status ≠ .FS_BOMB) :
    (getStatus w = .GS_WON ↔
      ∀ f ∈ w.fields, (f.isBomb = true → f.status = .FS_MARKED) ∧
        (f.isBomb = false → f.status = .FS_UNHIDDEN)) ∧
    (getStatus w ≠ .GS_WON → getStatus w = .GS_RUNNING) := by
  obtain ⟨hinv, hset, hfr⟩ := reach_inv hreset hsize hreach
  obtain ⟨bombs, -, hpl, hfields, hdim, -⟩ := reset_ok hreset
  have hnl : w.status ≠ .GS_LOST := by
    intro h
    obtain ⟨f, hf, hs⟩ := hinv.lost.mp h
    exact hnomine f hf hs
  have hB : w.fields.countP (fun f => f.isBomb) = d.bombs := by
    rw [countP_isBomb_frame hfr, hfields, countP_isBomb_grid, hpl]
  have hN : w.fields.length = d.x * d.y := by
    rw [hfr.length, hfields]
    simp [gridFields]
  have hBN := List.countP_le_length (fun f : Field => f.isBomb) (l := w.fields)
  have hwin : winTest w ↔
      (w.fields.countP (fun f => decide (f.status = .FS_UNHIDDEN))
          + w.fields.countP (fun f => f.isBomb) = w.fields.length ∧
        w.fields.countP (fun f => decide (f.status = .FS_MARKED))
          = w.fields.countP (fun f => f.isBomb)) := by
    unfold winTest
    rw [hfr.2.2, hdim, hinv.unhidden, hinv.marked, hB, hN]
    have hc : ((d.x * d.y : Nat) : Int) = (d.x : Int) * (d.y : Int) := by push_cast; rfl
    rw [← hc]
    constructor
    · rintro ⟨h1, h2⟩
      exact ⟨by omega, h2⟩
    · rintro ⟨h1, h2⟩
      exact ⟨by omega, h2⟩
  have hall := win_iff_all w.fields (fun f hf => (hinv.kinds f hf).1)
  unfold getStatus
  rcases hset rfl with h | ⟨h1, h2⟩ | ⟨h1, h2⟩
  · exact absurd h hnl
  · exact ⟨⟨fun _ => hall.mp (hwin.mp h2), fun _ => h1⟩, fun h => absurd h1 h⟩
  · refine ⟨⟨fun h => ?_, fun h => absurd (hwin.mpr (hall.mpr h)) h2⟩, fun _ => h1⟩
    rw [h1] at h
    cases h

/-- C1, on the 1x1 grid without bomb after `reveal()` on its cell: the game is won. -/
theorem C1_won_iff_witness :
    (1 * 1 ≤ 65535 ∧ reset World.init (Dimensions.new 1 1 0) [] = .ok grid1x1 ∧
      Reach grid1x1 true grid1x1Revealed ∧
      ∀ f ∈ grid1x1Revealed.fields, f.status ≠ .FS_BOMB) ∧
    getStatus grid1x1Revealed = .GS_WON :=
  have hreach : Reach grid1x1 true grid1x1Revealed :=
    @Reach.reveal grid1x1 false grid1x1 grid1x1Revealed 0 0 Reach.init rfl
  ⟨⟨by decide, rfl, hreach, by decide⟩,
    (C1_won_iff World.init grid1x1 grid1x1Revealed (Dimensions.new 1 1 0) [] (by decide) rfl
      hreach (by decide)).1.mpr (by decide)⟩

/-! ### Losing -/

theorem deriveStatus_lost (w : World) (h : w.status = .GS_LOST) :
    (deriveStatus w).status = .GS_LOST := by
  unfold deriveStatus
  simp [h]

theorem onFieldStatusChanged_lost (w : World) (i : Nat) (s : FIELDSTATUS)
    (h : w.status = .GS_LOST ∨ s = .FS_BOMB) : (onFieldStatusChanged w i s).status = .GS_LOST := by
  rw [(onFieldStatusChanged_state w i s).1]
  apply deriveStatus_lost
  rw [logFieldStatus_status]
  rcases h with h | h
  · split_ifs <;> simp [h]
  · simp [h]

theorem notify_lost (i : Nat) (s : FIELDSTATUS) (w : World) (o : FieldObserver)
    (h : w.status = .GS_LOST) : (notifyFieldStatusChanged i s w o).status = .GS_LOST := by
  cases o with
  | impl => exact onFieldStatusChanged_lost _ i s (Or.inl h)
  | client k => exact h

theorem signal_lost (obs : List FieldObserver) (w : World) (i : Nat) (s : FIELDSTATUS)
    (h : w.status = .GS_LOST) : (SIGNAL_FIELDSTATUSCHANGED w obs i s).status = .GS_LOST := by
  induction obs generalizing w with
  | nil => exact h
  | cons o os ih =>
    simp only [SIGNAL_FIELDSTATUSCHANGED, List.foldl_cons] at ih ⊢
    exact ih _ (notify_lost i s w o h)

theorem Run.lost {a b : World} {evs : List (Nat × FIELDSTATUS)} (h : Run a evs b)
    (hl : a.status = .GS_LOST) : b.status = .GS_LOST := by
  induction h with
  | nil w => exact hl
  | @cons w w2 i f s evs _ _ _ ih =>
    exact ih (signal_lost f.observers (setStatus w i f s) i s hl)

theorem reveal_bomb_open (w : World) (i : Nat) (f : Field) (hf : w.fields[i]? = some f)
    (hb : f.isBomb = true) (hs : f.status = .FS_HIDDEN ∨ f.status = .FS_QUERIED) :
    reveal w i = some (fire w i f .FS_BOMB, FIELDSTATUS.FS_BOMB.toNat) := by
  have h1 : revealAux (w.fields.length + 1) w i = some (fire w i f .FS_BOMB) := by
    rw [revealAux_succ]
    simp only [hf, hb, if_true, bombReveal_eq]
    rcases hs with h | h <;> simp [h]
  simp only [reveal, h1, fire_get_self w i f .FS_BOMB hf]
  simp [revealResult, hb]

theorem reach_observers {w0 g w : World} {d : Dimensions} {draws : List Nat} {c : Bool}
    (h : reset w0 d draws = .ok g) (hr : Reach g c w) {i : Nat} {f : Field}
    (hf : w.fields[i]? = some f) : f.observers = [FieldObserver.impl] := by
  obtain ⟨evs, r, -⟩ := reach_run hr
  obtain ⟨bombs, -, -, hfields, -⟩ := reset_ok h
  obtain ⟨f0, hf0, hs⟩ := r.frame.symm.get hf
  rw [hfields] at hf0
  obtain ⟨-, rfl⟩ := gridFields_get_some hf0
  rw [← (shape_eq hs).2.2.2.2]
  rfl

/-- C2: in every state of a grid built by `reset`, `reveal()` on a Hidden or Queried
bomb returns `FS_BOMB` and leaves the game status `GS_LOST`, and the status is
`GS_LOST` in every state reached from there by `reveal()` and `cycleMark()` calls. -/
theorem C2_lost_stays (w0 g w : World) (d : Dimensions) (draws : List Nat) (c : Bool)
    (i : Nat) (f : Field) (hreset : reset w0 d draws = .ok g) (hreach : Reach g c w)
    (hf : w.fields[i]? = some f) (hb : f.isBomb = true)
    (hs : f.status = .FS_HIDDEN ∨ f.status = .FS_QUERIED) :
    ∃ w1, reveal w i = some (w1, FIELDSTATUS.FS_BOMB.toNat) ∧ getStatus w1 = .GS_LOST ∧
      ∀ (c2 : Bool) (w2 : World), Reach w1 c2 w2 → getStatus w2 = .GS_LOST := by
  have ho := reach_observers hreset hreach hf
  have hl : (fire w i f .FS_BOMB).status = .GS_LOST := by
    rw [fire_impl w i f .FS_BOMB ho]
    exact onFieldStatusChanged_lost _ i _ (Or.inr rfl)
  refine ⟨fire w i f .FS_BOMB, reveal_bomb_open w i f hf hb hs, hl, ?_⟩
  intro c2 w2 hr
  obtain ⟨evs, r, -⟩ := reach_run hr
  exact r.lost hl

/-- C2, on the 1x1 grid whose cell is a bomb: revealing it loses the game. -/
theorem C2_lost_stays_witness :
    (reset World.init (Dimensions.new 1 1 1) [0] = .ok bomb1x1 ∧ Reach bomb1x1 false bomb1x1 ∧
      bomb1x1.fields[0]? = some (gridField 1 1 [[1]] 0)) ∧
    ∃ w1, reveal bomb1x1 0 = some (w1, 4) ∧ getStatus w1 = .GS_LOST ∧
      ∀ (c2 : Bool) (w2 : World), Reach w1 c2 w2 → getStatus w2 = .GS_LOST :=
  ⟨⟨rfl, Reach.init, by decide⟩,
    C2_lost_stays World.init bomb1x1 bomb1x1 (Dimensions.new 1 1 1) [0] false 0
      (gridField 1 1 [[1]] 0) rfl Reach.init (by decide) rfl (Or.inl rfl)⟩

/-! ### The flood fill -/

theorem Region.nbr {l : List Field} {c n : Nat} {f : Field} (hf : l[c]? = some f)
    (hz : f.adjacentBombs = 0) (hn : n ∈ f.neighbours) : Region l c n :=
  Region.step Region.base hf hz hn

theorem region_trans {l : List Field} {c j k : Nat} (h1 : Region l c j) (h2 : Region l j k) :
    Region l c k := by
  induction h2 with
  | base => exact h1
  | step _ hf hz hn ih => exact Region.step ih hf hz hn

theorem Region.of_shape {a b : List Field} (h : b.map Field.shape = a.map Field.shape)
    {c j : Nat} (hr : Region a c j) : Region b c j := by
  induction hr with
  | base => exact Region.base
  | @step j n f _ hf hz hn ih =>
    have := congrArg (fun l => l[j]?) h
    simp only [List.getElem?_map, hf, Option.map_some'] at this
    cases hb : b[j]? with
    | none => simp [hb] at this
    | some fb =>
      simp only [hb, Option.map_some', Option.some.injEq] at this
      have hs := shape_eq this
      exact Region.step ih hb (by rw [hs.2.2.1]; exact hz) (by rw [hs.2.2.2.1]; exact hn)

theorem Region.of_frame {w w1 : World} (h : Frame w w1) {c j : Nat}
    (hr : Region w1.fields c j) : Region w.fields c j :=
  Region.of_shape h.1.symm hr

theorem closed_after_fire (f : Field) (s : FIELDSTATUS) (ha : f.allows s = true)
    (hk : s = .FS_UNHIDDEN ∨ s = .FS_BOMB) : ({ f with status := s } : Field).closed := by
  rcases hk with rfl | rfl
  · simp [Field.closed, Field.allows]
  · simp only [Field.allows, Bool.and_eq_true] at ha
    simp [Field.closed, Field.allows, ha.1.1.1]

theorem Run.closed_stays {a b : World} {evs : List (Nat × FIELDSTATUS)} (h : Run a evs b)
    (hk : RevealKind evs) {i : Nat} {f : Field} (hf : a.fields[i]? = some f) (hc : f.closed) :
    b.fields[i]? = some f :=
  (h.closed_untouched hk hf hc.1 hc.2).1

theorem newClosed_mono {evs evs2 : List (Nat × FIELDSTATUS)} {w w2 : World}
    (h : NewClosed evs w) (r : Run w evs2 w2) (hk : RevealKind evs2) : NewClosed evs w2 := by
  intro e he hs fj hfj hz n hn fn hfn
  have hfr := r.frame
  obtain ⟨fj0, hfj0, hsj⟩ := hfr.symm.get hfj
  obtain ⟨fn0, hfn0, -⟩ := hfr.symm.get hfn
  have hsh := shape_eq hsj
  have hc := h e he hs fj0 hfj0 (by rw [hsh.2.2.1]; exact hz) n (by rw [hsh.2.2.2.1]; exact hn)
    fn0 hfn0
  have := r.closed_stays hk hfn0 hc
  rw [hfn] at this
  cases this
  exact hc

/-- The calls on the neighbours, one after the other. -/
theorem chain_flood {w w2 : World} {ns : List Nat} (h : Chain Flood w ns w2) :
    ∃ evs, Run w evs w2 ∧ RevealKind evs ∧ (∀ e ∈ evs, ∃ n ∈ ns, Region w.fields n e.1) ∧
      (∀ n ∈ ns, ∀ fn, w2.fields[n]? = some fn → fn.closed) ∧ NewClosed evs w2 := by
  induction h with
  | nil w =>
    refine ⟨[], Run.nil w, revealKind_nil, ?_, ?_, ?_⟩
    · intro e he; simp at he
    · intro n hn; simp at hn
    · intro e he; simp at he
  | @cons w w1 w2 n ns hp _ ih =>
    obtain ⟨e1, r1, k1, reg1, cl1, nc1⟩ := hp
    obtain ⟨e2, r2, k2, reg2, cl2, nc2⟩ := ih
    refine ⟨e1 ++ e2, r1.append r2, revealKind_append k1 k2, ?_, ?_, ?_⟩
    · intro e he
      rcases List.mem_append.mp he with h | h
      · exact ⟨n, List.mem_cons_self _ _, reg1 e h⟩
      · obtain ⟨m, hm, hr⟩ := reg2 e h
        exact ⟨m, List.mem_cons_of_mem _ hm, Region.of_frame r1.frame hr⟩
    · intro m hm fm hfm
      rcases List.mem_cons.mp hm with rfl | hm1
      · obtain ⟨f1, hf1, -⟩ := r2.frame.symm.get hfm
        have hc := cl1 f1 hf1
        have := r2.closed_stays k2 hf1 hc
        rw [hfm] at this
        cases this
        exact hc
      · exact cl2 m hm1 fm hfm
    · intro e he
      rcases List.mem_append.mp he with h | h
      · exact newClosed_mono nc1 r2 k2 e h
      · exact nc2 e h

/-- Every call of `reveal` is a flood. -/
theorem revealAux_flood (fuel : Nat) (w : World) (i : Nat) (w2 : World)
    (h : revealAux fuel w i = some w2) : Flood w i w2 := by
  refine revealAux_induct Flood ?_ ?_ ?_ ?_ fuel w i w2 h
  · intro w i f hf hb
    rw [bombReveal_eq]
    split_ifs with hg
    · have ha : f.allows .FS_BOMB = true := by
        simp [Field.allows, hb, hg.1, hg.2.1, hg.2.2]
      refine ⟨[(i, .FS_BOMB)], Run.single hf ha, revealKind_single_bomb i, ?_, ?_, ?_⟩
      · intro e he
        simp only [List.mem_singleton] at he
        subst he
        exact Region.base
      · intro f2 hf2
        rw [fire_get_self w i f _ hf] at hf2
        cases hf2
        exact closed_after_fire f _ ha (Or.inr rfl)
      · intro e he hs
        simp only [List.mem_singleton] at he
        subst he
        cases hs
    · refine ⟨[], Run.nil w, revealKind_nil, ?_, ?_, ?_⟩
      · intro e he; simp at he
      · intro f2 hf2
        rw [hf] at hf2
        cases hf2
        constructor
        · simp [Field.allows, hb]
        · simp only [Field.allows, hb, Bool.true_and, Bool.and_eq_false_iff,
            decide_eq_false_iff_not, not_not]
          by_contra hcon
          simp only [not_or] at hcon
          exact hg ⟨hcon.1.1, hcon.1.2, hcon.2⟩
      · intro e he; simp at he
  · intro w i f hf hb hg
    refine ⟨[], Run.nil w, revealKind_nil, ?_, ?_, ?_⟩
    · intro e he; simp at he
    · intro f2 hf2
      rw [hf] at hf2
      cases hf2
      constructor
      · simp only [Field.allows, hb, Bool.not_false, Bool.true_and, Bool.and_eq_false_iff,
          decide_eq_false_iff_not, not_not]
        by_contra hcon
        simp only [not_or] at hcon
        exact hg ⟨hcon.1, hcon.2⟩
      · simp [Field.allows, hb]
    · intro e he; simp at he
  · intro w i f hf hb hg hz
    have ha : f.allows .FS_UNHIDDEN = true := by
      simp [Field.allows, hb, hg.1, hg.2]
    refine ⟨[(i, .FS_UNHIDDEN)], Run.single hf ha, revealKind_single_unhidden i, ?_, ?_, ?_⟩
    · intro e he
      simp only [List.mem_singleton] at he
      subst he
      exact Region.base
    · intro f2 hf2
      rw [fire_get_self w i f _ hf] at hf2
      cases hf2
      exact closed_after_fire f _ ha (Or.inl rfl)
    · intro e he _ fj hfj hzj
      simp only [List.mem_singleton] at he
      subst he
      rw [fire_get_self w i f _ hf] at hfj
      cases hfj
      exact absurd hzj hz
  · intro w i f w2 hf hb hg hz hch
    have ha : f.allows .FS_UNHIDDEN = true := by
      simp [Field.allows, hb, hg.1, hg.2]
    obtain ⟨evs, r, k, reg, cl, nc⟩ := chain_flood hch
    have hfr1 := fire_frame w i f .FS_UNHIDDEN hf
    have hself := fire_get_self w i f .FS_UNHIDDEN hf
    have hcl := closed_after_fire f _ ha (Or.inl rfl)
    have hstay := r.closed_stays k hself hcl
    refine ⟨(i, .FS_UNHIDDEN) :: evs, Run.cons hf ha r,
      revealKind_append (revealKind_single_unhidden i) k, ?_, ?_, ?_⟩
    · intro e he
      rcases List.mem_cons.mp he with rfl | he1
      · exact Region.base
      · obtain ⟨n, hn, hr⟩ := reg e he1
        exact region_trans (Region.nbr hf hz hn) (Region.of_frame hfr1 hr)
    · intro f2 hf2
      rw [hstay] at hf2
      cases hf2
      exact hcl
    · intro e he hs fj hfj hzj n hn fn hfn
      rcases List.mem_cons.mp he with rfl | he1
      · rw [hstay] at hfj
        cases hfj
        exact cl n hn fn hfn
      · exact nc e he1 hs fj hfj hzj n hn fn hfn

theorem Run.untouched {a b : World} {evs : List (Nat × FIELDSTATUS)} (h : Run a evs b)
    {j : Nat} (hj : ∀ e ∈ evs, e.1 ≠ j) : b.fields[j]? = a.fields[j]? := by
  induction h with
  | nil w => rfl
  | @cons w w2 i f s evs _ _ _ ih =>
    rw [ih (fun e he => hj e (List.mem_cons_of_mem _ he)),
      fire_get_ne _ _ _ _ _ (hj (i, s) (List.mem_cons_self _ _))]

theorem Run.cells_nodup {a b : World} {evs : List (Nat × FIELDSTATUS)} (h : Run a evs b)
    (hk : RevealKind evs) : (evs.map Prod.fst).Nodup := by
  induction h with
  | nil w => exact List.nodup_nil
  | @cons w w2 i f s evs hf ha hr ih =>
    have hk1 : RevealKind evs := fun e he => hk e (List.mem_cons_of_mem _ he)
    have hcl := closed_after_fire f s ha (hk (i, s) (List.mem_cons_self _ _))
    have hno := (hr.closed_untouched hk1 (fire_get_self w i f s hf) hcl.1 hcl.2).2
    rw [List.map_cons, List.nodup_cons]
    refine ⟨?_, ih hk1⟩
    intro hmem
    obtain ⟨e, he, h1⟩ := List.mem_map.mp hmem
    exact hno e he h1

theorem Run.final_of_mem {a b : World} {evs : List (Nat × FIELDSTATUS)} (h : Run a evs b)
    (hk : RevealKind evs) {j : Nat} {s : FIELDSTATUS} (hmem : (j, s) ∈ evs) {fj : Field}
    (hfj : a.fields[j]? = some fj) : b.fields[j]? = some { fj with status := s } := by
  induction h with
  | nil w => simp at hmem
  | @cons w w2 i f t evs hf ha hr ih =>
    have hk1 : RevealKind evs := fun e he => hk e (List.mem_cons_of_mem _ he)
    have hcl := closed_after_fire f t ha (hk (i, t) (List.mem_cons_self _ _))
    have hun := hr.closed_untouched hk1 (fire_get_self w i f t hf) hcl.1 hcl.2
    rcases List.mem_cons.mp hmem with hhead | htail
    · simp only [Prod.mk.injEq] at hhead
      obtain ⟨rfl, rfl⟩ := hhead
      rw [hf] at hfj
      cases hfj
      exact hun.1
    · have hji : i ≠ j := fun h => hun.2 (j, s) htail h.symm
      exact ih hk1 htail (by rw [fire_get_ne _ _ _ _ _ hji]; exact hfj)

theorem Run.bomb_event {a b : World} {evs : List (Nat × FIELDSTATUS)} (h : Run a evs b)
    {j : Nat} (hmem : (j, FIELDSTATUS.FS_BOMB) ∈ evs) {fj : Field} (hfj : a.fields[j]? = some fj) :
    fj.isBomb = true := by
  induction h generalizing fj with
  | nil w => simp at hmem
  | @cons w w2 i f t evs hf ha hr ih =>
    rcases List.mem_cons.mp hmem with hhead | htail
    · simp only [Prod.mk.injEq] at hhead
      obtain ⟨rfl, rfl⟩ := hhead
      rw [hf] at hfj
      cases hfj
      simp only [Field.allows, Bool.and_eq_true] at ha
      exact ha.1.1.1
    · obtain ⟨f1, hf1, hs⟩ := (fire_frame w i f t hf).get hfj
      rw [← (shape_eq hs).1]
      exact ih htail hf1

theorem flatMap_singletons {α β : Type} (g : α → List β) (k : α → β) :
    ∀ (l : List α), (∀ e ∈ l, g e = [k e]) → l.flatMap g = l.map k := by
  intro l
  induction l with
  | nil => intro _; rfl
  | cons a l ih =>
    intro h
    rw [List.flatMap_cons, List.map_cons, h a (List.mem_cons_self _ _),
      ih (fun e he => h e (List.mem_cons_of_mem _ he))]
    rfl

/-- The links and counters of a reachable state are those of the grid that `reset`
built: neighbour pointers are valid, and a field that counts no adjacent bomb has
only plain neighbours. -/
theorem reach_static {w0 g w : World} {d : Dimensions} {draws : List Nat} {c : Bool}
    (h : reset w0 d draws = .ok g) (hr : Reach g c w) :
    WellFormed w.fields ∧
    ∀ (j : Nat) (fj : Field), w.fields[j]? = some fj → fj.adjacentBombs = 0 →
      ∀ n ∈ fj.neighbours, ∀ fn : Field, w.fields[n]? = some fn → fn.isBomb = false := by
  obtain ⟨evs, r, -⟩ := reach_run hr
  obtain ⟨bombs, -, -, hfields, -⟩ := reset_ok h
  have hfr := r.frame
  have hlen : w.fields.length = d.x * d.y := by
    rw [hfr.length, hfields]
    simp [gridFields]
  have hget : ∀ (j : Nat) (fj : Field), w.fields[j]? = some fj →
      j < d.x * d.y ∧ fj.shape = (gridField d.x d.y bombs j).shape := by
    intro j fj hfj
    obtain ⟨f0, hf0, hs⟩ := hfr.symm.get hfj
    rw [hfields] at hf0
    obtain ⟨hj, rfl⟩ := gridFields_get_some hf0
    exact ⟨hj, hs.symm⟩
  constructor
  · intro fj hfj n hn
    obtain ⟨j, hj⟩ := List.getElem?_of_mem hfj
    obtain ⟨hjlt, hs⟩ := hget j fj hj
    rw [hlen]
    rw [(shape_eq hs).2.2.2.1] at hn
    exact neighbourList_lt d.x d.y j n hjlt hn
  · intro j fj hfj hz n hn fn hfn
    obtain ⟨hjlt, hs⟩ := hget j fj hfj
    obtain ⟨-, hsn⟩ := hget n fn hfn
    rw [(shape_eq hs).2.2.1] at hz
    rw [(shape_eq hs).2.2.2.1] at hn
    rw [(shape_eq hsn).1]
    simp only [gridField] at hz hn ⊢
    have := List.countP_eq_zero.mp hz n hn
    simpa using this

/-- C8: in a state of a grid built by `reset` where every cell is Hidden or Queried,
`reveal()` on a plain cell that counts no adjacent bomb returns 0, sets to Unhidden
exactly the cells of the region of that cell (the smallest set that holds the cell
and every neighbour of each of its zero-count members), leaves every other field as
it was, and makes exactly one status-changed call, to the grid, for each cell of the
region. -/
theorem C8_flood_fill (w0 g w : World) (d : Dimensions) (draws : List Nat) (c : Bool)
    (i : Nat) (f : Field) (hreset : reset w0 d draws = .ok g) (hreach : Reach g c w)
    (hfresh : ∀ f ∈ w.fields, f.status = .FS_HIDDEN ∨ f.status = .FS_QUERIED)
    (hf : w.fields[i]? = some f) (hb : f.isBomb = false) (hz : f.adjacentBombs = 0) :
    ∃ (w2 : World) (cells : List Nat) (ext : List Notification), reveal w i = some (w2, 0) ∧
      (∀ (j : Nat) (fj : Field), w.fields[j]? = some fj →
        (Region w.fields i j → w2.fields[j]? = some { fj with status := .FS_UNHIDDEN }) ∧
        (¬Region w.fields i j → w2.fields[j]? = some fj)) ∧
      cells.Nodup ∧ (∀ j, j ∈ cells ↔ Region w.fields i j) ∧
      w2.log = w.log ++ ext ∧
      fieldCalls ext
        = cells.map (fun j => Notification.fieldStatusChanged .impl j .FS_UNHIDDEN) := by
  obtain ⟨hwf, hstatic⟩ := reach_static hreset hreach
  have hi := (List.getElem?_eq_some_iff.mp hf).1
  obtain ⟨w2, f2, hAux, hget2, hrev⟩ := reveal_returns w i hwf hi
  obtain ⟨evs, r, k, reg, cl, nc⟩ := revealAux_flood _ w i w2 hAux
  have hfr := r.frame
  -- the cells of the region are plain fields of the heap
  have hplain : ∀ j, Region w.fields i j → ∃ fj, w.fields[j]? = some fj ∧ fj.isBomb = false := by
    intro j hj
    induction hj with
    | base => exact ⟨f, hf, hb⟩
    | @step j n fj _ hfj hzj hn _ =>
      have hn1 := hwf fj (List.getElem?_mem hfj) n hn
      exact ⟨w.fields[n], List.getElem?_eq_getElem hn1,
        hstatic j fj hfj hzj n hn _ (List.getElem?_eq_getElem hn1)⟩
  -- a plain field of the state before is open
  have hopen : ∀ (j : Nat) (fj : Field), w.fields[j]? = some fj → fj.isBomb = false →
      fj.allows .FS_UNHIDDEN = true := by
    intro j fj hfj hbj
    rcases hfresh fj (List.getElem?_mem hfj) with h | h <;> simp [Field.allows, hbj, h]
  -- every event unhides a field
  have hunh : ∀ e ∈ evs, e.2 = .FS_UNHIDDEN := by
    intro e he
    rcases k e he with h | h
    · exact h
    · obtain ⟨fe, hfe, hbe⟩ := hplain e.1 (reg e he)
      have hmem : (e.1, FIELDSTATUS.FS_BOMB) ∈ evs := by rw [← h]; exact he
      have := r.bomb_event hmem hfe
      rw [hbe] at this
      cases this
  -- a plain field that is not among the events is still open, hence not closed
  have hin : ∀ (j : Nat) (fj : Field), w.fields[j]? = some fj → fj.isBomb = false →
      (∀ f2, w2.fields[j]? = some f2 → f2.closed) → j ∈ evs.map Prod.fst := by
    intro j fj hfj hbj hcl
    by_contra hnot
    have hun := r.untouched (j := j) (fun e he h => hnot (List.mem_map.mpr ⟨e, he, h⟩))
    rw [hfj] at hun
    have := (hcl fj hun).1
    rw [hopen j fj hfj hbj] at this
    cases this
  have hmem : ∀ j, j ∈ evs.map Prod.fst ↔ Region w.fields i j := by
    intro j
    constructor
    · intro hj
      obtain ⟨e, he, rfl⟩ := List.mem_map.mp hj
      exact reg e he
    · intro hj
      induction hj with
      | base => exact hin i f hf hb cl
      | @step j n fj hreg hfj hzj hn ih =>
        obtain ⟨e, he, hej⟩ := List.mem_map.mp ih
        have hes := hunh e he
        obtain ⟨fn, hfn, hbn⟩ := hplain n (Region.step hreg hfj hzj hn)
        obtain ⟨fj2, hfj2, hsj⟩ := hfr.get hfj
        have hsh := shape_eq hsj
        apply hin n fn hfn hbn
        intro fn2 hfn2
        exact nc e he hes fj2 (by rw [hej]; exact hfj2) (by rw [hsh.2.2.1]; exact hzj) n
          (by rw [hsh.2.2.2.1]; exact hn) fn2 hfn2
  have hfinal : ∀ (j : Nat) (fj : Field), w.fields[j]? = some fj →
      (Region w.fields i j → w2.fields[j]? = some { fj with status := .FS_UNHIDDEN }) ∧
      (¬Region w.fields i j → w2.fields[j]? = some fj) := by
    intro j fj hfj
    constructor
    · intro hj
      obtain ⟨e, he, hej⟩ := List.mem_map.mp ((hmem j).mpr hj)
      have hes := hunh e he
      have hmem2 : (j, FIELDSTATUS.FS_UNHIDDEN) ∈ evs := by
        rw [← hej, ← hes]
        exact he
      exact r.final_of_mem k hmem2 hfj
    · intro hj
      rw [← hfj]
      apply r.untouched
      intro e he h
      exact hj ((hmem j).mp (List.mem_map.mpr ⟨e, he, h⟩))
  obtain ⟨ext, hlog, hcalls⟩ := r.log
  refine ⟨w2, evs.map Prod.fst, ext, ?_, hfinal, r.cells_nodup k, hmem, hlog, ?_⟩
  · rw [hrev]
    have := (hfinal i f hf).1 Region.base
    rw [hget2] at this
    cases this
    simp [revealResult, hb, hz]
  · rw [hcalls, List.map_map]
    apply flatMap_singletons
    intro e he
    obtain ⟨fe, hfe, -⟩ := hplain e.1 (reg e he)
    have ho := reach_observers hreset hreach hfe
    simp only [World.observersOf, hfe, ho, callsFor, hunh e he, List.map_cons, List.map_nil,
      Function.comp]

set_option maxRecDepth 8000 in
/-- C8, on the 3x3 grid with its bomb at (2,2): revealing (0,0) unhides the eight
plain cells. -/
theorem C8_flood_fill_witness :
    (reset World.init (Dimensions.new 3 3 1) [8] = .ok grid3x3 ∧ Reach grid3x3 false grid3x3 ∧
      (∀ f ∈ grid3x3.fields, f.status = .FS_HIDDEN ∨ f.status = .FS_QUERIED) ∧
      grid3x3.fields[0]? = some (gridField 3 3 [[0, 0, 0], [0, 0, 0], [0, 0, 1]] 0)) ∧
    ∃ (w2 : World) (cells : List Nat) (ext : List Notification), reveal grid3x3 0 = some (w2, 0) ∧
      (∀ (j : Nat) (fj : Field), grid3x3.fields[j]? = some fj →
        (Region grid3x3.fields 0 j → w2.fields[j]? = some { fj with status := .FS_UNHIDDEN }) ∧
        (¬Region grid3x3.fields 0 j → w2.fields[j]? = some fj)) ∧
      cells.Nodup ∧ (∀ j, j ∈ cells ↔ Region grid3x3.fields 0 j) ∧
      w2.log = grid3x3.log ++ ext ∧
      fieldCalls ext
        = cells.map (fun j => Notification.fieldStatusChanged .impl j .FS_UNHIDDEN) :=
  ⟨⟨rfl, Reach.init, by decide, by decide⟩,
    C8_flood_fill World.init grid3x3 grid3x3 (Dimensions.new 3 3 1) [8] false 0
      (gridField 3 3 [[0, 0, 0], [0, 0, 0], [0, 0, 1]] 0) rfl Reach.init (by decide) (by decide)
      rfl rfl⟩

/-! ### The value returned by reveal -/

set_option maxRecDepth 8000 in
/-- C7, at the input where it fails: in the 3x2 grid with bombs at (0,0), (2,0), (0,1)
and (2,1) the cell (1,0) is a plain field with four adjacent bombs, and `reveal()` on
it returns 4, which is the value of `FS_BOMB` that `Bomb::reveal` returns. -/
theorem C7_sentinel_collision :
    reset World.init (Dimensions.new 3 2 4) [0, 0, 2, 3, 3, 5] = .ok grid3x2 ∧
    (grid3x2.fields[cellAddr 3 1 0]?).map (fun f => (f.isBomb, f.adjacentBombs))
      = some (false, 4) ∧
    (reveal grid3x2 (cellAddr 3 1 0)).map Prod.snd = some FIELDSTATUS.FS_BOMB.toNat ∧
    (reveal grid3x2 (cellAddr 3 0 0)).map Prod.snd = some FIELDSTATUS.FS_BOMB.toNat :=
  ⟨rfl, by decide, by decide, by decide⟩

/-! ### Counts of neighbours and of adjacent bombs -/

theorem neighbourList_length_ge (dimX dimY x y : Nat) (hx : x < dimX) (hy : y < dimY)
    (h2x : 2 ≤ dimX) (h2y : 2 ≤ dimY) : 3 ≤ (neighbourList dimX dimY x y).length := by
  unfold neighbourList
  by_cases c1 : (x : Int) - 1 ≥ 0 <;> by_cases c2 : (y : Int) - 1 ≥ 0 <;>
    by_cases c3 : (x : Int) + 1 < dimX <;> by_cases c4 : (y : Int) + 1 < dimY <;>
    simp only [c1, c2, c3, c4, and_self, and_true, and_false, true_and, false_and, if_true,
      if_false, List.nil_append, List.append_nil, List.singleton_append, List.length_cons,
      List.length_nil] <;>
    omega

/-- C11, with the lower bound restricted to grids at least 2 wide and 2 high: every
cell of a grid built by `reset` has at most 8 neighbours, and at least 3 when the grid
is at least 2 wide and 2 high. -/
theorem C11_neighbour_count (w0 g : World) (d : Dimensions) (draws : List Nat) (j : Nat)
    (f : Field) (h : reset w0 d draws = .ok g) (hf : g.fields[j]? = some f) :
    f.neighbours.length ≤ 8 ∧ (2 ≤ d.x → 2 ≤ d.y → 3 ≤ f.neighbours.length) := by
  obtain ⟨bombs, -, -, hfields, -⟩ := reset_ok h
  rw [hfields] at hf
  obtain ⟨hj, rfl⟩ := gridFields_get_some hf
  have hpos : 0 < d.x := by
    rcases Nat.eq_zero_or_pos d.x with h0 | h0
    · rw [h0] at hj; simp at hj
    · exact h0
  simp only [gridField]
  exact ⟨neighbourList_length d.x d.y _ _,
    fun h2x h2y => neighbourList_length_ge d.x d.y _ _ (Nat.mod_lt _ hpos)
      (Nat.div_lt_of_lt_mul hj) h2x h2y⟩

/-- C11, on the 2x2 grid: the corner (0,0) has three neighbours. -/
theorem C11_neighbour_count_witness :
    (reset World.init (Dimensions.new 2 2 1) [3] = .ok grid2x2 ∧
      grid2x2.fields[0]? = some (gridField 2 2 [[0, 0], [0, 1]] 0)) ∧
    (gridField 2 2 [[0, 0], [0, 1]] 0).neighbours.length ≤ 8 ∧
    3 ≤ (gridField 2 2 [[0, 0], [0, 1]] 0).neighbours.length :=
  ⟨⟨rfl, by decide⟩,
    (C11_neighbour_count World.init grid2x2 (Dimensions.new 2 2 1) [3] 0
      (gridField 2 2 [[0, 0], [0, 1]] 0) rfl (by decide)).1,
    (C11_neighbour_count World.init grid2x2 (Dimensions.new 2 2 1) [3] 0
      (gridField 2 2 [[0, 0], [0, 1]] 0) rfl (by decide)).2 (by decide) (by decide)⟩

/-- C11, lower bound on the 1x1 grid: its only cell has no neighbour at all, so it has
not at least 3. -/
theorem C11_counterexample :
    reset World.init (Dimensions.new 1 1 0) [] = .ok grid1x1 ∧
    ∃ f, grid1x1.fields[cellAddr 1 0 0]? = some f ∧
      ¬(3 ≤ f.neighbours.length ∧ f.neighbours.length ≤ 8) :=
  ⟨rfl, gridField 1 1 [[0]] 0, by decide, by decide⟩

theorem isBombAt_grid (dimX dimY : Nat) (bombs : List (List Nat)) (q : Nat)
    (hq : q < dimX * dimY) : isBombAt (gridFields dimX dimY bombs) q = bombAt dimX bombs q := by
  unfold isBombAt
  rw [gridFields_get, if_pos hq]
  rfl

/-- C12: in a grid built by `reset`, the adjacent-bomb counter of every cell, plain or
bomb, is the number of bombs among the cells of its neighbour list, and is at most 8. -/
theorem C12_adjacent_bombs (w0 g : World) (d : Dimensions) (draws : List Nat) (j : Nat)
    (f : Field) (h : reset w0 d draws = .ok g) (hf : g.fields[j]? = some f) :
    f.adjacentBombs = f.neighbours.countP (isBombAt g.fields) ∧ f.adjacentBombs ≤ 8 := by
  obtain ⟨bombs, -, -, hfields, -⟩ := reset_ok h
  rw [hfields] at hf ⊢
  obtain ⟨hj, rfl⟩ := gridFields_get_some hf
  simp only [gridField]
  constructor
  · apply List.countP_congr
    intro q hq
    rw [isBombAt_grid d.x d.y bombs q (neighbourList_lt d.x d.y j q hj hq)]
  · exact (List.countP_le_length _).trans (neighbourList_length d.x d.y _ _)

/-- C12, on the 2x2 grid with its bomb at (1,1): the cell (0,0) counts one bomb. -/
theorem C12_adjacent_bombs_witness :
    (reset World.init (Dimensions.new 2 2 1) [3] = .ok grid2x2 ∧
      grid2x2.fields[0]? = some (gridField 2 2 [[0, 0], [0, 1]] 0)) ∧
    (gridField 2 2 [[0, 0], [0, 1]] 0).adjacentBombs = 1 ∧
    (gridField 2 2 [[0, 0], [0, 1]] 0).neighbours.countP (isBombAt grid2x2.fields) = 1 :=
  ⟨⟨rfl, by decide⟩, by decide,
    ((C12_adjacent_bombs World.init grid2x2 (Dimensions.new 2 2 1) [3] 0
      (gridField 2 2 [[0, 0], [0, 1]] 0) rfl (by decide)).1).symm.trans (by decide)⟩

/-! ### The accepted draws of the placement loop -/

theorem placeBombs_step_pos (dimX dimY nBombs b : Nat) (bombs : List (List Nat)) (r : Nat)
    (rest : List Nat) (out : List (List Nat))
    (h : placeBombs dimX dimY nBombs b bombs (r :: rest) = .ok out) (hb : b < nBombs) :
    ∃ v, helperGet bombs (drawPosition dimX dimY r % dimX) (drawPosition dimX dimY r / dimX)
        = .ok v ∧
      ((v ≠ 0 ∧ placeBombs dimX dimY nBombs (inc16 (dec16 b)) bombs rest = .ok out ∧
          acceptedDraws dimX dimY nBombs b bombs (r :: rest)
            = acceptedDraws dimX dimY nBombs (inc16 (dec16 b)) bombs rest) ∨
       (v = 0 ∧ ∃ b1,
          helperSet bombs (drawPosition dimX dimY r % dimX) (drawPosition dimX dimY r / dimX) 1
            = .ok b1 ∧
          placeBombs dimX dimY nBombs (inc16 b) b1 rest = .ok out ∧
          acceptedDraws dimX dimY nBombs b bombs (r :: rest)
            = drawPosition dimX dimY r :: acceptedDraws dimX dimY nBombs (inc16 b) b1 rest)) := by
  rw [placeBombs] at h
  simp only [hb, if_true] at h
  split_ifs at h with h1 h2
  have e : (Int.tmod (r : Int) (int32 ((dimX : Int) * (dimY : Int)))).toNat % 4294967296
      = drawPosition dimX dimY r := rfl
  simp only [e] at h
  clear e
  cases hg : helperGet bombs (drawPosition dimX dimY r % dimX)
      (drawPosition dimX dimY r / dimX) with
  | error e => simp [hg] at h
  | ok v =>
    refine ⟨v, rfl, ?_⟩
    simp only [hg] at h
    split_ifs at h with hv
    · refine Or.inl ⟨hv, h, ?_⟩
      rw [acceptedDraws]
      simp only [hb, if_true, hg, hv, ne_eq, not_false_eq_true]
    · have hv0 : v = 0 := by simpa using hv
      refine Or.inr ⟨hv0, ?_⟩
      cases hs : helperSet bombs (drawPosition dimX dimY r % dimX)
          (drawPosition dimX dimY r / dimX) 1 with
      | error e => simp [hs] at h
      | ok b1 =>
        simp only [hs] at h
        refine ⟨b1, rfl, h, ?_⟩
        rw [acceptedDraws]
        simp only [hb, if_true, hg, hs, hv0, ne_eq, not_true_eq_false, if_false]

/-- When the placement loop finishes, the positions it accepted are pairwise distinct
cells that held no bomb before, there are as many as bombs were still to place, they
are positions of draws, and the helper matrix holds a bomb exactly where it held one
before or where a position was accepted. -/
theorem placeBombs_accepted (dimX dimY nBombs : Nat) :
    ∀ (draws : List Nat) (b : Nat) (bombs out : List (List Nat)),
      placeBombs dimX dimY nBombs b bombs draws = .ok out → HelperOK dimX dimY bombs →
      placed dimX dimY bombs = b → b ≤ nBombs → b < 65536 →
      (acceptedDraws dimX dimY nBombs b bombs draws).Nodup ∧
      (acceptedDraws dimX dimY nBombs b bombs draws).length + b = nBombs ∧
      (∀ p ∈ acceptedDraws dimX dimY nBombs b bombs draws,
        p < dimX * dimY ∧ bombAt dimX bombs p = false) ∧
      (∀ j, bombAt dimX out j = true ↔
        (bombAt dimX bombs j = true ∨ j ∈ acceptedDraws dimX dimY nBombs b bombs draws)) ∧
      (acceptedDraws dimX dimY nBombs b bombs draws).Sublist
        (draws.map (drawPosition dimX dimY)) := by
  intro draws
  induction draws with
  | nil =>
    intro b bombs out h hok hp hle _
    rw [placeBombs] at h
    split_ifs at h with hb
    simp only [Except.ok.injEq] at h
    subst h
    rw [acceptedDraws]
    simp only [hb, if_false]
    exact ⟨List.nodup_nil, by simp; omega, by simp, by simp, List.Sublist.refl _⟩
  | cons r rest ih =>
    intro b bombs out h hok hp hle hlt
    by_cases hb : b < nBombs
    · obtain ⟨v, hg, hcase⟩ := placeBombs_step_pos dimX dimY nBombs b bombs r rest out h hb
      simp only [List.map_cons]
      generalize drawPosition dimX dimY r = pos at hg hcase ⊢
      obtain ⟨col, hc, hy, hv⟩ := helperGet_ok hg
      have hx : pos % dimX < dimX := by
        have := (List.getElem?_eq_some_iff.mp hc).1
        rwa [hok.1] at this
      have hy1 : pos / dimX < dimY := by
        rw [← hok.2.1 col (List.getElem?_mem hc)]; exact hy
      rcases hcase with ⟨_, hrec, hacc⟩ | ⟨hv0, b1, hs, hrec, hacc⟩
      · rw [inc16_dec16 b hlt] at hrec hacc
        rw [hacc]
        obtain ⟨i1, i2, i3, i4, i5⟩ := ih b bombs out hrec hok hp hle hlt
        exact ⟨i1, i2, i3, i4, List.Sublist.cons _ i5⟩
      · obtain ⟨hok1, hat⟩ := helperSet_ok hs hok
        have hpl := placed_set hx hy1 (by rw [← hv]; exact hv0) hat
        by_cases hbig : b + 1 < 65536
        · rw [inc16_of_lt b hbig] at hrec hacc
          rw [hacc]
          obtain ⟨i1, i2, i3, i4, i5⟩ :=
            ih (b + 1) b1 out hrec hok1 (by omega) (by omega) hbig
          have hplt : pos < dimX * dimY := by
            have := cellAddr_lt hx hy1
            rwa [cellAddr_mod_div] at this
          have hold : bombAt dimX bombs (pos) = false := by
            unfold bombAt
            rw [← hv, hv0]
            rfl
          have hnew : ∀ j, bombAt dimX b1 j = true ↔
              (bombAt dimX bombs j = true ∨ j = pos) := by
            intro j
            unfold bombAt
            rw [hat]
            by_cases hj : j = pos
            · subst hj; simp
            · have : ¬(j % dimX = pos % dimX ∧
                  j / dimX = pos / dimX) := by
                rintro ⟨e1, e2⟩
                apply hj
                rw [← cellAddr_mod_div dimX j, e1, e2, cellAddr_mod_div]
              simp [this, hj]
          refine ⟨?_, ?_, ?_, ?_, ?_⟩
          · refine List.nodup_cons.mpr ⟨fun hmem => ?_, i1⟩
            have := (i3 _ hmem).2
            rw [Bool.eq_false_iff] at this
            exact this ((hnew _).mpr (Or.inr rfl))
          · simp only [List.length_cons]; omega
          · intro p hpm
            rcases List.mem_cons.mp hpm with e | hpm1
            · subst e; exact ⟨hplt, hold⟩
            · refine ⟨(i3 p hpm1).1, ?_⟩
              have := (i3 p hpm1).2
              rw [Bool.eq_false_iff] at this ⊢
              exact fun hbomb => this ((hnew p).mpr (Or.inl hbomb))
          · intro j
            rw [i4 j, hnew j, List.mem_cons]
            tauto
          · exact List.Sublist.cons₂ _ i5
        · exact absurd h (placeBombs_never dimX dimY nBombs (by omega) _ _ _ _ hlt)
    · rw [placeBombs] at h
      simp only [hb, if_false, Except.ok.injEq] at h
      subst h
      rw [acceptedDraws]
      simp only [hb, if_false]
      exact ⟨List.nodup_nil, by simp; omega, by simp, by simp, List.nil_sublist _⟩

/-- The helper matrix from which `Matrix::reset` builds the heap is the one the
placement loop returns. -/
theorem reset_fields {w0 g : World} {d : Dimensions} {draws : List Nat}
    (h : reset w0 d draws = .ok g) :
    ∃ bombs, placeBombs d.x d.y d.bombs 0 (List.replicate d.x (List.replicate d.y 0)) draws
        = .ok bombs ∧ g.fields = gridFields d.x d.y bombs := by
  unfold reset at h
  cases hd : deleteMatrix w0 with
  | error e => simp [hd] at h
  | ok w1 =>
    simp only [hd] at h
    cases hp : placeBombs d.x d.y d.bombs 0 (List.replicate d.x (List.replicate d.y 0)) draws with
    | error e => simp [hp] at h
    | ok bombs =>
      simp only [hp, Except.ok.injEq] at h
      subst h
      refine ⟨bombs, rfl, ?_⟩
      simp only [SIGNAL_GAMESTATUSCHANGED]
      exact built_fields d.x d.y bombs


/-- C13: when `reset` returns, the heap holds one cell per position of the
`d.x` x `d.y` rectangle (the cell at address `cellAddr d.x x y` has the position (x, y),
and the address of every cell is given by its position); exactly `d.bombs` cells are
bombs; the positions the placement loop accepted are pairwise distinct positions of
draws inside the rectangle, there are `d.bombs` of them, and a cell is a bomb exactly
when its position is (p % d.x, p / d.x) for an accepted position p. -/
theorem C13_reset_cells (w0 g : World) (d : Dimensions) (draws : List Nat)
    (h : reset w0 d draws = .ok g) :
    g.fields.length = d.x * d.y ∧
    (∀ x y, x < d.x → y < d.y →
      ∃ f, g.fields[cellAddr d.x x y]? = some f ∧ f.pos = ⟨x, y⟩) ∧
    (∀ j f, g.fields[j]? = some f →
      f.pos.X < d.x ∧ f.pos.Y < d.y ∧ j = cellAddr d.x f.pos.X f.pos.Y) ∧
    g.fields.countP (fun f => f.isBomb) = d.bombs ∧
    (acceptedDraws d.x d.y d.bombs 0 (List.replicate d.x (List.replicate d.y 0)) draws).Nodup ∧
    (acceptedDraws d.x d.y d.bombs 0 (List.replicate d.x (List.replicate d.y 0)) draws).length
      = d.bombs ∧
    (acceptedDraws d.x d.y d.bombs 0 (List.replicate d.x (List.replicate d.y 0)) draws).Sublist
      (draws.map (drawPosition d.x d.y)) ∧
    (∀ p ∈ acceptedDraws d.x d.y d.bombs 0 (List.replicate d.x (List.replicate d.y 0)) draws,
      p < d.x * d.y) ∧
    (∀ f ∈ g.fields, f.isBomb = true ↔
      ∃ p ∈ acceptedDraws d.x d.y d.bombs 0 (List.replicate d.x (List.replicate d.y 0)) draws,
        f.pos = ⟨p % d.x, p / d.x⟩) := by
  obtain ⟨bombs, hplace, hfields⟩ := reset_fields h
  obtain ⟨hok, hpl⟩ := placeBombs_spec d.x d.y d.bombs draws 0 _ bombs hplace
    (zeros_ok d.x d.y).1 (zeros_ok d.x d.y).2 (Nat.zero_le _) (by decide)
  obtain ⟨a1, a2, a3, a4, a5⟩ := placeBombs_accepted d.x d.y d.bombs draws 0 _ bombs hplace
    (zeros_ok d.x d.y).1 (zeros_ok d.x d.y).2 (Nat.zero_le _) (by decide)
  generalize acceptedDraws d.x d.y d.bombs 0 (List.replicate d.x (List.replicate d.y 0)) draws
    = acc at a1 a2 a3 a4 a5 ⊢
  have hz : ∀ j, bombAt d.x (List.replicate d.x (List.replicate d.y 0)) j = false := by
    intro j
    simp [bombAt, helperAt_zeros]
  refine ⟨by rw [hfields]; simp [gridFields], ?_, ?_, ?_, a1, by omega, a5,
    fun p hp => (a3 p hp).1, ?_⟩
  · intro x y hx hy
    refine ⟨gridField d.x d.y bombs (cellAddr d.x x y), ?_, ?_⟩
    · rw [hfields, gridFields_get, if_pos (cellAddr_lt hx hy)]
    · simp only [gridField]
      rw [(cellAddr_coords hx).1, (cellAddr_coords hx).2]
  · intro j f hf
    rw [hfields] at hf
    obtain ⟨hj, rfl⟩ := gridFields_get_some hf
    have hpos : 0 < d.x := by
      rcases Nat.eq_zero_or_pos d.x with h0 | h0
      · rw [h0] at hj; simp at hj
      · exact h0
    simp only [gridField]
    exact ⟨Nat.mod_lt _ hpos, Nat.div_lt_of_lt_mul hj, (cellAddr_mod_div d.x j).symm⟩
  · rw [hfields, countP_isBomb_grid, hpl]
  · intro f hf
    obtain ⟨j, hj⟩ := List.mem_iff_getElem?.mp hf
    rw [hfields] at hj
    obtain ⟨hjlt, rfl⟩ := gridFields_get_some hj
    simp only [gridField]
    rw [a4 j, hz j]
    constructor
    · rintro (h1 | h1)
      · exact absurd h1 (by simp)
      · exact ⟨j, h1, rfl⟩
    · rintro ⟨p, hp, he⟩
      right
      have e1 : j % d.x = p % d.x := congrArg Position.X he
      have e2 : j / d.x = p / d.x := congrArg Position.Y he
      have : j = p := by
        rw [← cellAddr_mod_div d.x j, e1, e2, cellAddr_mod_div]
      rw [this]
      exact hp

set_option maxRecDepth 8000 in
/-- C13, on the 3x2 grid with four bombs and the draws 0, 0, 2, 3, 3, 5: the accepted
positions are 0, 2, 3 and 5, and four of the six cells are bombs. -/
theorem C13_reset_cells_witness :
    reset World.init (Dimensions.new 3 2 4) [0, 0, 2, 3, 3, 5] = .ok grid3x2 ∧
    acceptedDraws 3 2 4 0 (List.replicate 3 (List.replicate 2 0)) [0, 0, 2, 3, 3, 5]
      = [0, 2, 3, 5] ∧
    grid3x2.fields.length = 6 ∧ grid3x2.fields.countP (fun f => f.isBomb) = 4 :=
  ⟨rfl, by decide,
    (C13_reset_cells World.init grid3x2 (Dimensions.new 3 2 4) [0, 0, 2, 3, 3, 5] rfl).1,
    (C13_reset_cells World.init grid3x2 (Dimensions.new 3 2 4) [0, 0, 2, 3, 3, 5] rfl).2.2.2.1⟩

/-! ### Dimensions -/

theorem int32_le (P : Int) (h : 0 ≤ P) : int32 P ≤ P := by
  unfold int32
  omega

theorem int32_mod16 (P : Int) : int32 P % 65536 = P % 65536 := by
  unfold int32
  omega

theorem setBombs_inv (d : Dimensions) (b : Nat) :
    (d.setBombs b).x = d.x ∧ (d.setBombs b).y = d.y ∧ (d.setBombs b).bombs ≤ d.x * d.y := by
  have h0 : (0 : Int) ≤ (d.x : Int) * (d.y : Int) := by positivity
  have hc : ((d.x * d.y : Nat) : Int) = (d.x : Int) * (d.y : Int) := by push_cast; rfl
  have h1 := int32_le _ h0
  have h2 := int32_mod16 ((d.x : Int) * (d.y : Int))
  unfold Dimensions.setBombs
  generalize (d.x : Int) * (d.y : Int) = P at h0 hc h1 h2 ⊢
  generalize d.x * d.y = N at hc ⊢
  generalize int32 P = Q at h1 h2 ⊢
  split_ifs with hgt
  · refine ⟨rfl, rfl, ?_⟩
    show (Q % 65536).toNat ≤ N
    omega
  · refine ⟨rfl, rfl, ?_⟩
    show b ≤ N
    omega

theorem setBombs_small (d : Dimensions) (b : Nat) (hb : b < 65536)
    (hP : d.x * d.y ≤ 2147483647) :
    d.setBombs b = { d with bombs := min b (d.x * d.y) } := by
  have h0 : (0 : Int) ≤ (d.x : Int) * (d.y : Int) := by positivity
  have hc : ((d.x * d.y : Nat) : Int) = (d.x : Int) * (d.y : Int) := by push_cast; rfl
  have h1 : int32 ((d.x : Int) * (d.y : Int)) = (d.x : Int) * (d.y : Int) := by
    have : (d.x : Int) * (d.y : Int) ≤ 2147483647 := by rw [← hc]; exact_mod_cast hP
    unfold int32
    omega
  unfold Dimensions.setBombs
  rw [h1]
  generalize (d.x : Int) * (d.y : Int) = P at h0 hc h1 ⊢
  generalize d.x * d.y = N at hc hP ⊢
  split_ifs with hgt
  · have e1 : min b N = N := by omega
    have e2 : (P % 65536).toNat = N := by omega
    rw [e1, e2]
  · have e1 : min b N = b := by omega
    rw [e1]

theorem dimCall_inv (d : Dimensions) (c : DimCall) :
    (c.run d).bombs ≤ (c.run d).x * (c.run d).y := by
  cases c with
  | setX v =>
    obtain ⟨h1, h2, h3⟩ := setBombs_inv { d with x := v } d.bombs
    show (Dimensions.setBombs { d with x := v } d.bombs).bombs
      ≤ (Dimensions.setBombs { d with x := v } d.bombs).x
        * (Dimensions.setBombs { d with x := v } d.bombs).y
    rw [h1, h2]
    exact h3
  | setY v =>
    obtain ⟨h1, h2, h3⟩ := setBombs_inv { d with y := v } d.bombs
    show (Dimensions.setBombs { d with y := v } d.bombs).bombs
      ≤ (Dimensions.setBombs { d with y := v } d.bombs).x
        * (Dimensions.setBombs { d with y := v } d.bombs).y
    rw [h1, h2]
    exact h3
  | setBombs v =>
    obtain ⟨h1, h2, h3⟩ := setBombs_inv d v
    show (d.setBombs v).bombs ≤ (d.setBombs v).x * (d.setBombs v).y
    rw [h1, h2]
    exact h3

theorem dimCalls_inv (calls : List DimCall) :
    ∀ d : Dimensions, d.bombs ≤ d.x * d.y →
      (calls.foldl DimCall.run d).bombs
        ≤ (calls.foldl DimCall.run d).x * (calls.foldl DimCall.run d).y := by
  induction calls with
  | nil => intro d h; exact h
  | cons c rest ih =>
    intro d _
    exact ih (c.run d) (dimCall_inv d c)

theorem new_inv (w h b : Nat) :
    (Dimensions.new w h b).bombs ≤ (Dimensions.new w h b).x * (Dimensions.new w h b).y := by
  obtain ⟨h1, h2, h3⟩ := setBombs_inv ((Dimensions.zero.setX w).setY h) b
  unfold Dimensions.new
  rw [h1, h2]
  exact h3

/-- The constructor without overflow of the `int` product: the width and height
given and the bomb count clamped to the number of fields. -/
theorem new_small (w h b : Nat) (hb : b < 65536) (hP : w * h ≤ 2147483647) :
    Dimensions.new w h b = { x := w, y := h, bombs := min b (w * h) } := by
  have e1 : Dimensions.zero.setX w = { x := w, y := 0, bombs := 0 } := by
    show Dimensions.setBombs { x := w, y := 0, bombs := 0 } 0 = _
    rw [setBombs_small { x := w, y := 0, bombs := 0 } 0 (Nat.zero_lt_succ _)
      (Nat.zero_le _)]
    simp
  have e2 : Dimensions.setY { x := w, y := 0, bombs := 0 } h = { x := w, y := h, bombs := 0 } := by
    show Dimensions.setBombs { x := w, y := h, bombs := 0 } 0 = _
    rw [setBombs_small { x := w, y := h, bombs := 0 } 0 (Nat.zero_lt_succ _) hP]
    simp
  unfold Dimensions.new
  rw [e1, e2, setBombs_small _ b hb hP]

/-- C14 fails where the `int` product `x * y` overflows: `Dimensions(65535, 65535, 7)`
has the width and height given but the bomb count 1, not min(7, 65535 * 65535) = 7,
and `Dimensions(65535, 65535, 0)` has the bomb count 1 as well. -/
theorem C14_clamp_overflow :
    (Dimensions.new 65535 65535 7).x = 65535 ∧ (Dimensions.new 65535 65535 7).y = 65535 ∧
    (Dimensions.new 65535 65535 7).bombs = 1 ∧ min 7 (65535 * 65535) = 7 ∧
    (Dimensions.new 65535 65535 0).bombs = 1 := by
  decide

/-- C15: from either constructor, after every call of a finite sequence of `setX`,
`setY` and `setBombs` calls, whatever the arguments, the bomb count is at most the
product of width and height. -/
theorem C15_bombs_le_fields (w h b : Nat) (calls : List DimCall) (k : Nat) :
    ((calls.take k).foldl DimCall.run Dimensions.zero).bombs
      ≤ ((calls.take k).foldl DimCall.run Dimensions.zero).x
        * ((calls.take k).foldl DimCall.run Dimensions.zero).y ∧
    ((calls.take k).foldl DimCall.run (Dimensions.new w h b)).bombs
      ≤ ((calls.take k).foldl DimCall.run (Dimensions.new w h b)).x
        * ((calls.take k).foldl DimCall.run (Dimensions.new w h b)).y :=
  ⟨dimCalls_inv _ Dimensions.zero (by decide), dimCalls_inv _ _ (new_inv w h b)⟩

/-- C15, on `Dimensions(3, 2, 4)` followed by `setX(1)`, `setBombs(9)`, `setY(0)`: after
the first two calls the object is 1 x 2 with 2 bombs. -/
theorem C15_bombs_le_fields_witness :
    ([DimCall.setX 1, DimCall.setBombs 9, DimCall.setY 0].take 2).foldl DimCall.run
        (Dimensions.new 3 2 4) = { x := 1, y := 2, bombs := 2 } ∧
    (([DimCall.setX 1, DimCall.setBombs 9, DimCall.setY 0].take 2).foldl DimCall.run
        (Dimensions.new 3 2 4)).bombs
      ≤ (([DimCall.setX 1, DimCall.setBombs 9, DimCall.setY 0].take 2).foldl DimCall.run
          (Dimensions.new 3 2 4)).x
        * (([DimCall.setX 1, DimCall.setBombs 9, DimCall.setY 0].take 2).foldl DimCall.run
          (Dimensions.new 3 2 4)).y :=
  ⟨by decide,
    (C15_bombs_le_fields 3 2 4 [DimCall.setX 1, DimCall.setBombs 9, DimCall.setY 0] 2).2⟩

/-! ### Access by coordinates -/

theorem access_eq (w : World) (x y : Nat) :
    Matrix.access w x y =
      if x ≥ w.dim.x then .error ⟨x, w.dim.x, 'X'⟩
      else if y ≥ w.dim.y then .error ⟨y, w.dim.y, 'Y'⟩
      else .ok (cellAddr w.dim.x x y) := by
  unfold Matrix.access Matrix.index Proxy.index
  by_cases hx : x ≥ w.dim.x
  · simp only [hx, if_true]
  · by_cases hy : y ≥ w.dim.y
    · simp only [hx, hy, if_true, if_false]
    · simp only [hx, hy, if_false]

theorem default_ok (draws : List Nat) : Matrix.default draws = .ok World.init := by
  unfold Matrix.default reset
  cases draws <;> rfl

/-- C16: in every state of a grid built by `reset(d)`, the access `matrix[x][y]` throws
the exception (x, d.x, 'X') when x >= d.x, whatever y is; throws (y, d.y, 'Y') when
x < d.x and y >= d.y; and otherwise returns the address of a field whose position is
(x, y).  On the grid of the default constructor every access throws. -/
theorem C16_index_access (w0 g w : World) (d : Dimensions) (draws : List Nat) (c : Bool)
    (hreset : reset w0 d draws = .ok g) (hreach : Reach g c w) (x y : Nat) :
    (x ≥ d.x → Matrix.access w x y = .error ⟨x, d.x, 'X'⟩) ∧
    (x < d.x → y ≥ d.y → Matrix.access w x y = .error ⟨y, d.y, 'Y'⟩) ∧
    (x < d.x → y < d.y →
      ∃ a f, Matrix.access w x y = .ok a ∧ w.fields[a]? = some f ∧ f.pos = ⟨x, y⟩) ∧
    (∀ (draws0 : List Nat) (x0 y0 : Nat), ∃ g0, Matrix.default draws0 = .ok g0 ∧
      Matrix.access g0 x0 y0 = .error ⟨x0, 0, 'X'⟩) := by
  obtain ⟨evs, r, -⟩ := reach_run hreach
  obtain ⟨bombs, -, -, hfields, hdim, -⟩ := reset_ok hreset
  have hfr := r.frame
  have hd : w.dim = d := by rw [hfr.2.2, hdim]
  rw [access_eq, hd]
  refine ⟨fun hx => by rw [if_pos hx], fun hx hy => ?_, fun hx hy => ?_, ?_⟩
  · rw [if_neg (by omega), if_pos hy]
  · rw [if_neg (by omega), if_neg (by omega)]
    have h0 : g.fields[cellAddr d.x x y]? = some (gridField d.x d.y bombs (cellAddr d.x x y)) := by
      rw [hfields, gridFields_get, if_pos (cellAddr_lt hx hy)]
    obtain ⟨f1, hf1, hs⟩ := hfr.get h0
    refine ⟨_, f1, rfl, hf1, ?_⟩
    rw [(shape_eq hs).2.1]
    simp only [gridField]
    rw [(cellAddr_coords hx).1, (cellAddr_coords hx).2]
  · intro draws0 x0 y0
    refine ⟨World.init, default_ok draws0, ?_⟩
    rw [access_eq]
    exact if_pos (Nat.zero_le _)

/-- C16, on the 2x2 grid: `matrix[2][5]` throws (2, 2, 'X'), `matrix[1][2]` throws
(2, 2, 'Y') and `matrix[1][0]` returns the field at address 1. -/
theorem C16_index_access_witness :
    (reset World.init (Dimensions.new 2 2 1) [3] = .ok grid2x2 ∧ Reach grid2x2 false grid2x2) ∧
    Matrix.access grid2x2 2 5 = .error ⟨2, 2, 'X'⟩ ∧
    Matrix.access grid2x2 1 2 = .error ⟨2, 2, 'Y'⟩ ∧
    Matrix.access grid2x2 1 0 = .ok 1 :=
  ⟨⟨rfl, Reach.init⟩,
    (C16_index_access World.init grid2x2 grid2x2 (Dimensions.new 2 2 1) [3] false rfl
      Reach.init 2 5).1 (by decide),
    (C16_index_access World.init grid2x2 grid2x2 (Dimensions.new 2 2 1) [3] false rfl
      Reach.init 1 2).2.1 (by decide) (by decide),
    rfl⟩

/-! ### The counter of marked fields -/

theorem cycleMark_hidden (w : World) (i : Nat) (f : Field) (hf : w.fields[i]? = some f)
    (hs : f.status = .FS_HIDDEN) (ho : f.observers = [FieldObserver.impl]) :
    ∃ w1, cycleMark w i = some w1 ∧
      w1.fields = w.fields.set i { f with status := .FS_MARKED } ∧
      w1.marked = inc16 w.marked ∧ w1.dim = w.dim := by
  refine ⟨fire w i f .FS_MARKED, cycleMark_change w i f .FS_MARKED hf (Or.inl ⟨hs, rfl⟩),
    fire_fields w i f _, ?_, fire_dim w i f _⟩
  rw [(fire_impl_state w i f .FS_MARKED ho).2.2.1]
  rfl

/-- Marking the first `k` cells of a grid whose cells are all Hidden and observed by
the grid alone: the calls succeed, `k` fields are Marked afterwards, and the counter
`marked` holds `k` reduced to 16 bits. -/
theorem markFirst_spec (g : World)
    (hall : ∀ f ∈ g.fields, f.status = .FS_HIDDEN ∧ f.observers = [FieldObserver.impl])
    (hm : g.marked = 0) :
    ∀ k, k ≤ g.fields.length →
      ∃ w, markFirst k g = some w ∧ (∃ c, Reach g c w) ∧
        w.fields.length = g.fields.length ∧
        (∀ j f, w.fields[j]? = some f → f.observers = [FieldObserver.impl] ∧
          (k ≤ j → f.status = .FS_HIDDEN)) ∧
        w.fields.countP (fun f => decide (f.status = .FS_MARKED)) = k ∧
        w.marked = k % 65536 ∧ w.dim = g.dim := by
  intro k
  induction k with
  | zero =>
    intro _
    refine ⟨g, rfl, ⟨false, Reach.init⟩, rfl, ?_, ?_, by rw [hm], rfl⟩
    · intro j f hf
      have := hall f (List.getElem?_mem hf)
      exact ⟨this.2, fun _ => this.1⟩
    · rw [List.countP_eq_zero]
      intro f hf
      simp [(hall f hf).1]
  | succ k ih =>
    intro hk
    obtain ⟨w, hmk, ⟨c, hreach⟩, hlen, hfs, hcnt, hmarked, hdim⟩ := ih (by omega)
    have hlt : k < w.fields.length := by omega
    obtain ⟨f, hf⟩ : ∃ f, w.fields[k]? = some f := ⟨w.fields[k], List.getElem?_eq_getElem hlt⟩
    obtain ⟨ho, hs⟩ := hfs k f hf
    obtain ⟨w1, hc, hfields, hmarked1, hdim1⟩ := cycleMark_hidden w k f hf (hs (le_refl _)) ho
    refine ⟨w1, ?_, ⟨_, Reach.cycleMark hreach hc⟩, ?_, ?_, ?_, ?_, by rw [hdim1, hdim]⟩
    · show (match markFirst k g with
        | none => none
        | some w1 => cycleMark w1 k) = some w1
      rw [hmk]
      exact hc
    · rw [hfields, List.length_set, hlen]
    · intro j fj hfj
      rw [hfields, List.getElem?_set] at hfj
      split_ifs at hfj with h1
      · simp only [Option.some.injEq] at hfj
        subst hfj
        exact ⟨ho, fun h => by omega⟩
      · exact ⟨(hfs j fj hfj).1, fun h => (hfs j fj hfj).2 (by omega)⟩
    · have := countP_set_status w.fields k f .FS_MARKED .FS_MARKED hf
      rw [hfields]
      rw [hs (le_refl _)] at this
      simp only [if_true] at this
      rw [if_neg (by decide)] at this
      omega
    · rw [hmarked1, hmarked]
      unfold inc16
      omega

theorem reset_no_bombs (d : Dimensions) (draws : List Nat) (hb : d.bombs = 0) :
    ∃ g, reset World.init d draws = .ok g := by
  have hp : placeBombs d.x d.y d.bombs 0 (List.replicate d.x (List.replicate d.y 0)) draws
      = .ok (List.replicate d.x (List.replicate d.y 0)) := by
    rw [hb]
    cases draws <;> simp [placeBombs]
  have hd : deleteMatrix World.init = .ok World.init := rfl
  unfold reset
  rw [hd]
  simp only [hp]
  exact ⟨_, rfl⟩

/-- On a grid of at most 65535 cells `getRemainingBombs()` is the configured bomb count
minus the number of Marked fields. -/
theorem remaining_small {w0 g w : World} {d : Dimensions} {draws : List Nat} {c : Bool}
    (h : reset w0 d draws = .ok g) (hsize : d.x * d.y ≤ 65535) (hr : Reach g c w) :
    getRemainingBombs w
      = (d.bombs : Int) - (w.fields.countP (fun f => decide (f.status = .FS_MARKED)) : Int) := by
  obtain ⟨hinv, -, hfr⟩ := reach_inv h hsize hr
  obtain ⟨bombs, -, -, -, hdim, -⟩ := reset_ok h
  unfold getRemainingBombs
  rw [hinv.marked, hfr.2.2, hdim]

/-- C17 fails on a grid of 65536 cells: after `cycleMark()` on every cell of the
256 x 256 grid without bombs, 65536 fields are Marked, the `uint16_t` counter `marked`
has wrapped to 0 and `getRemainingBombs()` returns 0, not 0 - 65536. -/
theorem C17_marked_wraps :
    ∃ g w, reset World.init (Dimensions.new 256 256 0) [] = .ok g ∧
      markFirst 65536 g = some w ∧ (∃ c, Reach g c w) ∧
      w.fields.countP (fun f => decide (f.status = .FS_MARKED)) = 65536 ∧
      getRemainingBombs w = 0 ∧
      getRemainingBombs w ≠ ((Dimensions.new 256 256 0).bombs : Int) - 65536 := by
  have hd : Dimensions.new 256 256 0 = { x := 256, y := 256, bombs := 0 } := by decide
  rw [hd]
  obtain ⟨g, hg⟩ := reset_no_bombs { x := 256, y := 256, bombs := 0 } [] rfl
  obtain ⟨bombs, -, -, hfields, hdim, -, -, hm, -, -⟩ := reset_ok hg
  have hall : ∀ f ∈ g.fields, f.status = .FS_HIDDEN ∧ f.observers = [FieldObserver.impl] := by
    intro f hf
    rw [hfields] at hf
    obtain ⟨p, -, rfl⟩ := gridField_mem hf
    exact ⟨rfl, rfl⟩
  have hlen : g.fields.length = 65536 := by
    rw [hfields]
    simp [gridFields]
  obtain ⟨w, hmk, hreach, -, -, hcnt, hmarked, hdimw⟩ :=
    markFirst_spec g hall hm 65536 (by rw [hlen])
  have hrem : getRemainingBombs w = 0 := by
    unfold getRemainingBombs
    rw [hmarked, hdimw, hdim]
    decide
  refine ⟨g, w, hg, hmk, hreach, hcnt, hrem, ?_⟩
  rw [hrem]
  decide

/-! ### The state after a reset -/

/-- C18: when `reset(d)` returns, from whatever state, `getDimensions()` is `d`, the
status is `GS_READY`, `getRemainingBombs()` is `d.bombs`, the three counters are 0 and
every field of the new heap is Hidden. -/
theorem C18_reset_state (w g : World) (d : Dimensions) (draws : List Nat)
    (h : reset w d draws = .ok g) :
    getDimensions g = d ∧ getStatus g = .GS_READY ∧ getRemainingBombs g = (d.bombs : Int) ∧
    g.unhidden = 0 ∧ g.marked = 0 ∧ g.queried = 0 ∧
    g.fields.length = d.x * d.y ∧ ∀ f ∈ g.fields, f.status = .FS_HIDDEN := by
  obtain ⟨bombs, -, -, hfields, hdim, hstatus, hu, hm, hq, -⟩ := reset_ok h
  refine ⟨hdim, hstatus, ?_, hu, hm, hq, ?_, ?_⟩
  · unfold getRemainingBombs
    rw [hm, hdim]
    simp
  · rw [hfields]
    simp [gridFields]
  · intro f hf
    rw [hfields] at hf
    obtain ⟨p, -, rfl⟩ := gridField_mem hf
    rfl

/-- C18, on the lost 1x1 grid: after `reset(Dimensions(1, 1, 1))` the status is
`GS_READY` again, one bomb remains and the cell is Hidden. -/
theorem C18_reset_state_witness :
    (getStatus bomb1x1Lost = .GS_LOST ∧
      reset bomb1x1Lost (Dimensions.new 1 1 1) [0] = .ok bomb1x1Again) ∧
    getStatus bomb1x1Again = .GS_READY ∧ getRemainingBombs bomb1x1Again = 1 ∧
    ∀ f ∈ bomb1x1Again.fields, f.status = .FS_HIDDEN :=
  ⟨⟨by decide, rfl⟩,
    (C18_reset_state bomb1x1Lost bomb1x1Again (Dimensions.new 1 1 1) [0] rfl).2.1,
    (C18_reset_state bomb1x1Lost bomb1x1Again (Dimensions.new 1 1 1) [0] rfl).2.2.1,
    (C18_reset_state bomb1x1Lost bomb1x1Again (Dimensions.new 1 1 1) [0] rfl).2.2.2.2.2.2.2⟩

/-! ### The calls on the grid observers -/

theorem receivedBy_append (o : Nat) (a b : List Notification) :
    receivedBy o (a ++ b) = receivedBy o a ++ receivedBy o b := by
  simp [receivedBy]

theorem receivedBy_map (o : Nat) (f : Nat → Notification)
    (hf : ∀ p, (f p).matrixObserver = some p) :
    ∀ obs : List Nat, obs.count o = 1 → receivedBy o (obs.map f) = [f o] := by
  have h0 : ∀ obs : List Nat, obs.count o = 0 → receivedBy o (obs.map f) = [] := by
    intro obs
    induction obs with
    | nil => intro _; rfl
    | cons a rest ih =>
      intro hc
      rw [List.count_cons] at hc
      have ha : ¬(a = o) := by
        intro e
        rw [e] at hc
        simp at hc
      have hr : rest.count o = 0 := by omega
      simp only [receivedBy, List.map_cons, List.filter_cons, hf, Option.some.injEq, ha,
        decide_False, Bool.false_eq_true, if_false]
      exact ih hr
  intro obs
  induction obs with
  | nil => intro hc; simp at hc
  | cons a rest ih =>
    intro hc
    rw [List.count_cons] at hc
    by_cases ha : a = o
    · subst ha
      have hr : rest.count a = 0 := by simpa using hc
      simp only [receivedBy, List.map_cons, List.filter_cons, hf, decide_True, if_true]
      rw [show List.filter (fun n => decide (n.matrixObserver = some a)) (rest.map f)
        = receivedBy a (rest.map f) from rfl, h0 rest hr]
    · have hr : rest.count o = 1 := by simpa [ha] using hc
      simp only [receivedBy, List.map_cons, List.filter_cons, hf, Option.some.injEq, ha,
        decide_False, Bool.false_eq_true, if_false]
      exact ih hr

theorem handlerCalls_received (obs : List Nat) (o : Nat) (field : Nat) (s : FIELDSTATUS)
    (remaining : Int) (old new : GAMESTATUS) (hc : obs.count o = 1) :
    receivedBy o (handlerCalls obs field s remaining old new)
      = handlerCalls [o] field s remaining old new := by
  unfold handlerCalls
  rw [receivedBy_append, receivedBy_append,
    receivedBy_map o (fun o => Notification.onFieldStatusChanged o field s) (fun _ => rfl) obs hc]
  split_ifs
  · rw [receivedBy_map o (fun o => Notification.onRemainingBombsChanged o remaining)
        (fun _ => rfl) obs hc,
      receivedBy_map o (fun o => Notification.onGameStatusChanged o new) (fun _ => rfl) obs hc]
    rfl
  · rw [receivedBy_map o (fun o => Notification.onRemainingBombsChanged o remaining)
        (fun _ => rfl) obs hc]
    rfl
  · rw [receivedBy_map o (fun o => Notification.onGameStatusChanged o new) (fun _ => rfl) obs hc]
    rfl
  · rfl

theorem handler_log (w : World) (field : Nat) (s : FIELDSTATUS) :
    (onFieldStatusChanged w field s).log = w.log ++
      handlerCalls w.observers field s
        ((w.dim.bombs : Int) - ((logFieldStatus w s).marked : Int))
        w.status (deriveStatus (logFieldStatus w s)).status := by
  have h1 := logFieldStatus_frame w s
  have h2 := deriveStatus_frame (logFieldStatus w s)
  have hl : (deriveStatus (logFieldStatus w s)).log = w.log := h2.2.2.2.1.trans h1.2.2.2
  have ho : (deriveStatus (logFieldStatus w s)).observers = w.observers := h2.2.1.trans h1.2.1
  have hd : (deriveStatus (logFieldStatus w s)).dim = w.dim := h2.2.2.1.trans h1.2.2.1
  have hm : (deriveStatus (logFieldStatus w s)).marked = (logFieldStatus w s).marked :=
    h2.2.2.2.2.2.1
  unfold onFieldStatusChanged handlerCalls
  simp only [SIGNAL_MATRIX_FIELDSTATUSCHANGED, SIGNAL_REMAININGBOMBSCHANGED,
    SIGNAL_GAMESTATUSCHANGED]
  split_ifs <;> simp only [hl, ho, hd, hm, List.append_assoc, List.append_nil, List.nil_append]


/-- C19: the handler `Matrix::Impl::onFieldStatusChanged` appends to the log exactly
these calls, in this order: for every grid observer a field-status call for the cell
and the new status; then, exactly when the new status is Marked or Queried, for every
observer a remaining-bombs call carrying `bombs - marked` with the counter as updated
by this event; then, exactly when the game status differs from its value before the
event, for every observer a game-status call carrying the new status.  An observer
that is registered once receives one call of each of these groups, in this order. -/
theorem C19_handler_order (w : World) (field : Nat) (s : FIELDSTATUS) :
    (onFieldStatusChanged w field s).log = w.log ++
      handlerCalls w.observers field s
        (((onFieldStatusChanged w field s).dim.bombs : Int)
          - ((onFieldStatusChanged w field s).marked : Int))
        w.status (onFieldStatusChanged w field s).status ∧
    (onFieldStatusChanged w field s).marked = (logFieldStatus w s).marked ∧
    (onFieldStatusChanged w field s).dim = w.dim ∧
    ∀ o, w.observers.count o = 1 →
      receivedBy o ((onFieldStatusChanged w field s).log.drop w.log.length)
        = [Notification.onFieldStatusChanged o field s] ++
          ((if s = .FS_MARKED ∨ s = .FS_QUERIED then
              [Notification.onRemainingBombsChanged o
                (((onFieldStatusChanged w field s).dim.bombs : Int)
                  - ((onFieldStatusChanged w field s).marked : Int))]
            else []) ++
          (if (onFieldStatusChanged w field s).status ≠ w.status then
              [Notification.onGameStatusChanged o (onFieldStatusChanged w field s).status]
            else [])) := by
  have hst := onFieldStatusChanged_state w field s
  have hdim := onFieldStatusChanged_dim w field s
  have hlog := handler_log w field s
  rw [← hst.1, ← hst.2.2.1, ← hdim] at hlog
  refine ⟨hlog, hst.2.2.1, hdim, ?_⟩
  intro o ho
  rw [hlog, List.drop_left, handlerCalls_received _ _ _ _ _ _ _ ho]
  rfl

/-- C19, on the grid of `callback_test` (2x2, one bomb, one observer): for the first
Marked event of cell (0,0) the observer receives the field-status call, a
remaining-bombs call carrying 0 and a game-status call carrying `GS_RUNNING`; these
are the calls it receives during `cycleMark()` on that cell. -/
theorem C19_handler_order_witness :
    observed2x2.observers.count 0 = 1 ∧
    receivedBy 0 ((onFieldStatusChanged observed2x2 0 .FS_MARKED).log.drop observed2x2.log.length)
      = [Notification.onFieldStatusChanged 0 0 .FS_MARKED,
         Notification.onRemainingBombsChanged 0 0,
         Notification.onGameStatusChanged 0 .GS_RUNNING] ∧
    ∃ w1, cycleMark observed2x2 (cellAddr 2 0 0) = some w1 ∧
      receivedBy 0 (w1.log.drop observed2x2.log.length)
        = [Notification.onFieldStatusChanged 0 0 .FS_MARKED,
           Notification.onRemainingBombsChanged 0 0,
           Notification.onGameStatusChanged 0 .GS_RUNNING] :=
  ⟨by decide,
    ((C19_handler_order observed2x2 0 .FS_MARKED).2.2.2 0 (by decide)).trans (by decide),
    ⟨_, rfl, by decide⟩⟩

/-! ### The calls of a reset -/

theorem notifyFieldDelete_log (i : Nat) (w : World) (o : FieldObserver) :
    ∃ del, (notifyFieldDelete i w o).log = w.log ++ del ∧
      (∀ n ∈ del, isGameStatusCall n = false) ∧ (notifyFieldDelete i w o).observers = w.observers := by
  cases o with
  | impl =>
    refine ⟨[Notification.fieldDelete .impl i]
      ++ w.observers.map (fun o => Notification.onFieldDelete o i), ?_, ?_, rfl⟩
    · simp [notifyFieldDelete, onFieldDelete, SIGNAL_MATRIX_FIELDDELETE]
    · intro n hn
      simp only [List.mem_append, List.mem_singleton, List.mem_map] at hn
      rcases hn with rfl | ⟨p, -, rfl⟩ <;> rfl
  | client k =>
    refine ⟨[Notification.fieldDelete (.client k) i], rfl, ?_, rfl⟩
    intro n hn
    simp only [List.mem_singleton] at hn
    subst hn
    rfl

theorem deleteOnly_refl (w : World) : DeleteOnly w w :=
  ⟨[], by simp, by simp⟩

theorem deleteOnly_trans (a b c : World) (h1 : DeleteOnly a b) (h2 : DeleteOnly b c) :
    DeleteOnly a c := by
  obtain ⟨d1, e1, n1⟩ := h1
  obtain ⟨d2, e2, n2⟩ := h2
  refine ⟨d1 ++ d2, by rw [e2, e1, List.append_assoc], ?_⟩
  intro n hn
  rcases List.mem_append.mp hn with h | h
  · exact n1 n h
  · exact n2 n h

theorem deleteField_log {w w1 : World} {i : Nat} (h : deleteField w i = .ok w1) :
    DeleteOnly w w1 := by
  unfold deleteField at h
  cases hf : w.fields[i]? with
  | none => simp [hf] at h
  | some f =>
    simp only [hf, Except.ok.injEq] at h
    subst h
    clear hf
    generalize f.observers = obs
    induction obs generalizing w with
    | nil => exact deleteOnly_refl w
    | cons o os ih =>
      rw [List.foldl_cons]
      obtain ⟨del, e, hn, -⟩ := notifyFieldDelete_log i w o
      exact deleteOnly_trans _ _ _ ⟨del, e, hn⟩ ih

theorem deleteMatrix_log {w w1 : World} (h : deleteMatrix w = .ok w1) : DeleteOnly w w1 := by
  unfold deleteMatrix at h
  cases hf : (loopYX w.dim.x w.dim.y).foldlM
      (fun w p => deleteField w (cellAddr w.dim.x p.1 p.2)) w with
  | error e => simp [hf] at h
  | ok w2 =>
    simp only [hf, Except.ok.injEq] at h
    subst h
    exact foldlM_except_inv
      (fun (w : World) (p : Nat × Nat) => deleteField w (cellAddr w.dim.x p.1 p.2))
      DeleteOnly deleteOnly_refl deleteOnly_trans (fun w a w1 h => deleteField_log h) _ w w2 hf

theorem reset_log {w g : World} {d : Dimensions} {draws : List Nat}
    (h : reset w d draws = .ok g) :
    ∃ del, g.log = w.log ++ (del ++
        w.observers.map (fun o => Notification.onGameStatusChanged o .GS_READY)) ∧
      ∀ n ∈ del, isGameStatusCall n = false := by
  unfold reset at h
  cases hd : deleteMatrix w with
  | error e => simp [hd] at h
  | ok w1 =>
    simp only [hd] at h
    cases hp : placeBombs d.x d.y d.bombs 0 (List.replicate d.x (List.replicate d.y 0)) draws with
    | error e => simp [hp] at h
    | ok bombs =>
      simp only [hp, Except.ok.injEq] at h
      subst h
      obtain ⟨del, e, hn⟩ := deleteMatrix_log hd
      refine ⟨del, ?_, hn⟩
      simp only [SIGNAL_GAMESTATUSCHANGED]
      rw [e, (deleteMatrix_ok hd).2, List.append_assoc]

/-- C20: when `reset(d)` returns, the list of grid observers is the one before, and the
calls of the reset are calls that are no game-status calls followed by one game-status
call carrying `GS_READY` for every observer, whatever the status before was.  An
observer that is registered once receives exactly one game-status call during the
reset, carrying `GS_READY`, as its last call. -/
theorem C20_reset_notifies (w g : World) (d : Dimensions) (draws : List Nat)
    (h : reset w d draws = .ok g) :
    g.observers = w.observers ∧
    ∃ del, g.log = w.log ++ (del ++
        w.observers.map (fun o => Notification.onGameStatusChanged o .GS_READY)) ∧
      (∀ n ∈ del, isGameStatusCall n = false) ∧
      ∀ o, w.observers.count o = 1 →
        receivedBy o (g.log.drop w.log.length)
          = receivedBy o del ++ [Notification.onGameStatusChanged o .GS_READY] ∧
        ∀ n ∈ receivedBy o del, isGameStatusCall n = false := by
  obtain ⟨bombs, -, -, -, -, -, -, -, -, hobs⟩ := reset_ok h
  obtain ⟨del, e, hn⟩ := reset_log h
  refine ⟨hobs, del, e, hn, ?_⟩
  intro o ho
  rw [e, List.drop_left, receivedBy_append,
    receivedBy_map o (fun o => Notification.onGameStatusChanged o .GS_READY) (fun _ => rfl)
      w.observers ho]
  refine ⟨rfl, ?_⟩
  intro n hmem
  exact hn n (List.mem_filter.mp hmem).1

set_option maxRecDepth 8000 in
/-- C20, on the grid of `callback_test` reset a second time while its status is
`GS_READY`: the observer stays registered and receives the four field-delete calls and
then one game-status call carrying `GS_READY`. -/
theorem C20_reset_notifies_witness :
    (observed2x2.status = .GS_READY ∧
      reset observed2x2 (Dimensions.new 2 2 1) [3] = .ok observed2x2Again) ∧
    observed2x2Again.observers = [0] ∧
    receivedBy 0 (observed2x2Again.log.drop observed2x2.log.length)
      = [Notification.onFieldDelete 0 0, Notification.onFieldDelete 0 1,
         Notification.onFieldDelete 0 2, Notification.onFieldDelete 0 3,
         Notification.onGameStatusChanged 0 .GS_READY] :=
  ⟨⟨by decide, rfl⟩,
    (C20_reset_notifies observed2x2 observed2x2Again (Dimensions.new 2 2 1) [3] rfl).1.trans
      (by decide),
    by decide⟩

/-! ### Registering and removing observers -/

theorem removeIfLoop_none {α : Type} (pred : α → Bool) :
    ∀ (rest pre : List α), (∀ a ∈ rest, pred a = false) →
      removeIfLoop pred rest pre.length (pre ++ rest) = pre ++ rest := by
  intro rest
  induction rest with
  | nil => intro pre _; rfl
  | cons a rest ih =>
    intro pre h
    have ha : pred a = false := h a (List.mem_cons_self _ _)
    have hset : (pre ++ a :: rest).set pre.length a = pre ++ a :: rest := by
      rw [List.set_append_right _ _ (le_refl _)]
      simp
    have hstep := ih (pre ++ [a]) (fun b hb => h b (List.mem_cons_of_mem _ hb))
    simp only [List.length_append, List.length_singleton, List.append_assoc,
      List.singleton_append] at hstep
    simp only [removeIfLoop, ha, Bool.false_eq_true, if_false, hset]
    exact hstep

theorem removeIf_none {α : Type} (pred : α → Bool) (l : List α)
    (h : ∀ a ∈ l, pred a = false) : removeIf pred l = l :=
  removeIfLoop_none pred l [] h

theorem removeIfLoop_length {α : Type} (pred : α → Bool) :
    ∀ (rest : List α) (first : Nat) (content : List α),
      (removeIfLoop pred rest first content).length = content.length := by
  intro rest
  induction rest with
  | nil => intro _ _; rfl
  | cons a rest ih =>
    intro first content
    simp only [removeIfLoop]
    split_ifs
    · exact ih _ _
    · rw [ih, List.length_set]

/-- C22: on a grid and on a cell, `addObserver(o)` with `o` already registered leaves
the state as it is, an observer list without duplicates stays without duplicates
under `addObserver`, and `removeObserver(o)` with `o` not registered leaves the state
as it is. -/
theorem C22_observer_noop (w : World) (o : Nat) (f : Field) (fo : FieldObserver) :
    (o ∈ w.observers → addObserver w o = w) ∧
    (w.observers.Nodup → (addObserver w o).observers.Nodup) ∧
    (o ∉ w.observers → removeObserver w o = w) ∧
    (fo ∈ f.observers → f.addObserver fo = f) ∧
    (f.observers.Nodup → (f.addObserver fo).observers.Nodup) ∧
    (fo ∉ f.observers → f.removeObserver fo = f) := by
  refine ⟨?_, ?_, ?_, ?_, ?_, ?_⟩
  · intro h
    simp [addObserver, h]
  · intro h
    unfold addObserver
    split_ifs with hm
    · exact h
    · exact List.Nodup.append h (List.nodup_singleton o) (by simpa using hm)
  · intro h
    unfold removeObserver
    rw [removeIf_none _ _ (fun a ha => by
      simp only [decide_eq_false_iff_not]
      rintro rfl
      exact h ha)]
  · intro h
    simp [Field.addObserver, h]
  · intro h
    unfold Field.addObserver
    split_ifs with hm
    · exact h
    · exact List.Nodup.append h (List.nodup_singleton fo) (by simpa using hm)
  · intro h
    unfold Field.removeObserver
    rw [removeIf_none _ _ (fun a ha => by
      simp only [decide_eq_false_iff_not]
      rintro rfl
      exact h ha)]

/-- C22, on the grid of `callback_test` and the first field of the fixture of
field_test.cpp: registering the registered observer again and removing an observer
that is not registered change nothing. -/
theorem C22_observer_noop_witness :
    (0 ∈ observed2x2.observers ∧ 5 ∉ observed2x2.observers) ∧
    addObserver observed2x2 0 = observed2x2 ∧ removeObserver observed2x2 5 = observed2x2 ∧
    (fixtureFields.get ⟨0, by decide⟩).addObserver (FieldObserver.client 0)
      = fixtureFields.get ⟨0, by decide⟩ :=
  ⟨⟨by decide, by decide⟩,
    (C22_observer_noop observed2x2 0 (fixtureFields.get ⟨0, by decide⟩)
      (FieldObserver.client 0)).1 (by decide),
    (C22_observer_noop observed2x2 5 (fixtureFields.get ⟨0, by decide⟩)
      (FieldObserver.client 0)).2.2.1 (by decide),
    (C22_observer_noop observed2x2 0 (fixtureFields.get ⟨0, by decide⟩)
      (FieldObserver.client 0)).2.2.2.1 (by decide)⟩

set_option maxRecDepth 8000 in
/-- C21: `removeObserver(o)` does not take a registered observer out of the list.  On
the grid of `callback_test` the only observer 0 is still registered after
`removeObserver(0)` and receives the three calls of the next `cycleMark()`; with the
observers 0 and 1 registered, `removeObserver(0)` leaves the list 1, 1, and observer 1
receives every call of the next `cycleMark()` twice; on the first field of the
fixture of field_test.cpp the only observer is still registered after
`removeObserver`. -/
theorem C21_remove_keeps_observer :
    (observed2x2.observers = [0] ∧ (removeObserver observed2x2 0).observers = [0] ∧
      ∃ w1, cycleMark (removeObserver observed2x2 0) (cellAddr 2 0 0) = some w1 ∧
        receivedBy 0 (w1.log.drop observed2x2.log.length)
          = [Notification.onFieldStatusChanged 0 0 .FS_MARKED,
             Notification.onRemainingBombsChanged 0 0,
             Notification.onGameStatusChanged 0 .GS_RUNNING]) ∧
    (twoObservers2x2.observers = [0, 1] ∧ (removeObserver twoObservers2x2 0).observers = [1, 1] ∧
      ∃ w1, cycleMark (removeObserver twoObservers2x2 0) (cellAddr 2 0 0) = some w1 ∧
        receivedBy 1 (w1.log.drop twoObservers2x2.log.length)
          = [Notification.onFieldStatusChanged 1 0 .FS_MARKED,
             Notification.onFieldStatusChanged 1 0 .FS_MARKED,
             Notification.onRemainingBombsChanged 1 0,
             Notification.onRemainingBombsChanged 1 0,
             Notification.onGameStatusChanged 1 .GS_RUNNING,
             Notification.onGameStatusChanged 1 .GS_RUNNING]) ∧
    ((fixtureFields.get ⟨0, by decide⟩).observers = [FieldObserver.client 0] ∧
      ((fixtureFields.get ⟨0, by decide⟩).removeObserver (FieldObserver.client 0)).observers
        = [FieldObserver.client 0]) := by
  refine ⟨⟨by decide, by decide, _, rfl, by decide⟩, ⟨by decide, by decide, _, rfl, by decide⟩,
    by decide, by decide⟩

/-! ### Termination and reach of reveal on arbitrary heaps -/

/-- In a run of reveal changes, every change is one that the field as it was at the
start of the run allows. -/
theorem Run.allowed_of_mem {a b : World} {evs : List (Nat × FIELDSTATUS)} (h : Run a evs b)
    (hk : RevealKind evs) {j : Nat} {s : FIELDSTATUS} (hmem : (j, s) ∈ evs) {fj : Field}
    (hfj : a.fields[j]? = some fj) : fj.allows s = true := by
  induction h with
  | nil w => simp at hmem
  | @cons w w2 i f t evs hf ha hr ih =>
    have hk1 : RevealKind evs := fun e he => hk e (List.mem_cons_of_mem _ he)
    have hcl := closed_after_fire f t ha (hk (i, t) (List.mem_cons_self _ _))
    have hun := hr.closed_untouched hk1 (fire_get_self w i f t hf) hcl.1 hcl.2
    rcases List.mem_cons.mp hmem with hhead | htail
    · simp only [Prod.mk.injEq] at hhead
      obtain ⟨rfl, rfl⟩ := hhead
      rw [hf] at hfj
      cases hfj
      exact ha
    · have hne : i ≠ j := fun e => hun.2 (j, s) htail e.symm
      exact ih hk1 htail (by rw [fire_get_ne _ _ _ _ _ hne]; exact hfj)

theorem allows_reveal_cases (f : Field) (s : FIELDSTATUS) (hs : s = .FS_UNHIDDEN ∨ s = .FS_BOMB)
    (ha : f.allows s = true) :
    (f.status = .FS_HIDDEN ∨ f.status = .FS_QUERIED ∨
      (f.isBomb = false ∧ f.status = .FS_BOMB)) ∧
    s = (if f.isBomb then FIELDSTATUS.FS_BOMB else FIELDSTATUS.FS_UNHIDDEN) := by
  rcases hs with rfl | rfl
  · simp only [Field.allows, Bool.and_eq_true, Bool.not_eq_true', decide_eq_true_eq] at ha
    obtain ⟨⟨hb, h1⟩, h2⟩ := ha
    refine ⟨?_, by simp [hb]⟩
    rcases hst : f.status with _ | _ | _ | _ | _ <;> simp_all
  · simp only [Field.allows, Bool.and_eq_true, decide_eq_true_eq] at ha
    obtain ⟨⟨⟨hb, h1⟩, h2⟩, h3⟩ := ha
    refine ⟨?_, by simp [hb]⟩
    rcases hst : f.status with _ | _ | _ | _ | _ <;> simp_all

/-- C23: on every heap whose neighbour pointers are addresses of fields (lists with
cycles, repetitions and self-references included) and whose statuses fit the kinds of
the fields, whatever the counts, `reveal()` on a field returns; what it does is a run
of status changes in which no field occurs twice; a field that is changed was Hidden
or Queried and ends as `FS_BOMB` (bomb) or `FS_UNHIDDEN` (plain field); every other
field is left as it was, in particular every field that was Marked, Unhidden or
`FS_BOMB`. -/
theorem C23_reveal_terminates (w : World) (i : Nat) (hw : WellFormed w.fields)
    (hk : ∀ f ∈ w.fields, f.kindOK) (hi : i < w.fields.length) :
    ∃ (w2 : World) (r : Nat) (evs : List (Nat × FIELDSTATUS)),
      reveal w i = some (w2, r) ∧ Run w evs w2 ∧ (evs.map Prod.fst).Nodup ∧
      ∀ j fj, w.fields[j]? = some fj →
        (j ∈ evs.map Prod.fst →
          (fj.status = .FS_HIDDEN ∨ fj.status = .FS_QUERIED) ∧
          w2.fields[j]? = some { fj with status :=
            if fj.isBomb then FIELDSTATUS.FS_BOMB else FIELDSTATUS.FS_UNHIDDEN }) ∧
        (j ∉ evs.map Prod.fst → w2.fields[j]? = some fj) ∧
        (fj.status = .FS_MARKED ∨ fj.status = .FS_UNHIDDEN ∨ fj.status = .FS_BOMB →
          w2.fields[j]? = some fj) := by
  obtain ⟨w2, f2, hAux, -, hrev⟩ := reveal_returns w i hw hi
  obtain ⟨evs, r, k, -⟩ := revealAux_run _ w i w2 hAux
  refine ⟨w2, revealResult f2, evs, hrev, r, r.cells_nodup k, ?_⟩
  intro j fj hfj
  have hkj := hk fj (List.getElem?_mem hfj)
  have hin : j ∈ evs.map Prod.fst →
      (fj.status = .FS_HIDDEN ∨ fj.status = .FS_QUERIED) ∧
      w2.fields[j]? = some { fj with status :=
        if fj.isBomb then FIELDSTATUS.FS_BOMB else FIELDSTATUS.FS_UNHIDDEN } := by
    intro hj
    obtain ⟨⟨j1, s⟩, hmem, rfl⟩ := List.mem_map.mp hj
    have ha := r.allowed_of_mem k hmem hfj
    obtain ⟨h1, h2⟩ := allows_reveal_cases fj s (k _ hmem) ha
    refine ⟨?_, ?_⟩
    · rcases h1 with h1 | h1 | ⟨hb1, h1⟩
      · exact Or.inl h1
      · exact Or.inr h1
      · have := hkj.2 h1
        rw [hb1] at this
        cases this
    · rw [← h2]
      exact r.final_of_mem k hmem hfj
  have hout : j ∉ evs.map Prod.fst → w2.fields[j]? = some fj := by
    intro hj
    rw [r.untouched (fun e he heq => hj (List.mem_map.mpr ⟨e, he, heq⟩))]
    exact hfj
  refine ⟨hin, hout, ?_⟩
  intro hs
  apply hout
  intro hj
  obtain ⟨h1, -⟩ := hin hj
  rcases hs with hs | hs | hs <;> rcases h1 with h1 | h1 <;> simp_all

/-- C23, on the fixture of field_test.cpp: `reveal()` on the first field returns 1 and
leaves the fourth field, the bomb, as it was. -/
theorem C23_reveal_terminates_witness :
    (WellFormed fixture.fields ∧ (∀ f ∈ fixture.fields, f.kindOK) ∧
      0 < fixture.fields.length) ∧
    (∃ (w2 : World) (r : Nat) (evs : List (Nat × FIELDSTATUS)),
      reveal fixture 0 = some (w2, r) ∧ Run fixture evs w2 ∧ (evs.map Prod.fst).Nodup ∧
      ∀ j fj, fixture.fields[j]? = some fj →
        (j ∈ evs.map Prod.fst →
          (fj.status = .FS_HIDDEN ∨ fj.status = .FS_QUERIED) ∧
          w2.fields[j]? = some { fj with status :=
            if fj.isBomb then FIELDSTATUS.FS_BOMB else FIELDSTATUS.FS_UNHIDDEN }) ∧
        (j ∉ evs.map Prod.fst → w2.fields[j]? = some fj) ∧
        (fj.status = .FS_MARKED ∨ fj.status = .FS_UNHIDDEN ∨ fj.status = .FS_BOMB →
          w2.fields[j]? = some fj)) ∧
    ∃ w2, reveal fixture 0 = some (w2, 1) ∧ w2.fields[3]? = fixture.fields[3]? :=
  ⟨⟨by unfold WellFormed; decide, by unfold Field.kindOK; decide, by decide⟩,
    C23_reveal_terminates fixture 0 (by unfold WellFormed; decide)
      (by unfold Field.kindOK; decide) (by decide),
    _, rfl, by decide⟩

/-! ### Terminal statuses -/

theorem kindOK_after (f : Field) (s : FIELDSTATUS) (ha : f.allows s = true) :
    ({ f with status := s } : Field).kindOK := by
  cases s <;> simp only [Field.allows, Bool.and_eq_true, Bool.not_eq_true',
    decide_eq_true_eq] at ha <;> simp [Field.kindOK]
  · exact ha.1.1
  · exact ha.1.1.1

theorem Run.kinds {a b : World} {evs : List (Nat × FIELDSTATUS)} (h : Run a evs b)
    (hk : ∀ f ∈ a.fields, f.kindOK) : ∀ f ∈ b.fields, f.kindOK := by
  induction h with
  | nil w => exact hk
  | @cons w w2 i f s evs hf ha _ ih =>
    apply ih
    intro g hg
    rw [fire_fields] at hg
    rcases mem_set_status hg with h1 | h1
    · exact hk g h1
    · rw [h1]
      exact kindOK_after f s ha

/-- A field that allows no status change is left alone by every run. -/
theorem Run.frozen {a b : World} {evs : List (Nat × FIELDSTATUS)} (h : Run a evs b)
    {j : Nat} {fj : Field} (hfj : a.fields[j]? = some fj) (hno : ∀ s, fj.allows s = false) :
    b.fields[j]? = some fj := by
  induction h with
  | nil w => exact hfj
  | @cons w w2 i f s evs hf ha _ ih =>
    have hne : i ≠ j := by
      rintro rfl
      rw [hf] at hfj
      cases hfj
      rw [hno s] at ha
      cases ha
    exact ih (by rw [fire_get_ne _ _ _ _ _ hne]; exact hfj)

theorem reach_kinds {w0 g w : World} {d : Dimensions} {draws : List Nat} {c : Bool}
    (h : reset w0 d draws = .ok g) (hr : Reach g c w) : ∀ f ∈ w.fields, f.kindOK := by
  obtain ⟨evs, r, -⟩ := reach_run hr
  obtain ⟨bombs, -, -, hfields, -⟩ := reset_ok h
  apply r.kinds
  intro f hf
  rw [hfields] at hf
  obtain ⟨p, -, rfl⟩ := gridField_mem hf
  exact ⟨fun h => (by cases h), fun h => (by cases h)⟩

theorem terminal_allows (f : Field) (hk : f.kindOK)
    (hs : f.status = .FS_UNHIDDEN ∨ f.status = .FS_BOMB) : ∀ s, f.allows s = false := by
  intro s
  rcases hs with hs | hs
  · cases s <;> simp [Field.allows, hs]
  · have hb := hk.2 hs
    cases s <;> simp [Field.allows, hs, hb]

/-- C24: in every state reached from a grid built by `reset`, a field with the status
`FS_BOMB` is a bomb and a field with the status `FS_UNHIDDEN` is a plain field, and a
field with one of these two statuses is the same field after every further sequence
of `reveal()` and `cycleMark()` calls on fields of the grid. -/
theorem C24_terminal_statuses (w0 g w w2 : World) (d : Dimensions) (draws : List Nat)
    (c c2 : Bool) (j : Nat) (f : Field) (hreset : reset w0 d draws = .ok g)
    (hreach : Reach g c w) (hlater : Reach w c2 w2) (hf : w.fields[j]? = some f) :
    (f.status = .FS_BOMB → f.isBomb = true) ∧ (f.status = .FS_UNHIDDEN → f.isBomb = false) ∧
    (f.status = .FS_UNHIDDEN ∨ f.status = .FS_BOMB → w2.fields[j]? = some f) := by
  have hk := reach_kinds hreset hreach f (List.getElem?_mem hf)
  refine ⟨hk.2, hk.1, fun hs => ?_⟩
  obtain ⟨evs, r, -⟩ := reach_run hlater
  exact r.frozen hf (terminal_allows f hk hs)

/-- C24, on the 1x1 grid without bomb: after `reveal()` the cell is Unhidden, and a
`cycleMark()` and a `reveal()` on it leave it so. -/
theorem C24_terminal_statuses_witness :
    (reset World.init (Dimensions.new 1 1 0) [] = .ok grid1x1 ∧
      Reach grid1x1 true grid1x1Revealed ∧
      cycleMark grid1x1Revealed 0 = some grid1x1Revealed ∧
      reveal grid1x1Revealed 0 = some (grid1x1Revealed, 0) ∧
      ∃ f, grid1x1Revealed.fields[0]? = some f ∧ f.status = .FS_UNHIDDEN) ∧
    ∃ f, grid1x1Revealed.fields[0]? = some f ∧ f.status = .FS_UNHIDDEN ∧ f.isBomb = false :=
  have hreach : Reach grid1x1 true grid1x1Revealed :=
    @Reach.reveal grid1x1 false grid1x1 grid1x1Revealed 0 0 Reach.init rfl
  have hlater : Reach grid1x1Revealed false grid1x1Revealed :=
    @Reach.reveal grid1x1Revealed false grid1x1Revealed grid1x1Revealed 0 0
      (@Reach.cycleMark grid1x1Revealed false grid1x1Revealed grid1x1Revealed 0 Reach.init rfl)
      rfl
  ⟨⟨rfl, hreach, rfl, rfl, _, rfl, rfl⟩,
    _, (C24_terminal_statuses World.init grid1x1 grid1x1Revealed grid1x1Revealed
        (Dimensions.new 1 1 0) [] true false 0 _ rfl hreach hlater rfl).2.2 (Or.inl rfl), rfl,
      (C24_terminal_statuses World.init grid1x1 grid1x1Revealed grid1x1Revealed
        (Dimensions.new 1 1 0) [] true false 0 _ rfl hreach hlater rfl).2.1 rfl⟩

/-! ### The counter of unhidden fields -/

theorem countP_disjoint {α : Type} (P Q : α → Bool) :
    ∀ l : List α, (∀ x ∈ l, P x = true → Q x = false) → l.countP P + l.countP Q ≤ l.length := by
  intro l
  induction l with
  | nil => intro _; simp
  | cons a l ih =>
    intro h
    have h1 := ih (fun x hx => h x (List.mem_cons_of_mem _ hx))
    have ha := h a (List.mem_cons_self _ _)
    simp only [List.countP_cons, List.length_cons]
    cases hpa : P a <;> cases hqa : Q a
    · simp only [Bool.false_eq_true, if_false]; omega
    · simp only [Bool.false_eq_true, if_false, if_true]; omega
    · simp only [Bool.false_eq_true, if_false, if_true]; omega
    · rw [hpa, hqa] at ha
      exact absurd (ha rfl) (by decide)

/-- Number of bombs and of fields in every state reached from a grid built by `reset`. -/
theorem reach_counts {w0 g w : World} {d : Dimensions} {draws : List Nat} {c : Bool}
    (h : reset w0 d draws = .ok g) (hr : Reach g c w) :
    w.fields.countP (fun f => f.isBomb) = d.bombs ∧ w.fields.length = d.x * d.y ∧ w.dim = d := by
  obtain ⟨evs, r, -⟩ := reach_run hr
  obtain ⟨bombs, -, hpl, hfields, hdim, -⟩ := reset_ok h
  have hfr := r.frame
  refine ⟨?_, ?_, by rw [hfr.2.2, hdim]⟩
  · rw [countP_isBomb_frame hfr, hfields, countP_isBomb_grid, hpl]
  · rw [hfr.length, hfields]
    simp [gridFields]

/-- C25: in every state reached from a grid of at most 65535 cells built by `reset`, the
counter `unhidden` is the number of fields with the status `FS_UNHIDDEN`, and it is at
most the number of cells minus the number of bombs. -/
theorem C25_unhidden_counter (w0 g w : World) (d : Dimensions) (draws : List Nat) (c : Bool)
    (hsize : d.x * d.y ≤ 65535) (hreset : reset w0 d draws = .ok g) (hreach : Reach g c w) :
    w.unhidden = w.fields.countP (fun f => decide (f.status = .FS_UNHIDDEN)) ∧
    0 ≤ (w.unhidden : Int) ∧
    (w.unhidden : Int) ≤ (d.x : Int) * (d.y : Int) - (d.bombs : Int) := by
  obtain ⟨hinv, -, -⟩ := reach_inv hreset hsize hreach
  obtain ⟨hB, hN, -⟩ := reach_counts hreset hreach
  have hdis := countP_disjoint (fun f : Field => decide (f.status = .FS_UNHIDDEN))
    (fun f : Field => f.isBomb) w.fields
    (fun f hf hs => (hinv.kinds f hf).1 (by simpa using hs))
  refine ⟨hinv.unhidden, Int.natCast_nonneg _, ?_⟩
  rw [hinv.unhidden]
  have hc : ((d.x * d.y : Nat) : Int) = (d.x : Int) * (d.y : Int) := by push_cast; rfl
  rw [← hc]
  omega

/-- C25, on the 1x1 grid without bomb after `reveal()` on its cell: the counter is 1,
the number of Unhidden fields, and 1 = 1 * 1 - 0. -/
theorem C25_unhidden_counter_witness :
    (1 * 1 ≤ 65535 ∧ reset World.init (Dimensions.new 1 1 0) [] = .ok grid1x1 ∧
      Reach grid1x1 true grid1x1Revealed) ∧
    grid1x1Revealed.unhidden = 1 ∧
    grid1x1Revealed.fields.countP (fun f => decide (f.status = .FS_UNHIDDEN)) = 1 :=
  have hreach : Reach grid1x1 true grid1x1Revealed :=
    @Reach.reveal grid1x1 false grid1x1 grid1x1Revealed 0 0 Reach.init rfl
  ⟨⟨by decide, rfl, hreach⟩, by decide,
    ((C25_unhidden_counter World.init grid1x1 grid1x1Revealed (Dimensions.new 1 1 0) [] true
      (by decide) rfl hreach).1).symm.trans (by decide)⟩

/-! ### The won game -/

/-- One status change keeps the size-independent invariant. -/
theorem fire_wrap (w : World) (i : Nat) (f : Field) (s : FIELDSTATUS) (hinv : WrapInv w)
    (hP : w.dim.x * w.dim.y ≤ 4294836225) (hb : w.dim.bombs < 65536)
    (hf : w.fields[i]? = some f) (ha : f.allows s = true) : WrapInv (fire w i f s) := by
  have hmem : f ∈ w.fields := List.getElem?_mem hf
  have ho := hinv.obs f hmem
  have hst := fire_impl_state w i f s ho
  have hfl := fire_fields w i f s
  have hcM := countP_set_status w.fields i f s .FS_MARKED hf
  have hcU := countP_set_status w.fields i f s .FS_UNHIDDEN hf
  have hnu := allows_not_unhidden ha
  have hmk := allows_marked_iff ha
  have hmarked : (fire w i f s).marked
      = (fire w i f s).fields.countP (fun f => decide (f.status = .FS_MARKED)) % 65536 := by
    rw [hst.2.2.1, hfl]
    have hm := hinv.marked
    cases s
    · have : f.status ≠ .FS_MARKED := fun h => by simpa using hmk.mp h
      simp only [this, if_false] at hcM
      simp only [logFieldStatus]
      simp at hcM
      omega
    · have : f.status ≠ .FS_MARKED := fun h => by simpa using hmk.mp h
      simp only [this, if_false] at hcM
      simp only [logFieldStatus]
      simp at hcM
      omega
    · have : f.status ≠ .FS_MARKED := fun h => by simpa using hmk.mp h
      simp only [this, if_false, if_true] at hcM
      simp only [logFieldStatus, inc16]
      omega
    · have : f.status = .FS_MARKED := hmk.mpr rfl
      simp only [this, if_true] at hcM
      simp only [logFieldStatus, dec16]
      simp at hcM
      split_ifs <;> omega
    · have : f.status ≠ .FS_MARKED := fun h => by simpa using hmk.mp h
      simp only [this, if_false] at hcM
      simp only [logFieldStatus]
      simp at hcM
      omega
  have hunhidden : (fire w i f s).unhidden
      = (fire w i f s).fields.countP (fun f => decide (f.status = .FS_UNHIDDEN)) % 65536 := by
    rw [hst.2.1, hfl]
    have hu := hinv.unhidden
    simp only [hnu, if_false] at hcU
    cases s
    · simp only [logFieldStatus]
      simp at hcU
      omega
    · simp only [logFieldStatus, inc16]
      simp only [if_true] at hcU
      omega
    · simp only [logFieldStatus]
      simp at hcU
      omega
    · simp only [logFieldStatus]
      simp at hcU
      omega
    · simp only [logFieldStatus]
      simp at hcU
      omega
  have hu16 : (logFieldStatus w s).unhidden < 65536 := by
    rw [← hst.2.1, hunhidden]
    exact Nat.mod_lt _ (by decide)
  have hfr := logFieldStatus_frame w s
  have hd := deriveStatus_status (logFieldStatus w s) (by rw [hfr.2.2.1]; exact hP)
    (by rw [hfr.2.2.1]; exact hb) hu16
  have hwin : winTest (fire w i f s) ↔ winTest (logFieldStatus w s) := by
    unfold winTest
    rw [hst.2.1, hst.2.2.1, fire_dim, hfr.2.2.1]
  refine ⟨?_, hmarked, hunhidden, ?_, ?_⟩
  · intro g hg
    rw [hfl] at hg
    rcases mem_set_status hg with h | h
    · exact hinv.obs g h
    · subst h
      exact ho
  · intro g hg
    rw [hfl] at hg
    rcases mem_set_status hg with h | h
    · exact hinv.kinds g h
    · rw [h]
      exact kindOK_after f s ha
  · intro hw
    rw [hst.1] at hw
    by_cases hl : (logFieldStatus w s).status = .GS_LOST
    · rw [hd.1 hl] at hw
      cases hw
    · exact hwin.mpr ((hd.2 hl).1.mp hw)

theorem Run.wrap {w w2 : World} {evs : List (Nat × FIELDSTATUS)} (h : Run w evs w2)
    (hinv : WrapInv w) (hP : w.dim.x * w.dim.y ≤ 4294836225) (hb : w.dim.bombs < 65536) :
    WrapInv w2 := by
  induction h with
  | nil w => exact hinv
  | @cons w w2 i f s evs hf ha hr ih =>
    have hd := fire_dim w i f s
    exact ih (fire_wrap w i f s hinv hP hb hf ha) (by rw [hd]; exact hP) (by rw [hd]; exact hb)

/-- A bomb count for which `reset` returns fits 16 bits. -/
theorem reset_bombs_lt {w0 g : World} {d : Dimensions} {draws : List Nat}
    (h : reset w0 d draws = .ok g) : d.bombs < 65536 := by
  obtain ⟨bombs, hplace, -⟩ := reset_fields h
  by_contra hge
  exact placeBombs_never d.x d.y d.bombs (by omega) draws 0 _ bombs (by decide) hplace

theorem reach_wrap {w0 g w : World} {d : Dimensions} {draws : List Nat} {c : Bool}
    (h : reset w0 d draws = .ok g) (hx : d.x < 65536) (hy : d.y < 65536) (hr : Reach g c w) :
    WrapInv w := by
  obtain ⟨evs, r, -⟩ := reach_run hr
  obtain ⟨bombs, -, -, hfields, hdim, hstatus, hu, hm, -, -⟩ := reset_ok h
  have hall : ∀ f ∈ g.fields, f.status = .FS_HIDDEN ∧ f.observers = [FieldObserver.impl] := by
    intro f hf
    rw [hfields] at hf
    obtain ⟨p, -, rfl⟩ := gridField_mem hf
    exact ⟨rfl, rfl⟩
  have hP : d.x * d.y ≤ 4294836225 := by
    calc d.x * d.y ≤ 65535 * 65535 := Nat.mul_le_mul (by omega) (by omega)
      _ = 4294836225 := by norm_num
  apply r.wrap _ (by rw [hdim]; exact hP) (by rw [hdim]; exact reset_bombs_lt h)
  refine ⟨fun f hf => (hall f hf).2, ?_, ?_, ?_, ?_⟩
  · have : g.fields.countP (fun f => decide (f.status = .FS_MARKED)) = 0 := by
      rw [List.countP_eq_zero]
      intro f hf
      simp [(hall f hf).1]
    rw [hm, this]
  · have : g.fields.countP (fun f => decide (f.status = .FS_UNHIDDEN)) = 0 := by
      rw [List.countP_eq_zero]
      intro f hf
      simp [(hall f hf).1]
    rw [hu, this]
  · intro f hf
    have := (hall f hf).1
    exact ⟨fun h => (by rw [this] at h; cases h), fun h => (by rw [this] at h; cases h)⟩
  · intro hw
    rw [hstatus] at hw
    cases hw

/-- In a won game every bomb is Marked and every plain field is Unhidden. -/
theorem won_all (w : World) (hinv : WrapInv w) (hwon : w.status = .GS_WON)
    (hB : w.fields.countP (fun f => f.isBomb) = w.dim.bombs)
    (hN : w.fields.length = w.dim.x * w.dim.y) (hb : w.dim.bombs < 65536) :
    ∀ f ∈ w.fields, (f.isBomb = true → f.status = .FS_MARKED) ∧
      (f.isBomb = false → f.status = .FS_UNHIDDEN) := by
  obtain ⟨h1, h2⟩ := hinv.won hwon
  have hdisU := countP_disjoint (fun f : Field => decide (f.status = .FS_UNHIDDEN))
    (fun f : Field => f.isBomb) w.fields
    (fun f hf hs => (hinv.kinds f hf).1 (by simpa using hs))
  have hdisM := countP_disjoint (fun f : Field => decide (f.status = .FS_MARKED))
    (fun f : Field => decide (f.status = .FS_UNHIDDEN)) w.fields
    (fun f _ hs => by
      have : f.status = .FS_MARKED := by simpa using hs
      simp [this])
  have hu := hinv.unhidden
  have hm := hinv.marked
  have hc : ((w.dim.x * w.dim.y : Nat) : Int) = (w.dim.x : Int) * (w.dim.y : Int) := by
    push_cast; rfl
  rw [← hc, ← hN] at h1
  apply (win_iff_all w.fields (fun f hf => (hinv.kinds f hf).1)).mp
  constructor <;> omega

/-- With every bomb Marked and every plain field Unhidden, `reveal()` changes nothing. -/
theorem reveal_closed (w : World) (i : Nat) (f : Field) (hf : w.fields[i]? = some f)
    (hall : ∀ f ∈ w.fields, (f.isBomb = true → f.status = .FS_MARKED) ∧
      (f.isBomb = false → f.status = .FS_UNHIDDEN)) :
    reveal w i = some (w, revealResult f) := by
  have hc := hall f (List.getElem?_mem hf)
  have hAux : revealAux (w.fields.length + 1) w i = some w := by
    rw [revealAux_succ]
    simp only [hf]
    cases hb : f.isBomb
    · simp [hc.2 hb]
    · simp [bombReveal, hc.1 hb]
  simp only [reveal, hAux, hf]

/-- C26: in a state with the game status `GS_WON` reached from a grid built by `reset`
(width and height fitting 16 bits), `reveal()` on any field returns and leaves the
whole state as it is: no field, no counter, no game status is changed and no call is
made on any observer. -/
theorem C26_won_reveal_noop (w0 g w : World) (d : Dimensions) (draws : List Nat) (c : Bool)
    (i : Nat) (hx : d.x < 65536) (hy : d.y < 65536) (hreset : reset w0 d draws = .ok g)
    (hreach : Reach g c w) (hwon : getStatus w = .GS_WON) (hi : i < w.fields.length) :
    ∃ r, reveal w i = some (w, r) := by
  have hinv := reach_wrap hreset hx hy hreach
  obtain ⟨hB, hN, hdim⟩ := reach_counts hreset hreach
  have hall := won_all w hinv hwon (by rw [hB, hdim]) (by rw [hN, hdim])
    (by rw [hdim]; exact reset_bombs_lt hreset)
  exact ⟨_, reveal_closed w i w.fields[i] (List.getElem?_eq_getElem hi) hall⟩

/-- C26, on the won 1x1 grid without bomb: a second `reveal()` on its cell returns 0
and leaves the state as it is. -/
theorem C26_won_reveal_noop_witness :
    (reset World.init (Dimensions.new 1 1 0) [] = .ok grid1x1 ∧
      Reach grid1x1 true grid1x1Revealed ∧ getStatus grid1x1Revealed = .GS_WON) ∧
    (∃ r, reveal grid1x1Revealed 0 = some (grid1x1Revealed, r)) ∧
    reveal grid1x1Revealed 0 = some (grid1x1Revealed, 0) :=
  have hreach : Reach grid1x1 true grid1x1Revealed :=
    @Reach.reveal grid1x1 false grid1x1 grid1x1Revealed 0 0 Reach.init rfl
  ⟨⟨rfl, hreach, by decide⟩,
    C26_won_reveal_noop World.init grid1x1 grid1x1Revealed (Dimensions.new 1 1 0) [] true 0
      (by decide) (by decide) rfl hreach (by decide) (by decide),
    rfl⟩

/-! ### Revealing a plain field never reaches a bomb -/

theorem deriveStatus_not_lost (w : World) (h : w.status ≠ .GS_LOST) :
    (deriveStatus w).status ≠ .GS_LOST := by
  unfold deriveStatus
  simp only [h, ne_eq, not_false_eq_true, if_true]
  split_ifs <;> simp

theorem notify_not_lost (i : Nat) (s : FIELDSTATUS) (w : World) (o : FieldObserver)
    (hs : s ≠ .FS_BOMB) (h : w.status ≠ .GS_LOST) :
    (notifyFieldStatusChanged i s w o).status ≠ .GS_LOST := by
  cases o with
  | impl =>
    show (onFieldStatusChanged _ i s).status ≠ .GS_LOST
    rw [(onFieldStatusChanged_state _ i s).1]
    apply deriveStatus_not_lost
    rw [logFieldStatus_status, if_neg hs]
    exact h
  | client k => exact h

theorem signal_not_lost (obs : List FieldObserver) (w : World) (i : Nat) (s : FIELDSTATUS)
    (hs : s ≠ .FS_BOMB) (h : w.status ≠ .GS_LOST) :
    (SIGNAL_FIELDSTATUSCHANGED w obs i s).status ≠ .GS_LOST := by
  induction obs generalizing w with
  | nil => exact h
  | cons o os ih =>
    simp only [SIGNAL_FIELDSTATUSCHANGED, List.foldl_cons] at ih ⊢
    exact ih _ (notify_not_lost i s w o hs h)

theorem Run.not_lost {a b : World} {evs : List (Nat × FIELDSTATUS)} (h : Run a evs b)
    (hk : ∀ e ∈ evs, e.2 ≠ .FS_BOMB) (hl : a.status ≠ .GS_LOST) : b.status ≠ .GS_LOST := by
  induction h with
  | nil w => exact hl
  | @cons w w2 i f s evs _ _ _ ih =>
    exact ih (fun e he => hk e (List.mem_cons_of_mem _ he))
      (signal_not_lost f.observers (setStatus w i f s) i s (hk (i, s) (List.mem_cons_self _ _)) hl)

/-- The field of every event of a run exists in the state the run starts from. -/
theorem Run.mem_exists {a b : World} {evs : List (Nat × FIELDSTATUS)} (h : Run a evs b)
    {j : Nat} {s : FIELDSTATUS} (hmem : (j, s) ∈ evs) : ∃ fj, a.fields[j]? = some fj := by
  induction h with
  | nil w => simp at hmem
  | @cons w w2 i f t evs hf _ _ ih =>
    rcases List.mem_cons.mp hmem with hhead | htail
    · simp only [Prod.mk.injEq] at hhead
      obtain ⟨rfl, rfl⟩ := hhead
      exact ⟨f, hf⟩
    · obtain ⟨fj, hfj⟩ := ih htail
      obtain ⟨f0, hf0, -⟩ := (fire_frame w i f t hf).symm.get hfj
      exact ⟨f0, hf0⟩

/-- C27: in every state reached from a grid built by `reset`, `reveal()` on a plain
field returns, and what it does is a run of status changes all of which are to
`FS_UNHIDDEN` (none to `FS_BOMB`) and all on plain fields; every bomb is left as it
was; and the game status is not `GS_LOST` afterwards unless it was before. -/
theorem C27_plain_reveal_safe (w0 g w : World) (d : Dimensions) (draws : List Nat) (c : Bool)
    (i : Nat) (f : Field) (hreset : reset w0 d draws = .ok g) (hreach : Reach g c w)
    (hf : w.fields[i]? = some f) (hb : f.isBomb = false) :
    ∃ (w2 : World) (r : Nat) (evs : List (Nat × FIELDSTATUS)),
      reveal w i = some (w2, r) ∧ Run w evs w2 ∧
      (∀ e ∈ evs, e.2 = .FS_UNHIDDEN ∧ ∃ fe, w.fields[e.1]? = some fe ∧ fe.isBomb = false) ∧
      (∀ (j : Nat) (fj : Field), w.fields[j]? = some fj → fj.isBomb = true →
        w2.fields[j]? = some fj) ∧
      (getStatus w ≠ .GS_LOST → getStatus w2 ≠ .GS_LOST) := by
  obtain ⟨hwf, hstatic⟩ := reach_static hreset hreach
  have hi := (List.getElem?_eq_some_iff.mp hf).1
  obtain ⟨w2, f2, hAux, -, hrev⟩ := reveal_returns w i hwf hi
  obtain ⟨evs, r, k, reg, -, -⟩ := revealAux_flood _ w i w2 hAux
  have hplain : ∀ j, Region w.fields i j → ∀ fj, w.fields[j]? = some fj → fj.isBomb = false := by
    intro j hj
    induction hj with
    | base =>
      intro fj hfj
      rw [hf] at hfj
      cases hfj
      exact hb
    | step _ hfj0 hz hn _ =>
      intro fn hfn
      exact hstatic _ _ hfj0 hz _ hn fn hfn
  have hev : ∀ e ∈ evs, e.2 = .FS_UNHIDDEN ∧
      ∃ fe, w.fields[e.1]? = some fe ∧ fe.isBomb = false := by
    rintro ⟨j, s⟩ he
    obtain ⟨fj, hfj⟩ := r.mem_exists he
    have hpl := hplain j (reg _ he) fj hfj
    refine ⟨?_, fj, hfj, hpl⟩
    rcases k _ he with h | h
    · exact h
    · simp only at h
      subst h
      have := r.bomb_event he hfj
      rw [hpl] at this
      cases this
  refine ⟨w2, revealResult f2, evs, hrev, r, hev, ?_, ?_⟩
  · intro j fj hfj hbj
    have hun : ∀ e ∈ evs, e.1 ≠ j := by
      intro e he heq
      obtain ⟨-, fe, hfe, hpe⟩ := hev e he
      rw [heq, hfj] at hfe
      cases hfe
      rw [hbj] at hpe
      cases hpe
    rw [r.untouched hun]
    exact hfj
  · exact r.not_lost (fun e he => by rw [(hev e he).1]; decide)

set_option maxRecDepth 8000 in
/-- C27, on the 3x3 grid with its bomb at (2,2): `reveal()` on (0,0) returns 0, the bomb
is Hidden afterwards and the game status is `GS_RUNNING`. -/
theorem C27_plain_reveal_safe_witness :
    (reset World.init (Dimensions.new 3 3 1) [8] = .ok grid3x3 ∧
      Reach grid3x3 false grid3x3 ∧
      ∃ f, grid3x3.fields[0]? = some f ∧ f.isBomb = false) ∧
    (∃ (w2 : World) (r : Nat) (evs : List (Nat × FIELDSTATUS)),
      reveal grid3x3 0 = some (w2, r) ∧ Run grid3x3 evs w2 ∧
      (∀ e ∈ evs, e.2 = .FS_UNHIDDEN ∧
        ∃ fe, grid3x3.fields[e.1]? = some fe ∧ fe.isBomb = false) ∧
      (∀ (j : Nat) (fj : Field), grid3x3.fields[j]? = some fj → fj.isBomb = true →
        w2.fields[j]? = some fj) ∧
      (getStatus grid3x3 ≠ .GS_LOST → getStatus w2 ≠ .GS_LOST)) ∧
    ∃ w2, reveal grid3x3 0 = some (w2, 0) ∧ getStatus w2 = .GS_RUNNING ∧
      w2.fields[8]? = grid3x3.fields[8]? :=
  ⟨⟨rfl, Reach.init, _, rfl, rfl⟩,
    C27_plain_reveal_safe World.init grid3x3 grid3x3 (Dimensions.new 3 3 1) [8] false 0 _
      rfl Reach.init rfl rfl,
    _, rfl, by decide, by decide⟩

/-! ### The counter of queried fields -/

/-- C28: on the 1x1 grid without bomb, after `cycleMark()`, `cycleMark()` and `reveal()`
on the cell, the cell is Unhidden and no field is Queried, yet the counter `queried`
holds 1: `reveal()` on a Queried field does not decrement it. -/
theorem C28_queried_stale :
    reset World.init (Dimensions.new 1 1 0) [] = .ok grid1x1 ∧
    (∃ w1, cycleMark grid1x1 (cellAddr 1 0 0) = some w1 ∧
      cycleMark w1 (cellAddr 1 0 0) = some grid1x1Queried) ∧
    reveal grid1x1Queried (cellAddr 1 0 0) = some (grid1x1QueriedRevealed, 0) ∧
    (∃ c, Reach grid1x1 c grid1x1QueriedRevealed) ∧
    grid1x1Queried.queried = 1 ∧
    grid1x1Queried.fields.countP (fun f => decide (f.status = .FS_QUERIED)) = 1 ∧
    grid1x1QueriedRevealed.queried = 1 ∧
    grid1x1QueriedRevealed.fields.countP (fun f => decide (f.status = .FS_QUERIED)) = 0 ∧
    grid1x1QueriedRevealed.fields.countP (fun f => decide (f.status = .FS_UNHIDDEN)) = 1 := by
  have h1 : ∃ w1, cycleMark grid1x1 (cellAddr 1 0 0) = some w1 ∧
      cycleMark w1 (cellAddr 1 0 0) = some grid1x1Queried := ⟨_, rfl, rfl⟩
  have h3 : reveal grid1x1Queried (cellAddr 1 0 0) = some (grid1x1QueriedRevealed, 0) := rfl
  refine ⟨rfl, h1, h3, ?_, by decide, by decide, by decide, by decide, by decide⟩
  obtain ⟨w1, ha, hb⟩ := h1
  exact ⟨_, Reach.reveal (Reach.cycleMark (Reach.cycleMark Reach.init ha) hb) h3⟩

/-! ### Safety of the placement loop -/

/-- The `int` product of a non-empty grid with 16-bit sides is not zero, and a
remainder by it is smaller than the number of cells. -/
theorem drawPosition_lt (dimX dimY r : Nat) (hx : dimX < 65536) (hy : dimY < 65536)
    (hpos : 0 < dimX * dimY) :
    int32 ((dimX : Int) * (dimY : Int)) ≠ 0 ∧ drawPosition dimX dimY r < dimX * dimY := by
  have hP : dimX * dimY ≤ 4294836225 := by
    calc dimX * dimY ≤ 65535 * 65535 := Nat.mul_le_mul (by omega) (by omega)
      _ = 4294836225 := by norm_num
  have hc : ((dimX * dimY : Nat) : Int) = (dimX : Int) * (dimY : Int) := by push_cast; rfl
  unfold drawPosition
  rw [← hc]
  generalize dimX * dimY = P at hP hpos
  have hm : int32 (P : Int) ≠ 0 ∧ (0 < int32 (P : Int) → int32 (P : Int) ≤ P) ∧
      (int32 (P : Int) < 0 → -int32 (P : Int) ≤ P) := by
    unfold int32
    omega
  generalize int32 (P : Int) = m at hm
  obtain ⟨h0, h1, h2⟩ := hm
  refine ⟨h0, ?_⟩
  have hr : (0 : Int) ≤ (r : Int) := Int.natCast_nonneg r
  have hnn := Int.tmod_nonneg m hr
  have hlt : Int.tmod (r : Int) m < P := by
    rcases lt_or_gt_of_ne h0 with hneg | hposm
    · have := Int.tmod_lt_of_pos (r : Int) (b := -m) (by omega)
      rw [Int.tmod_neg] at this
      have := h2 hneg
      omega
    · have := Int.tmod_lt_of_pos (r : Int) hposm
      have := h1 hposm
      omega
  generalize Int.tmod (r : Int) m = t at hnn hlt
  omega

theorem helperGet_some {dimX dimY : Nat} {bombs : List (List Nat)} (hok : HelperOK dimX dimY bombs)
    {x y : Nat} (hx : x < dimX) (hy : y < dimY) : ∃ v, helperGet bombs x y = .ok v := by
  have hx1 : x < bombs.length := by rw [hok.1]; exact hx
  have hc : bombs[x]? = some bombs[x] := List.getElem?_eq_getElem hx1
  have hy1 : y < (bombs[x]).length := by
    rw [hok.2.1 _ (List.getElem?_mem hc)]; exact hy
  refine ⟨(bombs[x])[y], ?_⟩
  unfold helperGet
  simp only [hc, List.getElem?_eq_getElem hy1]

theorem helperSet_some {dimX dimY : Nat} {bombs : List (List Nat)} (hok : HelperOK dimX dimY bombs)
    {x y : Nat} (hx : x < dimX) (hy : y < dimY) (v : Nat) :
    ∃ out, helperSet bombs x y v = .ok out := by
  have hx1 : x < bombs.length := by rw [hok.1]; exact hx
  have hc : bombs[x]? = some bombs[x] := List.getElem?_eq_getElem hx1
  have hy1 : y < (bombs[x]).length := by
    rw [hok.2.1 _ (List.getElem?_mem hc)]; exact hy
  refine ⟨bombs.set x ((bombs[x]).set y v), ?_⟩
  unfold helperSet
  simp only [hc, hy1, if_true]

theorem placeBombs_cons (dimX dimY nBombs b : Nat) (bombs : List (List Nat)) (r : Nat)
    (rest : List Nat) :
    placeBombs dimX dimY nBombs b bombs (r :: rest) =
      if b < nBombs then
        if int32 ((dimX : Int) * (dimY : Int)) = 0 then .error .remainderByZero
        else if dimX = 0 then .error .remainderByZero
        else
          match helperGet bombs (drawPosition dimX dimY r % dimX) (drawPosition dimX dimY r / dimX) with
          | .error e => .error e
          | .ok v =>
            if v ≠ 0 then placeBombs dimX dimY nBombs (inc16 (dec16 b)) bombs rest
            else
              match helperSet bombs (drawPosition dimX dimY r % dimX)
                  (drawPosition dimX dimY r / dimX) 1 with
              | .error e => .error e
              | .ok bombs1 => placeBombs dimX dimY nBombs (inc16 b) bombs1 rest
      else .ok bombs := by
  rw [placeBombs]
  rfl

/-- The placement loop on a non-overfull grid with 16-bit sides fails in no other way
than by running out of `rand()` values: it computes no remainder by zero and makes
no access outside the helper matrix. -/
theorem placeBombs_safe (dimX dimY nBombs : Nat) (hx : dimX < 65536) (hy : dimY < 65536)
    (hb : nBombs ≤ dimX * dimY) :
    ∀ (draws : List Nat) (b : Nat) (bombs : List (List Nat)), HelperOK dimX dimY bombs →
      ∀ e, placeBombs dimX dimY nBombs b bombs draws = .error e → e = .noMoreDraws := by
  intro draws
  induction draws with
  | nil =>
    intro b bombs _ e h
    rw [placeBombs] at h
    split_ifs at h
    simp only [Except.error.injEq] at h
    exact h.symm
  | cons r rest ih =>
    intro b bombs hok e h
    rw [placeBombs_cons] at h
    by_cases hlt : b < nBombs
    · have hpos : 0 < dimX * dimY := by omega
      obtain ⟨hne, hp⟩ := drawPosition_lt dimX dimY r hx hy hpos
      have hX : dimX ≠ 0 := by
        rintro rfl
        simp at hpos
      generalize drawPosition dimX dimY r = pos at h hp
      have hpx : pos % dimX < dimX := Nat.mod_lt _ (by omega)
      have hpy : pos / dimX < dimY := Nat.div_lt_of_lt_mul hp
      obtain ⟨v, hg⟩ := helperGet_some hok hpx hpy
      simp only [hlt, if_true, hne, if_false, hX, hg] at h
      split_ifs at h with hv
      · exact ih _ bombs hok e h
      · obtain ⟨out, hs⟩ := helperSet_some hok hpx hpy 1
        simp only [hs] at h
        exact ih _ out (helperSet_ok hs hok).1 e h
    · simp only [hlt, if_false] at h
      cases h

theorem foldlM_except_error {α : Type} (f : World → α → Except Fault World) (e0 : Fault)
    (hstep : ∀ w a e, f w a = .error e → e = e0) :
    ∀ (L : List α) (w : World) (e : Fault), L.foldlM f w = .error e → e = e0 := by
  intro L
  induction L with
  | nil =>
    intro w e h
    simp [List.foldlM_nil, pure, Except.pure] at h
  | cons a L ih =>
    intro w e h
    rw [List.foldlM_cons] at h
    cases hfa : f w a with
    | error e1 =>
      simp only [hfa, bind, Except.bind, Except.error.injEq] at h
      subst h
      exact hstep w a e1 hfa
    | ok w2 =>
      simp only [hfa, bind, Except.bind] at h
      exact ih w2 e h

theorem deleteMatrix_error {w : World} {e : Fault} (h : deleteMatrix w = .error e) :
    e = .badAddress := by
  unfold deleteMatrix at h
  cases hf : (loopYX w.dim.x w.dim.y).foldlM
      (fun w p => deleteField w (cellAddr w.dim.x p.1 p.2)) w with
  | error e1 =>
    simp only [hf, Except.error.injEq] at h
    subst h
    refine foldlM_except_error
      (fun (w : World) (p : Nat × Nat) => deleteField w (cellAddr w.dim.x p.1 p.2))
      .badAddress ?_ _ w e1 hf
    intro w1 a e2 he
    unfold deleteField at he
    cases hg : w1.fields[cellAddr w1.dim.x a.1 a.2]? with
    | none =>
      simp only [hg, Except.error.injEq] at he
      exact he.symm
    | some f => simp [hg] at he
  | ok w2 => simp [hf] at h

/-- C29: for a `Dimensions` value with 16-bit width and height and at most as many bombs
as cells (zero width or height included), and for every sequence of `rand()` values,
the placement loop of `reset` fails in no other way than by running out of values: it
computes no remainder by zero and reads or writes nothing outside the helper matrix,
and so does `reset` as a whole, which can fail besides only in `deleteMatrix`.  On a
non-empty grid every position `p` the loop computes has `p % x < x` and `p / x < y`. -/
theorem C29_placement_safe (d : Dimensions) (draws : List Nat) (hx : d.x < 65536)
    (hy : d.y < 65536) (hb : d.bombs ≤ d.x * d.y) :
    (∀ e, placeBombs d.x d.y d.bombs 0 (List.replicate d.x (List.replicate d.y 0)) draws
        = .error e → e = .noMoreDraws) ∧
    (∀ w0 e, reset w0 d draws = .error e → e = .noMoreDraws ∨ e = .badAddress) ∧
    (0 < d.x * d.y → ∀ r, drawPosition d.x d.y r % d.x < d.x ∧
      drawPosition d.x d.y r / d.x < d.y) := by
  have hsafe := placeBombs_safe d.x d.y d.bombs hx hy hb draws 0 _ (zeros_ok d.x d.y).1
  refine ⟨hsafe, ?_, ?_⟩
  · intro w0 e h
    unfold reset at h
    cases hd : deleteMatrix w0 with
    | error e1 =>
      simp only [hd, Except.error.injEq] at h
      subst h
      exact Or.inr (deleteMatrix_error hd)
    | ok w1 =>
      simp only [hd] at h
      cases hp : placeBombs d.x d.y d.bombs 0 (List.replicate d.x (List.replicate d.y 0)) draws with
      | error e1 =>
        simp only [hp, Except.error.injEq] at h
        subst h
        exact Or.inl (hsafe e1 hp)
      | ok bombs => simp [hp] at h
  · intro hpos r
    obtain ⟨-, hp⟩ := drawPosition_lt d.x d.y r hx hy hpos
    generalize drawPosition d.x d.y r = pos at hp
    have hX : 0 < d.x := by
      rcases Nat.eq_zero_or_pos d.x with h0 | h0
      · rw [h0] at hpos; simp at hpos
      · exact h0
    exact ⟨Nat.mod_lt _ hX, Nat.div_lt_of_lt_mul hp⟩

/-- C29, on `Dimensions(2, 2, 1)` without any `rand()` value, where the loop can only run
out of values, and on the 0 x 5 grid, where it does not run at all. -/
theorem C29_placement_safe_witness :
    ((Dimensions.new 2 2 1).x < 65536 ∧ (Dimensions.new 2 2 1).y < 65536 ∧
      (Dimensions.new 2 2 1).bombs ≤ (Dimensions.new 2 2 1).x * (Dimensions.new 2 2 1).y) ∧
    (∀ e, placeBombs 2 2 1 0 (List.replicate 2 (List.replicate 2 0)) [] = .error e →
      e = .noMoreDraws) ∧
    placeBombs 2 2 1 0 (List.replicate 2 (List.replicate 2 0)) [] = .error .noMoreDraws ∧
    (Dimensions.new 0 5 3).bombs = 0 ∧
    placeBombs 0 5 0 0 (List.replicate 0 (List.replicate 5 0)) [7] = .ok [] :=
  ⟨⟨by decide, by decide, by decide⟩,
    (C29_placement_safe (Dimensions.new 2 2 1) [] (by decide) (by decide) (by decide)).1,
    rfl, by decide, rfl⟩

end msm
